import Mathlib

/-!
# Thread-safe queue (`queue.c`): shallow embedding and verified properties

The C file keeps one global `Queue *queue`; every function reads and writes
memory through it.  The embedding keeps that shape: a `World` holds the global
pointer, a heap of allocated objects, the number of live synchronisation
primitives and the text written to `stderr`.  Each C function is a state
transformer `World → Outcome α`.

Results that the C library decides (what `malloc`, `mtx_init` and `cnd_init`
return, how many times a waiting thread is woken) are arguments of the
embedded function.
-/

namespace TSQueue

/-! ## Data model -/

/-- A machine address; `0` is the null pointer. -/
abbrev Ptr := Nat

/-- The null pointer. -/
abbrev NULL : Ptr := 0

/-- Number of values of `size_t` on the target: arithmetic on the counter is modulo this. -/
def SIZE_MOD : Nat := 2 ^ 64

/-- Largest value of `size_t`. -/
def SIZE_MAX : Nat := 2 ^ 64 - 1

/-- State of the `mtx_t` stored inside a `Queue`. -/
inductive Mtx where
  | indeterminate
  | unlocked
  | locked
  deriving DecidableEq, Repr

/-- State of the `cnd_t` stored inside a `Queue`. -/
inductive Cnd where
  | indeterminate
  | ready
  deriving DecidableEq, Repr

/-- The C struct `QueueNode`: `void *data; struct QueueNode *next;`. -/
structure QueueNode where
  data : Ptr
  next : Ptr
  deriving DecidableEq, Repr

/-- The C struct `Queue`: `head`, `tail`, `visited`, `mutex`, `notEmpty`. -/
structure Queue where
  head : Ptr
  tail : Ptr
  visited : Nat
  mutex : Mtx
  notEmpty : Cnd
  deriving DecidableEq, Repr

/-- What an allocated address holds: a node, a queue, or one word owned by the caller
(a payload object, or the `void *` slot that `tryDequeue` writes through). -/
inductive Obj where
  | node (n : QueueNode)
  | queue (q : Queue)
  | user (v : Ptr)
  deriving DecidableEq, Repr

/-- The allocated memory: `none` at an address that holds no live object. -/
abbrev Heap := Ptr → Option Obj

/-- The whole program state seen by `queue.c`. -/
structure World where
  /-- The global `static Queue *queue`. -/
  queue : Ptr
  /-- Allocated objects. -/
  mem : Heap
  /-- Mutexes initialised by `mtx_init` and not yet destroyed. -/
  mtxLive : Nat
  /-- Condition variables initialised by `cnd_init` and not yet destroyed. -/
  cndLive : Nat
  /-- Messages written to `stderr`, oldest first. -/
  stderr : List String

/-- How a call ends. -/
inductive Outcome (α : Type) where
  /-- The call returns `v`, leaving the world `w`. -/
  | ret (v : α) (w : World)
  /-- The call never returns: the thread is suspended in world `w`
  (inside `cnd_wait`, or on a mutex that is already locked). -/
  | blocked (w : World)
  /-- A loop used up its iteration budget. -/
  | diverged
  /-- The call has no defined behaviour (invalid memory access, misuse of a primitive,
  or an allocator result that breaks the contract of `malloc`). -/
  | fault

/-- A C function body: a state transformer that may block or fault. -/
def M (α : Type) : Type := World → Outcome α

/-- Sequencing of two computations. -/
def M.bind {α β : Type} (m : M α) (f : α → M β) : M β := fun w =>
  match m w with
  | .ret a w1 => f a w1
  | .blocked w1 => .blocked w1
  | .diverged => .diverged
  | .fault => .fault

instance : Monad M where
  pure a := fun w => .ret a w
  bind := M.bind

/-! ## Primitive actions -/

/-- Undefined behaviour. -/
def crash {α : Type} : M α := fun _ => .fault

/-- Read the global `queue`. -/
def getQueue : M Ptr := fun w => .ret w.queue w

/-- Assign the global `queue`. -/
def setQueue (p : Ptr) : M Unit := fun w => .ret () { w with queue := p }

/-- Read the object at `p`. -/
def load (p : Ptr) : M Obj := fun w =>
  match w.mem p with
  | some o => .ret o w
  | none => .fault

/-- Overwrite the live object at `p`. -/
def store (p : Ptr) (o : Obj) : M Unit := fun w =>
  match w.mem p with
  | some _ => .ret () { w with mem := Function.update w.mem p (some o) }
  | none => .fault

/-- The allocator hands out the block at `r` (`r = NULL`: it fails), which from then on
holds `o`: `malloc` followed by the assignments that initialise the block.  The allocator
never hands out a live block. -/
def malloc (r : Ptr) (o : Obj) : M Ptr := fun w =>
  if r = NULL then .ret NULL w
  else match w.mem r with
    | none => .ret r { w with mem := Function.update w.mem r (some o) }
    | some _ => .fault

/-- The C library `free`. -/
def free (p : Ptr) : M Unit := fun w =>
  if p = NULL then .ret () w
  else match w.mem p with
    | some _ => .ret () { w with mem := Function.update w.mem p none }
    | none => .fault

/-- Read the `Queue` at `p`. -/
def loadQueue (p : Ptr) : M Queue := do
  match (← load p) with
  | .queue q => pure q
  | _ => crash

/-- Read the `QueueNode` at `p`. -/
def loadNode (p : Ptr) : M QueueNode := do
  match (← load p) with
  | .node n => pure n
  | _ => crash

/-- Evaluate `queue->f`. -/
def qget {α : Type} (f : Queue → α) : M α := do
  let q ← loadQueue (← getQueue)
  pure (f q)

/-- Assign to fields of `*queue`. -/
def qset (f : Queue → Queue) : M Unit := do
  let p ← getQueue
  let q ← loadQueue p
  store p (.queue (f q))

/-- Assign `p->next = nxt`. -/
def setNext (p nxt : Ptr) : M Unit := do
  let n ← loadNode p
  store p (.node { n with next := nxt })

/-- Assign `*slot = v` through a caller supplied `void **`. -/
def storeOut (slot v : Ptr) : M Unit := do
  match (← load slot) with
  | .user _ => store slot (.user v)
  | _ => crash

/-- The call `perror(msg)`. -/
def perror (msg : String) : M Unit := fun w =>
  .ret () { w with stderr := w.stderr ++ [msg] }

/-- The call `fprintf(stderr, msg)`. -/
def fprintfStderr (msg : String) : M Unit := fun w =>
  .ret () { w with stderr := w.stderr ++ [msg] }

/-- The call `mtx_init(&queue->mutex, mtx_plain)`; `ok` says whether it succeeds. -/
def mtx_init (ok : Bool) : M Bool := do
  if ok then
    qset fun q => { q with mutex := .unlocked }
    fun w => .ret true { w with mtxLive := w.mtxLive + 1 }
  else
    pure false

/-- The call `cnd_init(&queue->notEmpty)`; `ok` says whether it succeeds. -/
def cnd_init (ok : Bool) : M Bool := do
  if ok then
    qset fun q => { q with notEmpty := .ready }
    fun w => .ret true { w with cndLive := w.cndLive + 1 }
  else
    pure false

/-- The call `mtx_destroy(&queue->mutex)`. -/
def mtx_destroy : M Unit := do
  match (← qget Queue.mutex) with
  | .unlocked =>
    qset fun q => { q with mutex := .indeterminate }
    fun w => .ret () { w with mtxLive := w.mtxLive - 1 }
  | _ => crash

/-- The call `cnd_destroy(&queue->notEmpty)`. -/
def cnd_destroy : M Unit := do
  match (← qget Queue.notEmpty) with
  | .ready =>
    qset fun q => { q with notEmpty := .indeterminate }
    fun w => .ret () { w with cndLive := w.cndLive - 1 }
  | .indeterminate => crash

/-- The call `mtx_lock(&queue->mutex)`: a plain mutex that is already locked is never
acquired when no other thread runs. -/
def mtx_lock : M Unit := do
  match (← qget Queue.mutex) with
  | .unlocked => qset fun q => { q with mutex := .locked }
  | .locked => fun w => .blocked w
  | .indeterminate => crash

/-- The call `mtx_unlock(&queue->mutex)`. -/
def mtx_unlock : M Unit := do
  match (← qget Queue.mutex) with
  | .locked => qset fun q => { q with mutex := .unlocked }
  | _ => crash

/-- The call `cnd_signal(&queue->notEmpty)`: no thread is waiting, nothing changes. -/
def cnd_signal : M Unit := do
  match (← qget Queue.notEmpty) with
  | .ready => pure ()
  | .indeterminate => crash

/-- The call `cnd_wait(&queue->notEmpty, &queue->mutex)` that is woken up: the mutex is
released, no other thread touches the queue, the mutex is taken again. -/
def cnd_wait : M Unit := do
  match (← qget Queue.notEmpty) with
  | .ready =>
    mtx_unlock
    mtx_lock
  | .indeterminate => crash

/-- The call `cnd_wait(&queue->notEmpty, &queue->mutex)` that is never woken up: the
mutex is released and the thread stays suspended. -/
def cnd_wait_forever {α : Type} : M α := do
  match (← qget Queue.notEmpty) with
  | .ready =>
    mtx_unlock
    fun w => .blocked w
  | .indeterminate => crash

/-! ## The functions of `queue.c` -/

/-- Text of the first `perror` of `initQueue` and of the one in `enqueue`. -/
def msgAlloc : String := "Memory allocation error"

/-- Text of the second `perror` of `initQueue`. -/
def msgMutex : String := "Mutex initialization error"

/-- Text of the third `perror` of `initQueue`. -/
def msgCnd : String := "Condition variable initialization error"

/-- Text printed by `enqueue`, `dequeue` and `tryDequeue` when `queue == NULL`. -/
def msgNotInit : String := "Queue not initialized.\n"

/-- The function `initQueue`.  `r` is what `malloc` returns, `mtxOk` and `cndOk` say
whether `mtx_init` and `cnd_init` return `thrd_success`. -/
def initQueue (r : Ptr) (mtxOk cndOk : Bool) : M Unit := do
  let p ← malloc r (.queue
    { head := NULL, tail := NULL, visited := 0, mutex := .indeterminate,
      notEmpty := .indeterminate })
  setQueue p
  if (← getQueue) = NULL then
    perror msgAlloc
    return
  if (← mtx_init mtxOk) ≠ true then
    perror msgMutex
    free (← getQueue)
    setQueue NULL
    return
  if (← cnd_init cndOk) ≠ true then
    perror msgCnd
    mtx_destroy
    free (← getQueue)
    setQueue NULL
    return

/-- The loop `while (queue->head != NULL)` of `destroyQueue`, run for at most `fuel`
iterations. -/
def destroyLoop : Nat → M Unit
  | 0 => do
    if (← qget Queue.head) ≠ NULL then
      fun _ => .diverged
  | fuel + 1 => do
    if (← qget Queue.head) ≠ NULL then
      let temp ← qget Queue.head
      let nxt := (← loadNode (← qget Queue.head)).next
      qset fun q => { q with head := nxt }
      free temp
      destroyLoop fuel

/-- The function `destroyQueue`; `fuel` bounds the iterations of its loop. -/
def destroyQueue (fuel : Nat) : M Unit := do
  if (← getQueue) = NULL then
    return
  mtx_lock
  destroyLoop fuel
  mtx_unlock
  mtx_destroy
  cnd_destroy
  free (← getQueue)
  setQueue NULL

/-- The function `enqueue`.  `r` is what `malloc` returns for the new node. -/
def enqueue (item : Ptr) (r : Ptr) : M Unit := do
  if (← getQueue) = NULL then
    fprintfStderr msgNotInit
    return
  let newNode ← malloc r (.node { data := item, next := NULL })
  if newNode = NULL then
    perror msgAlloc
    return
  mtx_lock
  if (← qget Queue.tail) = NULL then
    qset fun q => { q with head := newNode }
  else
    setNext (← qget Queue.tail) newNode
  qset fun q => { q with tail := newNode }
  cnd_signal
  mtx_unlock

/-- The loop `while (queue->head == NULL) cnd_wait(...)` of `dequeue`; `wakeups` is
the number of times the waiting thread is woken up. -/
def waitNotEmpty : Nat → M Unit
  | 0 => do
    if (← qget Queue.head) = NULL then
      cnd_wait_forever
  | wakeups + 1 => do
    if (← qget Queue.head) = NULL then
      cnd_wait
      waitNotEmpty wakeups

/-- The function `dequeue`; `wakeups` is the number of times the thread is woken
while it waits. -/
def dequeue (wakeups : Nat) : M Ptr := do
  if (← getQueue) = NULL then
    fprintfStderr msgNotInit
    return NULL
  mtx_lock
  waitNotEmpty wakeups
  let temp ← qget Queue.head
  let item := (← loadNode temp).data
  let nxt := (← loadNode (← qget Queue.head)).next
  qset fun q => { q with head := nxt }
  if (← qget Queue.head) = NULL then
    qset fun q => { q with tail := NULL }
  qset fun q => { q with visited := (q.visited + 1) % SIZE_MOD }
  free temp
  mtx_unlock
  return item

/-- The function `tryDequeue`; `item` is the caller's `void **`. -/
def tryDequeue (item : Ptr) : M Bool := do
  if (← getQueue) = NULL then
    fprintfStderr msgNotInit
    return false
  mtx_lock
  if (← qget Queue.head) = NULL then
    mtx_unlock
    return false
  let temp ← qget Queue.head
  storeOut item (← loadNode temp).data
  let nxt := (← loadNode (← qget Queue.head)).next
  qset fun q => { q with head := nxt }
  if (← qget Queue.head) = NULL then
    qset fun q => { q with tail := NULL }
  qset fun q => { q with visited := (q.visited + 1) % SIZE_MOD }
  free temp
  mtx_unlock
  return true

/-- The function `visited`. -/
def visited : M Nat := do
  if (← getQueue) = NULL then
    return 0
  mtx_lock
  let result ← qget Queue.visited
  mtx_unlock
  return result

/-! ## States of the system -/

/-- The system is in the state the spec calls Uninitialized. -/
def Uninitialized (w : World) : Prop := w.queue = NULL

/-- The system is Ready and `*queue` is `q`: the global points to a live `Queue` whose
mutex is free and whose condition variable is constructed. -/
def ReadyWith (w : World) (q : Queue) : Prop :=
  w.queue ≠ NULL ∧ w.mem w.queue = some (.queue q) ∧ q.mutex = .unlocked ∧ q.notEmpty = .ready

/-- Address of the first cell of a chain given as (address, payload) pairs; `NULL` when
there is none. -/
def headAddr : List (Ptr × Ptr) → Ptr
  | [] => NULL
  | c :: _ => c.1

/-- Address of the last cell of a chain; `NULL` when there is none. -/
def lastAddr : List (Ptr × Ptr) → Ptr
  | [] => NULL
  | [c] => c.1
  | _ :: c :: cs => lastAddr (c :: cs)

/-- The cells `cs`, given as (address, payload) pairs, are linked in memory in this order:
each is a live node holding its payload whose `next` is the following cell, `NULL` for
the last. -/
def Chain (mem : Heap) : List (Ptr × Ptr) → Prop
  | [] => True
  | c :: cs => c.1 ≠ NULL ∧ mem c.1 = some (.node { data := c.2, next := headAddr cs }) ∧
      Chain mem cs

/-- The system is Ready, `*queue` is `q`, and the queue holds exactly the cells `cs`. -/
def Holds (w : World) (q : Queue) (cs : List (Ptr × Ptr)) : Prop :=
  ReadyWith w q ∧ q.head = headAddr cs ∧ q.tail = lastAddr cs ∧ Chain w.mem cs

/-- The payloads of a chain, oldest first. -/
def payloads (cs : List (Ptr × Ptr)) : List Ptr := cs.map Prod.snd

/-- The addresses of a chain. -/
def addrs (cs : List (Ptr × Ptr)) : List Ptr := cs.map Prod.fst

instance (mem : Heap) : (cs : List (Ptr × Ptr)) → Decidable (Chain mem cs)
  | [] => isTrue trivial
  | _ :: cs =>
    have := instDecidableChain mem cs
    inferInstanceAs (Decidable (_ ∧ _ ∧ _))

/-- The `Queue` that a successful `initQueue` builds. -/
def freshQueue : Queue :=
  { head := NULL, tail := NULL, visited := 0, mutex := .unlocked, notEmpty := .ready }

/-! ## Sequences of calls -/

/-- One call of the API together with what the C library decides during it: the block
`malloc` returns inside `enqueue`, the number of wake-ups of a waiting `dequeue`, the
`void **` handed to `tryDequeue`. -/
inductive Call where
  | enqueue (item r : Ptr)
  | dequeue (wakeups : Nat)
  | tryDequeue (slot : Ptr)
  | visited
  deriving DecidableEq, Repr

/-- What a call returned. -/
inductive Result where
  | done
  | item (p : Ptr)
  | flag (b : Bool)
  | count (n : Nat)
  deriving DecidableEq, Repr

/-- Perform one call. -/
def call : Call → M Result
  | .enqueue x r => do
    enqueue x r
    pure .done
  | .dequeue k => do
    pure (.item (← dequeue k))
  | .tryDequeue slot => do
    pure (.flag (← tryDequeue slot))
  | .visited => do
    pure (.count (← visited))

/-- Perform the calls one after the other and collect what they return. -/
def calls : List Call → M (List Result)
  | [] => pure []
  | c :: cs => do
    let r ← call c
    let rs ← calls cs
    pure (r :: rs)

/-- One for a successful removal (a `dequeue` that returned, a `tryDequeue` that returned
`true`), zero for any other returned call. -/
def Result.removal : Result → Nat
  | .item _ => 1
  | .flag true => 1
  | _ => 0

/-- Number of successful removals among the returned calls. -/
def removals (rs : List Result) : Nat := (rs.map Result.removal).sum

/-- The list `xs` repeated `n` times. -/
def cycle {α : Type} : Nat → List α → List α
  | 0, _ => []
  | n + 1, xs => xs ++ cycle n xs

/-! ## States used as examples -/

/-- The state at program start: `queue == NULL`, nothing allocated. -/
def startWorld : World :=
  { queue := NULL, mem := fun _ => none, mtxLive := 0, cndLive := 0, stderr := [] }

/-- The state at program start, with one word of the caller at address 3 that holds 7. -/
def slotWorld : World :=
  { queue := NULL, mem := fun a => if a = 3 then some (.user 7) else none,
    mtxLive := 0, cndLive := 0, stderr := [] }

/-- An empty `Queue` whose counter is `c`. -/
def idleQueue (c : Nat) : Queue :=
  { head := NULL, tail := NULL, visited := c, mutex := .unlocked, notEmpty := .ready }

/-- A Ready state with the queue at address 1, no node, `visited == c`, and a caller's
slot at address 3 that holds 7. -/
def idleWorld (c : Nat) : World :=
  { queue := 1,
    mem := fun a =>
      if a = 1 then some (.queue (idleQueue c))
      else if a = 3 then some (.user 7) else none,
    mtxLive := 1, cndLive := 1, stderr := [] }

/-- The `Queue` of the state `lastWorld`. -/
def lastQueue : Queue :=
  { head := 2, tail := 2, visited := SIZE_MAX, mutex := .unlocked, notEmpty := .ready }

/-- A Ready state whose counter has the largest value of `size_t` and whose chain is the
single node at address 2 with payload 7. -/
def lastWorld : World :=
  { queue := 1,
    mem := fun a =>
      if a = 1 then some (.queue lastQueue)
      else if a = 2 then some (.node { data := 7, next := NULL }) else none,
    mtxLive := 1, cndLive := 1, stderr := [] }

/-- The `Queue` of the state `loadedWorld`. -/
def loadedQueue : Queue :=
  { head := 4, tail := 6, visited := 2, mutex := .unlocked, notEmpty := .ready }

/-- A Ready state with three queued nodes at addresses 4, 5, 6 whose payloads 10, 20, 30
point to three words of the caller, and a caller's slot at address 3. -/
def loadedWorld : World :=
  { queue := 1,
    mem := fun a =>
      if a = 1 then some (.queue loadedQueue)
      else if a = 3 then some (.user 7)
      else if a = 4 then some (.node { data := 10, next := 5 })
      else if a = 5 then some (.node { data := 20, next := 6 })
      else if a = 6 then some (.node { data := 30, next := NULL })
      else if a = 10 then some (.user 100)
      else if a = 20 then some (.user 200)
      else if a = 30 then some (.user 300)
      else none,
    mtxLive := 1, cndLive := 1, stderr := [] }

/-- A Ready state whose only queued node, at address 2, carries the null payload; a
caller's slot at address 3 holds 7. -/
def nullHeadWorld : World :=
  { queue := 1,
    mem := fun a =>
      if a = 1 then some (.queue
        { head := 2, tail := 2, visited := 0, mutex := .unlocked, notEmpty := .ready })
      else if a = 2 then some (.node { data := NULL, next := NULL })
      else if a = 3 then some (.user 7) else none,
    mtxLive := 1, cndLive := 1, stderr := [] }

/-! ## Reading the chain and a sequence of calls -/

/-- The `next` field of the node at `p`; `NULL` when `p` holds no node. -/
def nextOf (mem : Heap) (p : Ptr) : Ptr :=
  match mem p with
  | some (.node n) => n.next
  | _ => NULL

/-- The address reached from `p` by following `k` `next` links. -/
def follow (mem : Heap) : Nat → Ptr → Ptr
  | 0, p => p
  | k + 1, p => follow mem k (nextOf mem p)

/-- The payloads handed to the `enqueue` calls of a sequence whose allocation succeeds,
in call order. -/
def itemsEnqueued : List Call → List Ptr
  | [] => []
  | .enqueue x r :: cl => if r = NULL then itemsEnqueued cl else x :: itemsEnqueued cl
  | _ :: cl => itemsEnqueued cl

/-- Number of successful `enqueue` calls of a sequence. -/
def enqueued (cl : List Call) : Nat := (itemsEnqueued cl).length

/-- The payload a returned call hands to its caller: the pointer `dequeue` returns, or
the pointer a `tryDequeue` that returned `true` has stored through its `void **`, read in
the state `w1` the call leaves; no payload for any other call. -/
def handedOut (c : Call) (r : Result) (w1 : World) : List Ptr :=
  match c, r with
  | .dequeue _, .item x => [x]
  | .tryDequeue slot, .flag true =>
    match w1.mem slot with
    | some (.user x) => [x]
    | _ => []
  | _, _ => []

/-- The payloads that the calls of a sequence, run one after the other from the state
`w`, hand to their callers, in call order. -/
def itemsHandedOut : List Call → World → List Ptr
  | [], _ => []
  | c :: cl, w =>
    match call c w with
    | .ret r w1 => handedOut c r w1 ++ itemsHandedOut cl w1
    | _ => []

/-! ## The abstract queue -/

/-- A concrete result agrees with an abstract one: they are equal, except that `visited`
returns the abstract counter reduced modulo 2^64. -/
def Result.agrees : Result → Result → Prop
  | .count n, .count m => n = m % SIZE_MOD
  | r, ra => r = ra

/-! ## Threads: `enqueue` one statement at a time -/

/-- Where a thread stands inside a call `enqueue(item)`: before the statement named;
`newNode` is the local variable of the call. -/
inductive EnqPc where
  | guard
  | alloc
  | lock (newNode : Ptr)
  | link (newNode : Ptr)
  | setTail (newNode : Ptr)
  | signal
  | unlock
  | done
  deriving DecidableEq, Repr

/-- One statement of `enqueue(item)`, `r` being what `malloc` returns: the test of
`queue` (line 88), the allocation and initialisation of the node (lines 95 to 102),
`mtx_lock` (104), the `if` that links the node (107 to 114), `queue->tail = newNode`
(115), `cnd_signal` (118), `mtx_unlock` (119). -/
def enqStep (item r : Ptr) : EnqPc → M EnqPc
  | .guard => do
    if (← getQueue) = NULL then
      fprintfStderr msgNotInit
      return .done
    return .alloc
  | .alloc => do
    let newNode ← malloc r (.node { data := item, next := NULL })
    if newNode = NULL then
      perror msgAlloc
      return .done
    return .lock newNode
  | .lock newNode => do
    mtx_lock
    return .link newNode
  | .link newNode => do
    if (← qget Queue.tail) = NULL then
      qset fun q => { q with head := newNode }
    else
      setNext (← qget Queue.tail) newNode
    return .setTail newNode
  | .setTail newNode => do
    qset fun q => { q with tail := newNode }
    return .signal
  | .signal => do
    cnd_signal
    return .unlock
  | .unlock => do
    mtx_unlock
    return .done
  | .done => return .done

/-- Run `n` statements of `enqueue(item)` from `pc`. -/
def enqSteps (item r : Ptr) : Nat → EnqPc → M EnqPc
  | 0, pc => pure pc
  | n + 1, pc => do
    let pc1 ← enqStep item r pc
    enqSteps item r n pc1

/-- The thread holds the mutex: it is between `mtx_lock` and `mtx_unlock`. -/
def EnqPc.inside : EnqPc → Bool
  | .link _ => true
  | .setTail _ => true
  | .signal => true
  | .unlock => true
  | _ => false

/-- The node of the current call is linked into the chain. -/
def EnqPc.linked : EnqPc → Bool
  | .setTail _ => true
  | .signal => true
  | .unlock => true
  | _ => false

/-- A producer thread: where it stands in its current call, and the calls it has still
to finish, the current one first, each given as (block `malloc` returns, item). -/
structure Producer where
  pc : EnqPc
  todo : List (Ptr × Ptr)
  deriving DecidableEq, Repr

/-- The producer executes its next statement; when that ends the current call it turns
to the next one.  A producer with nothing to do stays as it is. -/
def Producer.step (t : Producer) : M Producer :=
  match t.todo with
  | [] => pure t
  | c :: rest => do
    let pc1 ← enqStep c.2 c.1 t.pc
    if pc1 = .done then
      pure { pc := .guard, todo := rest }
    else
      pure { pc := pc1, todo := t.todo }

/-- Two producers run concurrently under the schedule `s`: at each entry the first
(`true`) or the second (`false`) executes its next statement. -/
def runProducers : List Bool → Producer → Producer → M (Producer × Producer)
  | [], a, b => pure (a, b)
  | true :: s, a, b => do
    let a1 ← a.step
    runProducers s a1 b
  | false :: s, a, b => do
    let b1 ← b.step
    runProducers s a b1

/-- Where the producer stands after its next statement, when every allocation succeeds. -/
def Producer.advance (t : Producer) : Producer :=
  match t.todo with
  | [] => t
  | c :: rest =>
    match t.pc with
    | .guard => { t with pc := .alloc }
    | .alloc => { t with pc := .lock c.1 }
    | .lock n => { t with pc := .link n }
    | .link n => { t with pc := .setTail n }
    | .setTail _ => { t with pc := .signal }
    | .signal => { t with pc := .unlock }
    | .unlock => { pc := .guard, todo := rest }
    | .done => { pc := .guard, todo := rest }

/-- The producer can execute its next statement while the other producer stands at
`other`: `mtx_lock` needs the other one outside its critical section. -/
def Producer.enabled (t : Producer) (other : EnqPc) : Bool :=
  match t.todo, t.pc with
  | _ :: _, .lock _ => !other.inside
  | _, _ => true

/-- Every statement of the schedule is executed when its producer can execute it. -/
def enabledSchedule : List Bool → Producer → Producer → Bool
  | [], _, _ => true
  | true :: s, a, b => a.enabled b.pc && enabledSchedule s a.advance b
  | false :: s, a, b => b.enabled a.pc && enabledSchedule s a b.advance

/-- Where the two producers stand after the schedule. -/
def advanceSchedule : List Bool → Producer → Producer → Producer × Producer
  | [], a, b => (a, b)
  | true :: s, a, b => advanceSchedule s a.advance b
  | false :: s, a, b => advanceSchedule s a b.advance

/-- The cells of the producer that are not in the chain yet: all of `todo`, but for the
current one once it is linked. -/
def Producer.remaining (t : Producer) : List (Ptr × Ptr) :=
  if t.pc.linked then t.todo.tail else t.todo

/-- The list `l` is an interleaving of `xs` and `ys`: it keeps the order of each. -/
inductive Interleaving {α : Type} : List α → List α → List α → Prop where
  | nil : Interleaving [] [] []
  | left (x : α) {xs ys l : List α} : Interleaving xs ys l → Interleaving (x :: xs) ys (x :: l)
  | right (y : α) {xs ys l : List α} : Interleaving xs ys l → Interleaving xs (y :: ys) (y :: l)

/-- Same as `Holds`, with the mutex in the state `m`. -/
def HoldsM (m : Mtx) (w : World) (q : Queue) (cs : List (Ptr × Ptr)) : Prop :=
  w.queue ≠ NULL ∧ w.mem w.queue = some (.queue q) ∧ q.mutex = m ∧ q.notEmpty = .ready ∧
    q.head = headAddr cs ∧ q.tail = lastAddr cs ∧ Chain w.mem cs

/-- What the state owes to one producer, the chain linked so far being `cs`: its node
is allocated and initialised from the allocation until the node is linked, and `tail`
lags one cell behind between the linking and `queue->tail = newNode`. -/
def ProducerOk (w : World) (q : Queue) (cs : List (Ptr × Ptr)) (t : Producer) : Prop :=
  match t.pc with
  | .guard => True
  | .alloc => t.todo ≠ []
  | .lock n => ∃ x rest, t.todo = (n, x) :: rest ∧ n ≠ NULL ∧
      w.mem n = some (.node { data := x, next := NULL }) ∧ n ∉ addrs cs
  | .link n => ∃ x rest, t.todo = (n, x) :: rest ∧ n ≠ NULL ∧
      w.mem n = some (.node { data := x, next := NULL }) ∧ n ∉ addrs cs
  | .setTail n => ∃ x rest front, t.todo = (n, x) :: rest ∧ cs = front ++ [(n, x)] ∧
      q.tail = lastAddr front
  | .signal => t.todo ≠ []
  | .unlock => t.todo ≠ []
  | .done => False

/-- The cells whose block the producer has still to allocate. -/
def Producer.future (t : Producer) : List (Ptr × Ptr) :=
  match t.pc with
  | .guard => t.todo
  | .alloc => t.todo
  | _ => t.todo.tail

/-- The blocks the producer will still allocate are not null and not live. -/
def ProducerFresh (w : World) (t : Producer) : Prop :=
  ∀ c ∈ t.future, c.1 ≠ NULL ∧ w.mem c.1 = none

/-- The invariant of two producers running concurrently: `cs` is the chain linked so
far, `da` and `db` the cells each producer has linked. -/
def ProducersInv (w : World) (a b : Producer) (da db cs : List (Ptr × Ptr)) : Prop :=
  ∃ q, w.queue ≠ NULL ∧ w.mem w.queue = some (.queue q) ∧ q.notEmpty = .ready ∧
    q.mutex = (if a.pc.inside || b.pc.inside then Mtx.locked else Mtx.unlocked) ∧
    ¬ (a.pc.inside = true ∧ b.pc.inside = true) ∧
    q.head = headAddr cs ∧ Chain w.mem cs ∧
    ((∀ n, a.pc ≠ .setTail n) → (∀ n, b.pc ≠ .setTail n) → q.tail = lastAddr cs) ∧
    ProducerOk w q cs a ∧ ProducerOk w q cs b ∧
    ProducerFresh w a ∧ ProducerFresh w b ∧
    (addrs a.remaining ++ addrs b.remaining).Nodup ∧
    Interleaving da db cs

/-! ## Threads: `dequeue` one statement at a time -/

/-- The first half of `cnd_wait(&queue->notEmpty, &queue->mutex)`: the mutex is released
and the thread is suspended. -/
def cnd_wait_suspend : M Unit := do
  match (← qget Queue.notEmpty) with
  | .ready => mtx_unlock
  | .indeterminate => crash

/-- Where a thread stands inside a call `dequeue()`: before the statement named, or
suspended inside `cnd_wait` (`wait`); `item` is the local variable of the call. -/
inductive DeqPc where
  | guard
  | lock
  | test
  | wait
  | remove
  | unlock (item : Ptr)
  | done (item : Ptr)
  deriving DecidableEq, Repr

/-- One step of a thread in `dequeue()`: the test of `queue` (line 125), `mtx_lock`
(131), the test `queue->head == NULL` of the loop (134), which leads into `cnd_wait`
where the mutex is released and the thread suspended (136) or out of the loop; the
wake-up, which takes the mutex again and leads back to the test; the removal (140 to
149); `mtx_unlock` (150); the return (152). -/
def deqStep : DeqPc → M DeqPc
  | .guard => do
    if (← getQueue) = NULL then
      fprintfStderr msgNotInit
      return .done NULL
    return .lock
  | .lock => do
    mtx_lock
    return .test
  | .test => do
    if (← qget Queue.head) = NULL then
      cnd_wait_suspend
      return .wait
    return .remove
  | .wait => do
    mtx_lock
    return .test
  | .remove => do
    let temp ← qget Queue.head
    let item := (← loadNode temp).data
    let nxt := (← loadNode (← qget Queue.head)).next
    qset fun q => { q with head := nxt }
    if (← qget Queue.head) = NULL then
      qset fun q => { q with tail := NULL }
    qset fun q => { q with visited := (q.visited + 1) % SIZE_MOD }
    free temp
    return .unlock item
  | .unlock item => do
    mtx_unlock
    return .done item
  | .done item => return .done item

/-- What happens next in a system made of one thread inside `dequeue()` and of other
threads: the thread executes its next step, or another thread makes a call. -/
inductive Event where
  | own
  | other (c : Call)
  deriving DecidableEq, Repr

/-- The thread in `dequeue()` and the other threads run as the events say. -/
def deqSystem : List Event → DeqPc → M DeqPc
  | [], pc => pure pc
  | .own :: es, pc => do
    let pc1 ← deqStep pc
    deqSystem es pc1
  | .other c :: es, pc => do
    let _ ← call c
    deqSystem es pc

/-- The calls the other threads make. -/
def otherCalls : List Event → List Call
  | [] => []
  | .own :: es => otherCalls es
  | .other c :: es => c :: otherCalls es

/-- The thread in `dequeue()` alone, from the removal on: removal, `mtx_unlock`,
return. -/
def deqFinish (pc : DeqPc) : M Ptr := do
  match (← deqStep (← deqStep pc)) with
  | .done item => pure item
  | _ => crash

/-- The thread in `dequeue()` alone, from the test of the loop on, woken `wakeups`
times. -/
def deqAlone : Nat → M Ptr
  | 0 => do
    match (← deqStep .test) with
    | .wait => fun w => .blocked w
    | pc => deqFinish pc
  | wakeups + 1 => do
    match (← deqStep .test) with
    | .wait => do
      let _ ← deqStep .wait
      deqAlone wakeups
    | pc => deqFinish pc

/-- The invariant of the system of one thread in `dequeue()` and other threads; `enq`
lists the payloads queued at the start and those the other threads have enqueued. -/
def DeqInv (enq : List Ptr) (pc : DeqPc) (w : World) : Prop :=
  match pc with
  | .guard => ∃ q cs, Holds w q cs ∧ ∀ y ∈ payloads cs, y ∈ enq
  | .lock => ∃ q cs, Holds w q cs ∧ ∀ y ∈ payloads cs, y ∈ enq
  | .wait => ∃ q cs, Holds w q cs ∧ ∀ y ∈ payloads cs, y ∈ enq
  | .test => ∃ q cs, HoldsM .locked w q cs ∧ ∀ y ∈ payloads cs, y ∈ enq
  | .remove => ∃ q a x rest, HoldsM .locked w q ((a, x) :: rest) ∧
      ∀ y ∈ payloads ((a, x) :: rest), y ∈ enq
  | .unlock x => ∃ q cs, HoldsM .locked w q cs ∧ (∀ y ∈ payloads cs, y ∈ enq) ∧ x ∈ enq
  | .done x => ∃ q cs, Holds w q cs ∧ (∀ y ∈ payloads cs, y ∈ enq) ∧ x ∈ enq

/-! ## Lemmas: chains -/

theorem headAddr_eq_null_iff {mem : Heap} {cs : List (Ptr × Ptr)} (h : Chain mem cs) :
    headAddr cs = NULL ↔ cs = [] := by
  cases cs with
  | nil => simp [headAddr]
  | cons c cs => simp [headAddr]; exact h.1

theorem lastAddr_append (cs : List (Ptr × Ptr)) (c : Ptr × Ptr) : lastAddr (cs ++ [c]) = c.1 := by
  induction cs with
  | nil => rfl
  | cons d ds ih =>
    cases ds with
    | nil => rfl
    | cons e es => simpa [lastAddr] using ih

theorem lastAddr_mem {cs : List (Ptr × Ptr)} (h : cs ≠ []) : lastAddr cs ∈ addrs cs := by
  induction cs with
  | nil => exact absurd rfl h
  | cons d ds ih =>
    cases ds with
    | nil => simp [lastAddr, addrs]
    | cons e es =>
      have := ih (by simp)
      simp only [lastAddr, addrs, List.map_cons, List.mem_cons] at this ⊢
      exact Or.inr this

theorem lastAddr_cons_ne {c : Ptr × Ptr} {cs : List (Ptr × Ptr)} (h : cs ≠ []) :
    lastAddr (c :: cs) = lastAddr cs := by
  cases cs with
  | nil => exact absurd rfl h
  | cons e es => rfl

theorem Chain.frame {mem mem1 : Heap} {cs : List (Ptr × Ptr)} (h : Chain mem cs)
    (hf : ∀ a ∈ addrs cs, mem1 a = mem a) : Chain mem1 cs := by
  induction cs with
  | nil => trivial
  | cons c cs ih =>
    refine ⟨h.1, ?_, ih h.2.2 fun a ha => hf a (by simp [addrs] at ha ⊢; exact Or.inr ha)⟩
    rw [hf c.1 (by simp [addrs])]; exact h.2.1

theorem Chain.addr_ne_null {mem : Heap} {cs : List (Ptr × Ptr)} (h : Chain mem cs) :
    ∀ a ∈ addrs cs, a ≠ NULL := by
  induction cs with
  | nil => simp [addrs]
  | cons c cs ih =>
    intro a ha
    simp only [addrs, List.map_cons, List.mem_cons] at ha
    rcases ha with rfl | ha
    · exact h.1
    · exact ih h.2.2 a ha

theorem Chain.is_node {mem : Heap} {cs : List (Ptr × Ptr)} (h : Chain mem cs) :
    ∀ a ∈ addrs cs, ∃ n, mem a = some (.node n) := by
  induction cs with
  | nil => simp [addrs]
  | cons c cs ih =>
    intro a ha
    simp only [addrs, List.map_cons, List.mem_cons] at ha
    rcases ha with rfl | ha
    · exact ⟨_, h.2.1⟩
    · exact ih h.2.2 a ha

/-- Two chains in the same memory that start at the same address are the same chain. -/
theorem Chain.unique {mem : Heap} : ∀ {cs ds : List (Ptr × Ptr)}, Chain mem cs → Chain mem ds →
    headAddr cs = headAddr ds → cs = ds
  | [], [], _, _, _ => rfl
  | [], d :: ds, _, hd, e => absurd e.symm hd.1
  | c :: cs, [], hc, _, e => absurd e hc.1
  | c :: cs, d :: ds, hc, hd, e => by
    obtain ⟨c1, c2⟩ := c
    obtain ⟨d1, d2⟩ := d
    simp only [headAddr] at e
    subst e
    have := hc.2.1.symm.trans hd.2.1
    simp only [Option.some.injEq, Obj.node.injEq, QueueNode.mk.injEq] at this
    rw [this.1, Chain.unique hc.2.2 hd.2.2 this.2]

theorem Chain.suffix {mem : Heap} : ∀ (cs ds : List (Ptr × Ptr)), Chain mem (cs ++ ds) → Chain mem ds
  | [], _, h => h
  | _ :: cs, ds, h => Chain.suffix cs ds h.2.2

/-- The cells of a chain have pairwise different addresses. -/
theorem Chain.nodup {mem : Heap} : ∀ {cs : List (Ptr × Ptr)}, Chain mem cs → (addrs cs).Nodup
  | [], _ => List.nodup_nil
  | c :: cs, h => by
    simp only [addrs, List.map_cons, List.nodup_cons]
    refine ⟨?_, Chain.nodup h.2.2⟩
    intro hin
    obtain ⟨d, hd, hdc⟩ := List.mem_map.1 hin
    obtain ⟨pre, post, rfl⟩ := List.append_of_mem hd
    have h1 : Chain mem (d :: post) := Chain.suffix pre _ h.2.2
    have h2 := Chain.unique h1 h (by simp [headAddr, hdc])
    have := congrArg List.length h2
    simp at this
    omega

theorem Chain.snoc {mem : Heap} {cs : List (Ptr × Ptr)} (h : Chain mem cs) (r x : Ptr)
    (hr : r ≠ NULL) (mem1 : Heap)
    (h1 : mem1 r = some (.node { data := x, next := NULL }))
    (h2 : ∀ a ∈ addrs cs, a ≠ lastAddr cs → mem1 a = mem a)
    (h3 : ∀ y, mem (lastAddr cs) = some (.node { data := y, next := NULL }) →
      mem1 (lastAddr cs) = some (.node { data := y, next := r })) :
    Chain mem1 (cs ++ [(r, x)]) := by
  induction cs with
  | nil => exact ⟨hr, h1, trivial⟩
  | cons c cs ih =>
    by_cases hcs : cs = []
    · subst hcs
      refine ⟨h.1, ?_, hr, h1, trivial⟩
      exact h3 c.2 h.2.1
    · have hnd := Chain.nodup h
      simp only [addrs, List.map_cons, List.nodup_cons] at hnd
      have hl : lastAddr (c :: cs) = lastAddr cs := lastAddr_cons_ne hcs
      have hlm := lastAddr_mem hcs
      refine ⟨h.1, ?_, ih h.2.2 ?_ ?_⟩
      · show mem1 c.1 = some (.node { data := c.2, next := headAddr (cs ++ [(r, x)]) })
        rw [h2 c.1 (by simp [addrs]) (by rw [hl]; intro e; exact hnd.1 (e ▸ hlm))]
        have : headAddr (cs ++ [(r, x)]) = headAddr cs := by
          cases cs with
          | nil => exact absurd rfl hcs
          | cons e es => rfl
        rw [this]; exact h.2.1
      · intro a ha hne
        exact h2 a (by simp [addrs] at ha ⊢; exact Or.inr ha) (by rw [hl]; exact hne)
      · intro y hy
        rw [← hl]; exact h3 y (by rw [hl]; exact hy)


/-! ## Lemmas: running the functions on a live `Queue` -/

@[simp]
theorem bind_apply {α β : Type} (m : M α) (f : α → M β) (w : World) :
    (m >>= f) w = match m w with
      | .ret a w1 => f a w1
      | .blocked w1 => .blocked w1
      | .diverged => .diverged
      | .fault => .fault := rfl

@[simp]
theorem pure_apply {α : Type} (a : α) (w : World) : (pure a : M α) w = .ret a w := rfl

theorem enqueue_run_empty (w : World) (q : Queue) (x r : Ptr) (hq : w.queue ≠ NULL)
    (hm : w.mem w.queue = some (.queue q)) (hu : q.mutex = .unlocked)
    (hc : q.notEmpty = .ready) (hr : r ≠ NULL) (hf : w.mem r = none) (ht : q.tail = NULL) :
    enqueue x r w = .ret () { w with mem :=
      (Function.update (Function.update w.mem r (some (.node { data := x, next := NULL })))
        w.queue (some (.queue { q with head := r, tail := r }))) } := by
  obtain ⟨p, mem, ml, cl, err⟩ := w
  obtain ⟨h, t, v, m, c⟩ := q
  simp at hq hm hu hc hr hf ht
  subst hu hc ht
  have hne : p ≠ r := by rintro rfl; simp [hm] at hf
  simp [enqueue, getQueue, hq, mtx_lock, qget, loadQueue, load, hm, qset, store, mtx_unlock, crash,
    malloc, hr, hf, hne, cnd_signal, setNext, loadNode]

theorem enqueue_run_link (w : World) (q : Queue) (n : QueueNode) (x r : Ptr) (hq : w.queue ≠ NULL)
    (hm : w.mem w.queue = some (.queue q)) (hu : q.mutex = .unlocked)
    (hc : q.notEmpty = .ready) (hr : r ≠ NULL) (hf : w.mem r = none) (ht : q.tail ≠ NULL)
    (hn : w.mem q.tail = some (.node n)) :
    enqueue x r w = .ret () { w with mem :=
      (Function.update (Function.update (Function.update w.mem r
        (some (.node { data := x, next := NULL })))
        q.tail (some (.node { n with next := r })))
        w.queue (some (.queue { q with tail := r }))) } := by
  obtain ⟨p, mem, ml, cl, err⟩ := w
  obtain ⟨h, t, v, m, c⟩ := q
  simp at hq hm hu hc hr hf ht hn
  subst hu hc
  have hne : p ≠ r := by rintro rfl; simp [hm] at hf
  have hne2 : t ≠ r := by rintro rfl; simp [hn] at hf
  have hne3 : p ≠ t := by rintro rfl; simp [hm] at hn
  simp [enqueue, getQueue, hq, mtx_lock, qget, loadQueue, load, hm, qset, store, mtx_unlock, crash,
    malloc, hr, hf, hne, cnd_signal, setNext, loadNode, ht, hn, hne2, hne3, hne.symm, hne2.symm,
    hne3.symm]
  funext a
  simp only [Function.update_apply]
  split_ifs <;> simp_all


theorem waitNotEmpty_run (k : Nat) (w : World) (q : Queue)
    (hm : w.mem w.queue = some (.queue q)) (hh : q.head ≠ NULL) :
    waitNotEmpty k w = .ret () w := by
  cases k <;> simp [waitNotEmpty, qget, getQueue, loadQueue, load, hm, hh]

theorem dequeue_run (k : Nat) (w : World) (q : Queue) (n : QueueNode) (hq : w.queue ≠ NULL)
    (hm : w.mem w.queue = some (.queue q)) (hu : q.mutex = .unlocked)
    (hh : q.head ≠ NULL) (hn : w.mem q.head = some (.node n)) :
    dequeue k w = .ret n.data { w with mem :=
      (Function.update (Function.update w.mem w.queue (some (.queue
        { q with head := n.next, tail := if n.next = NULL then NULL else q.tail,
                 visited := (q.visited + 1) % SIZE_MOD })))
        q.head none) } := by
  obtain ⟨p, mem, ml, cl, err⟩ := w
  obtain ⟨h, t, v, m, c⟩ := q
  simp at hq hm hu hh hn
  subst hu
  have hne : p ≠ h := by rintro rfl; simp [hm] at hn
  have hw := waitNotEmpty_run k
    { queue := p, mem := Function.update mem p (some (.queue
        { head := h, tail := t, visited := v, mutex := .locked, notEmpty := c })),
      mtxLive := ml, cndLive := cl, stderr := err }
    { head := h, tail := t, visited := v, mutex := .locked, notEmpty := c } (by simp) hh
  by_cases hnx : n.next = NULL <;>
  simp [dequeue, getQueue, hq, mtx_lock, qget, loadQueue, load, hm, qset, store, mtx_unlock, crash,
    free, hne, hne.symm, loadNode, hn, hw, hh, hnx] <;>
  · funext a
    simp only [Function.update_apply]
    split_ifs <;> simp_all

theorem dequeue_run_empty (k : Nat) (w : World) (q : Queue) (hq : w.queue ≠ NULL)
    (hm : w.mem w.queue = some (.queue q)) (hu : q.mutex = .unlocked)
    (hc : q.notEmpty = .ready) (hh : q.head = NULL) :
    dequeue k w = .blocked w := by
  obtain ⟨p, mem, ml, cl, err⟩ := w
  obtain ⟨h, t, v, m, c⟩ := q
  simp at hq hm hu hh hc
  subst hu hh hc
  have hw : ∀ k, waitNotEmpty k
      { queue := p, mem := Function.update mem p (some (.queue
        { head := NULL, tail := t, visited := v, mutex := .locked, notEmpty := .ready })),
        mtxLive := ml, cndLive := cl, stderr := err } =
      .blocked { queue := p, mem := mem, mtxLive := ml, cndLive := cl, stderr := err } := by
    intro k
    induction k with
    | zero =>
      simp [waitNotEmpty, qget, getQueue, loadQueue, load, cnd_wait_forever, mtx_unlock, qset, store]
      rw [← hm]
    | succ k ih =>
      simp [waitNotEmpty, qget, getQueue, loadQueue, load, cnd_wait, mtx_unlock, qset, store,
        mtx_lock, ih]
  simp [dequeue, getQueue, hq, mtx_lock, qget, loadQueue, load, hm, qset, store, hw]

theorem tryDequeue_run (slot v : Ptr) (w : World) (q : Queue) (n : QueueNode) (hq : w.queue ≠ NULL)
    (hm : w.mem w.queue = some (.queue q)) (hu : q.mutex = .unlocked)
    (hh : q.head ≠ NULL) (hn : w.mem q.head = some (.node n))
    (hs : w.mem slot = some (.user v)) :
    tryDequeue slot w = .ret true { w with mem :=
      (Function.update (Function.update (Function.update w.mem w.queue (some (.queue
        { q with head := n.next, tail := if n.next = NULL then NULL else q.tail,
                 visited := (q.visited + 1) % SIZE_MOD })))
        q.head none) slot (some (.user n.data))) } := by
  obtain ⟨p, mem, ml, cl, err⟩ := w
  obtain ⟨h, t, v, m, c⟩ := q
  simp at hq hm hu hh hn hs
  subst hu
  have hne : p ≠ h := by rintro rfl; simp [hm] at hn
  have hne2 : p ≠ slot := by rintro rfl; simp [hm] at hs
  have hne3 : h ≠ slot := by rintro rfl; simp [hn] at hs
  by_cases hnx : n.next = NULL <;>
  simp [tryDequeue, getQueue, hq, mtx_lock, qget, loadQueue, load, hm, qset, store, mtx_unlock,
    crash, free, hne, hne.symm, loadNode, hn, hh, hnx, storeOut, hs, hne2, hne2.symm, hne3,
    hne3.symm] <;>
  · funext a
    simp only [Function.update_apply]
    split_ifs <;> simp_all

theorem tryDequeue_run_empty (slot : Ptr) (w : World) (q : Queue) (hq : w.queue ≠ NULL)
    (hm : w.mem w.queue = some (.queue q)) (hu : q.mutex = .unlocked) (hh : q.head = NULL) :
    tryDequeue slot w = .ret false w := by
  obtain ⟨p, mem, ml, cl, err⟩ := w
  obtain ⟨h, t, v, m, c⟩ := q
  simp at hq hm hu hh
  subst hu hh
  simp [tryDequeue, getQueue, hq, mtx_lock, qget, loadQueue, load, hm, qset, store, mtx_unlock]

theorem visited_run (w : World) (q : Queue) (hq : w.queue ≠ NULL)
    (hm : w.mem w.queue = some (.queue q)) (hu : q.mutex = .unlocked) :
    visited w = .ret q.visited w := by
  obtain ⟨p, mem, ml, cl, err⟩ := w
  obtain ⟨h, t, v, m, c⟩ := q
  simp at hq hm hu
  subst hu
  simp [visited, getQueue, hq, mtx_lock, qget, loadQueue, load, hm, qset, store, mtx_unlock, crash]


/-! ## Lemmas: the functions on a well-formed queue -/

theorem Chain.last_node {mem : Heap} {cs : List (Ptr × Ptr)} (h : Chain mem cs) (hne : cs ≠ []) :
    ∃ y, mem (lastAddr cs) = some (.node { data := y, next := NULL }) := by
  induction cs with
  | nil => exact absurd rfl hne
  | cons c cs ih =>
    by_cases hcs : cs = []
    · subst hcs; exact ⟨c.2, h.2.1⟩
    · rw [lastAddr_cons_ne hcs]; exact ih h.2.2 hcs

theorem lastAddr_eq_null_iff {mem : Heap} {cs : List (Ptr × Ptr)} (h : Chain mem cs) :
    lastAddr cs = NULL ↔ cs = [] := by
  constructor
  · intro e
    by_contra hne
    exact h.addr_ne_null _ (lastAddr_mem hne) e
  · rintro rfl; rfl

theorem Holds.queue_not_cell {w : World} {q : Queue} {cs : List (Ptr × Ptr)} (h : Holds w q cs) :
    w.queue ∉ addrs cs := by
  intro hin
  obtain ⟨n, hn⟩ := h.2.2.2.is_node _ hin
  have := h.1.2.1
  rw [hn] at this
  simp at this

theorem enqueue_holds {w : World} {q : Queue} {cs : List (Ptr × Ptr)} (h : Holds w q cs)
    (x r : Ptr) (hr : r ≠ NULL) (hf : w.mem r = none) :
    ∃ w1, enqueue x r w = .ret () w1 ∧
      Holds w1 { q with head := if q.tail = NULL then r else q.head, tail := r } (cs ++ [(r, x)]) ∧
      w1.queue = w.queue ∧ w1.stderr = w.stderr ∧ w1.mtxLive = w.mtxLive ∧
      w1.cndLive = w.cndLive ∧
      (∀ a, a ≠ w.queue → a ≠ r → a ≠ q.tail → w1.mem a = w.mem a) ∧
      (∀ n, q.tail ≠ NULL → w.mem q.tail = some (.node n) →
        w1.mem q.tail = some (.node { n with next := r })) := by
  obtain ⟨⟨hq, hm, hu, hc⟩, hhead, htail, hch⟩ := h
  have hqr : w.queue ≠ r := by rintro e; rw [e, hf] at hm; simp at hm
  by_cases hcs : cs = []
  · subst hcs
    have ht : q.tail = NULL := htail
    refine ⟨_, enqueue_run_empty w q x r hq hm hu hc hr hf ht, ⟨⟨hq, ?_, hu, hc⟩, ?_, ?_, ?_⟩,
      rfl, rfl, rfl, rfl, ?_, ?_⟩
    · simp [ht]
    · simp [ht, headAddr]
    · simp [lastAddr]
    · refine ⟨hr, ?_, trivial⟩
      simp [hqr.symm, headAddr]
    · intro a h1 h2 _
      simp [h1, h2]
    · intro n hn; exact absurd ht hn
  · have hin : q.tail ∈ addrs cs := htail ▸ lastAddr_mem hcs
    have ht : q.tail ≠ NULL := hch.addr_ne_null _ hin
    obtain ⟨y, hy⟩ := hch.last_node hcs
    rw [← htail] at hy
    have htr : q.tail ≠ r := by rintro e; rw [e, hf] at hy; simp at hy
    have htq : q.tail ≠ w.queue := by rintro e; rw [e, hm] at hy; simp at hy
    refine ⟨_, enqueue_run_link w q _ x r hq hm hu hc hr hf ht hy, ⟨⟨hq, ?_, hu, hc⟩, ?_, ?_, ?_⟩,
      rfl, rfl, rfl, rfl, ?_, ?_⟩
    · simp [ht]
    · simp only [ht, if_false]
      cases cs with
      | nil => exact absurd rfl hcs
      | cons c cs => exact hhead
    · simp [lastAddr_append]
    · refine Chain.snoc hch r x hr _ ?_ ?_ ?_
      · simp [hqr.symm, htr.symm]
      · intro a ha hne
        have haq : a ≠ w.queue := by
          rintro rfl
          obtain ⟨n, hn⟩ := hch.is_node _ ha
          rw [hn] at hm; simp at hm
        have har : a ≠ r := by
          rintro rfl
          obtain ⟨n, hn⟩ := hch.is_node _ ha
          rw [hn] at hf; simp at hf
        rw [← htail] at hne
        simp [haq, har, hne]
      · intro y1 hy1
        rw [← htail] at hy1 ⊢
        rw [hy] at hy1
        simp only [Option.some.injEq, Obj.node.injEq, QueueNode.mk.injEq] at hy1
        simp [htq, hy1.1]
    · intro a h1 h2 h3
      simp [h1, h2, h3]
    · intro n _ hn
      rw [hy] at hn
      simp only [Option.some.injEq, Obj.node.injEq] at hn
      subst hn
      simp [htq]

theorem dequeue_holds {w : World} {q : Queue} {a x : Ptr} {cs : List (Ptr × Ptr)}
    (h : Holds w q ((a, x) :: cs)) (k : Nat) :
    dequeue k w = .ret x { w with mem :=
      (Function.update (Function.update w.mem w.queue (some (.queue
        { q with head := headAddr cs, tail := if cs = [] then NULL else q.tail,
                 visited := (q.visited + 1) % SIZE_MOD })))
        a none) } ∧
    Holds { w with mem :=
      (Function.update (Function.update w.mem w.queue (some (.queue
        { q with head := headAddr cs, tail := if cs = [] then NULL else q.tail,
                 visited := (q.visited + 1) % SIZE_MOD })))
        a none) }
      { q with head := headAddr cs, tail := if cs = [] then NULL else q.tail,
               visited := (q.visited + 1) % SIZE_MOD } cs := by
  have hqc := h.queue_not_cell
  obtain ⟨⟨hq, hm, hu, hc⟩, hhead, htail, hch⟩ := h
  have hnd := hch.nodup
  simp only [addrs, List.map_cons, List.nodup_cons, List.mem_cons, not_or] at hnd hqc
  have hh : q.head ≠ NULL := by rw [hhead]; exact hch.1
  have hn : w.mem q.head = some (.node { data := x, next := headAddr cs }) := by
    rw [hhead]; exact hch.2.1
  have hif : (if headAddr cs = NULL then NULL else q.tail) = if cs = [] then NULL else q.tail := by
    by_cases hcs : cs = []
    · simp [hcs, headAddr]
    · simp [hcs, (headAddr_eq_null_iff hch.2.2).not.2 hcs]
  have hrun := dequeue_run k w q _ hq hm hu hh hn
  have ha : q.head = a := hhead
  simp only [hif, ha] at hrun
  refine ⟨hrun, ⟨hq, ?_, hu, hc⟩, rfl, ?_, ?_⟩
  · simp [Ne.symm hqc.1, hqc.1]
  · by_cases hcs : cs = []
    · simp [hcs, lastAddr]
    · simp only [hcs, if_false]; rw [htail, lastAddr_cons_ne hcs]
  · refine hch.2.2.frame fun b hb => ?_
    have hb1 : b ≠ a := by rintro rfl; exact hnd.1 hb
    have hb2 : b ≠ w.queue := by rintro rfl; exact hqc.2 hb
    simp [hb1, hb2]

theorem tryDequeue_holds {w : World} {q : Queue} {a x : Ptr} {cs : List (Ptr × Ptr)}
    (h : Holds w q ((a, x) :: cs)) (slot v : Ptr) (hs : w.mem slot = some (.user v)) :
    tryDequeue slot w = .ret true { w with mem :=
      (Function.update (Function.update (Function.update w.mem w.queue (some (.queue
        { q with head := headAddr cs, tail := if cs = [] then NULL else q.tail,
                 visited := (q.visited + 1) % SIZE_MOD })))
        a none) slot (some (.user x))) } ∧
    Holds { w with mem :=
      (Function.update (Function.update (Function.update w.mem w.queue (some (.queue
        { q with head := headAddr cs, tail := if cs = [] then NULL else q.tail,
                 visited := (q.visited + 1) % SIZE_MOD })))
        a none) slot (some (.user x))) }
      { q with head := headAddr cs, tail := if cs = [] then NULL else q.tail,
               visited := (q.visited + 1) % SIZE_MOD } cs := by
  have hqc := h.queue_not_cell
  have hd := dequeue_holds h 0
  obtain ⟨⟨hq, hm, hu, hc⟩, hhead, htail, hch⟩ := h
  simp only [addrs, List.map_cons, List.mem_cons, not_or] at hqc
  have hh : q.head ≠ NULL := by rw [hhead]; exact hch.1
  have hn : w.mem q.head = some (.node { data := x, next := headAddr cs }) := by
    rw [hhead]; exact hch.2.1
  have hif : (if headAddr cs = NULL then NULL else q.tail) = if cs = [] then NULL else q.tail := by
    by_cases hcs : cs = []
    · simp [hcs, headAddr]
    · simp [hcs, (headAddr_eq_null_iff hch.2.2).not.2 hcs]
  have hrun := tryDequeue_run slot v w q _ hq hm hu hh hn hs
  have ha : q.head = a := hhead
  simp only [hif, ha] at hrun
  have hsq : slot ≠ w.queue := by rintro rfl; rw [hm] at hs; simp at hs
  refine ⟨hrun, ⟨hq, ?_, hu, hc⟩, rfl, hd.2.2.2.1, ?_⟩
  · simp [Ne.symm hqc.1, hqc.1, hsq.symm, hsq]
  · refine hd.2.2.2.2.frame fun b hb => ?_
    have hb1 : b ≠ slot := by
      rintro rfl
      obtain ⟨n, hn⟩ := hch.2.2.is_node _ hb
      rw [hn] at hs; simp at hs
    simp [hb1]


/-! ## Lemmas: `initQueue` and `destroyQueue` -/

theorem initQueue_run_ok (w : World) (r : Ptr) (hr : r ≠ NULL) (hf : w.mem r = none) :
    initQueue r true true w = .ret ()
      { queue := r, mem := Function.update w.mem r (some (.queue freshQueue)),
        mtxLive := w.mtxLive + 1, cndLive := w.cndLive + 1, stderr := w.stderr } := by
  obtain ⟨p, mem, ml, cl, err⟩ := w
  simp at hf
  simp [initQueue, malloc, hr, hf, setQueue, getQueue, mtx_init, cnd_init, qset, loadQueue, load,
    store, freshQueue]

theorem initQueue_run_nomem (w : World) (mtxOk cndOk : Bool) :
    initQueue NULL mtxOk cndOk w = .ret ()
      { w with queue := NULL, stderr := w.stderr ++ [msgAlloc] } := by
  simp [initQueue, malloc, setQueue, getQueue, perror]

theorem initQueue_run_nomtx (w : World) (r : Ptr) (cndOk : Bool) (hr : r ≠ NULL)
    (hf : w.mem r = none) :
    initQueue r false cndOk w = .ret ()
      { w with queue := NULL, stderr := w.stderr ++ [msgMutex] } := by
  obtain ⟨p, mem, ml, cl, err⟩ := w
  simp at hf
  simp [initQueue, malloc, hr, hf, setQueue, getQueue, mtx_init, perror, free]

theorem initQueue_run_nocnd (w : World) (r : Ptr) (hr : r ≠ NULL) (hf : w.mem r = none) :
    initQueue r true false w = .ret ()
      { w with queue := NULL, stderr := w.stderr ++ [msgCnd] } := by
  obtain ⟨p, mem, ml, cl, err⟩ := w
  simp at hf
  simp [initQueue, malloc, hr, hf, setQueue, getQueue, mtx_init, cnd_init, perror, free, qset,
    loadQueue, load, store, mtx_destroy, qget]

theorem destroyQueue_run_uninit (fuel : Nat) (w : World) (h : w.queue = NULL) :
    destroyQueue fuel w = .ret () w := by
  simp [destroyQueue, getQueue, h]

theorem destroyLoop_run : ∀ (cs : List (Ptr × Ptr)) (fuel : Nat) (w : World) (q : Queue),
    w.mem w.queue = some (.queue q) → q.head = headAddr cs → Chain w.mem cs →
    cs.length ≤ fuel →
    destroyLoop fuel w = .ret () { w with mem := (fun a =>
      if a ∈ addrs cs then none
      else if a = w.queue then some (.queue { q with head := NULL }) else w.mem a) }
  | [], fuel, w, q, hm, hh, _, _ => by
    obtain ⟨p, mem, ml, cl, err⟩ := w
    obtain ⟨h, t, v, m, c⟩ := q
    simp [headAddr] at hm hh
    subst hh
    cases fuel <;> simp [destroyLoop, qget, getQueue, loadQueue, load, hm, addrs] <;>
    · funext a
      by_cases ha : a = p
      · simp [ha, hm]
      · simp [ha]
  | (a, x) :: cs, 0, _, _, _, _, _, hl => by simp at hl
  | (a, x) :: cs, fuel + 1, w, q, hm, hh, hch, hl => by
    have hnd := hch.nodup
    simp only [addrs, List.map_cons, List.nodup_cons] at hnd
    have hpa : w.queue ≠ a := by rintro e; rw [e, hch.2.1] at hm; simp at hm
    have hpc : w.queue ∉ addrs cs := by
      intro hin
      obtain ⟨n, hn⟩ := hch.2.2.is_node _ hin
      rw [hn] at hm; simp at hm
    have ih := destroyLoop_run cs fuel
      { w with mem := Function.update (Function.update w.mem w.queue
          (some (.queue { q with head := headAddr cs }))) a none }
      { q with head := headAddr cs } (by simp [hpa]) rfl
      (hch.2.2.frame fun b hb => by
        have hb1 : b ≠ a := by rintro rfl; exact hnd.1 hb
        have hb2 : b ≠ w.queue := by rintro rfl; exact hpc hb
        simp [hb1, hb2])
      (by simpa using hl)
    have ha0 : a ≠ NULL := hch.1
    have hna := hch.2.1
    have hha : q.head = a := hh
    obtain ⟨p, mem, ml, cl, err⟩ := w
    simp only at hm hpa hna ih
    simp [destroyLoop, qget, getQueue, loadQueue, load, hm, ha0, loadNode, hna, qset, store, free,
      hpa, Ne.symm hpa, ih, addrs, hha]
    funext b
    have hnd1 := hnd.1
    clear ih hch hm hna hl hh hha hpc hnd
    by_cases hb : b = a
    · subst hb
      simp [hnd1, Ne.symm hpa]
    · have hiff : b ∈ a :: List.map Prod.fst cs ↔ b ∈ List.map Prod.fst cs := by
        simp [List.mem_cons, hb]
      by_cases hbc : b ∈ List.map Prod.fst cs
      · rw [if_pos hbc, if_pos (hiff.2 hbc)]
      · rw [if_neg hbc, if_neg (fun h => hbc (hiff.1 h))]
        by_cases hbp : b = p
        · subst hbp
          simp
        · simp [hb, hbp]

theorem destroyQueue_holds {w : World} {q : Queue} {cs : List (Ptr × Ptr)} (h : Holds w q cs)
    (fuel : Nat) (hl : cs.length ≤ fuel) :
    destroyQueue fuel w = .ret ()
      { queue := NULL,
        mem := fun a => if a ∈ addrs cs ∨ a = w.queue then none else w.mem a,
        mtxLive := w.mtxLive - 1, cndLive := w.cndLive - 1, stderr := w.stderr } := by
  have hqc := h.queue_not_cell
  obtain ⟨⟨hq, hm, hu, hc⟩, hhead, htail, hch⟩ := h
  have hloop := destroyLoop_run cs fuel
    { w with mem := Function.update w.mem w.queue (some (.queue { q with mutex := .locked })) }
    { q with mutex := .locked } (by simp) hhead
    (hch.frame fun b hb => by
      have hb2 : b ≠ w.queue := by rintro rfl; exact hqc hb
      simp [hb2])
    hl
  obtain ⟨p, mem, ml, cl, err⟩ := w
  obtain ⟨h, t, v, m, c⟩ := q
  simp at hq hm hu hc hloop hqc
  subst hu hc
  simp [destroyQueue, getQueue, hq, mtx_lock, qget, loadQueue, load, hm, qset, store, hloop,
    mtx_unlock, hqc, mtx_destroy, cnd_destroy, free, setQueue]
  funext b
  by_cases hb : b = p
  · subst hb
    simp
  · by_cases hbc : b ∈ addrs cs
    · simp [hb, hbc]
    · simp [hb, hbc]

/-! ## Lemmas: calls that change nothing but `stderr` -/

theorem enqueue_run_uninit (x r : Ptr) (w : World) (h : w.queue = NULL) :
    enqueue x r w = .ret () { w with stderr := w.stderr ++ [msgNotInit] } := by
  simp [enqueue, getQueue, h, fprintfStderr]

theorem dequeue_run_uninit (k : Nat) (w : World) (h : w.queue = NULL) :
    dequeue k w = .ret NULL { w with stderr := w.stderr ++ [msgNotInit] } := by
  simp [dequeue, getQueue, h, fprintfStderr]

theorem tryDequeue_run_uninit (slot : Ptr) (w : World) (h : w.queue = NULL) :
    tryDequeue slot w = .ret false { w with stderr := w.stderr ++ [msgNotInit] } := by
  simp [tryDequeue, getQueue, h, fprintfStderr]

theorem visited_run_uninit (w : World) (h : w.queue = NULL) : visited w = .ret 0 w := by
  simp [visited, getQueue, h]

theorem enqueue_run_nomem (x : Ptr) (w : World) (h : w.queue ≠ NULL) :
    enqueue x NULL w = .ret () { w with stderr := w.stderr ++ [msgAlloc] } := by
  simp [enqueue, getQueue, h, malloc, perror]

theorem enqueue_run_stale (x r : Ptr) (o : Obj) (w : World) (h : w.queue ≠ NULL) (hr : r ≠ NULL)
    (hs : w.mem r = some o) : enqueue x r w = .fault := by
  simp [enqueue, getQueue, h, malloc, hr, hs]

theorem tryDequeue_run_badslot (slot : Ptr) (w : World) (q : Queue) (n : QueueNode)
    (hq : w.queue ≠ NULL) (hm : w.mem w.queue = some (.queue q)) (hu : q.mutex = .unlocked)
    (hh : q.head ≠ NULL) (hn : w.mem q.head = some (.node n))
    (hs : ∀ v, w.mem slot ≠ some (.user v)) :
    tryDequeue slot w = .fault := by
  obtain ⟨p, mem, ml, cl, err⟩ := w
  obtain ⟨h, t, v, m, c⟩ := q
  simp at hq hm hu hh hn hs
  subst hu
  have hne : p ≠ h := by rintro rfl; simp [hm] at hn
  by_cases hsp : slot = p
  · subst hsp
    simp [tryDequeue, getQueue, hq, mtx_lock, qget, loadQueue, load, hm, qset, store, crash,
      hne, hne.symm, loadNode, hn, hh, storeOut]
  · cases hms : mem slot with
    | none =>
      simp [tryDequeue, getQueue, hq, mtx_lock, qget, loadQueue, load, hm, qset, store, crash,
        hne, hne.symm, loadNode, hn, hh, storeOut, hsp, hms]
    | some o =>
      cases o with
      | user v => exact absurd hms (hs v)
      | node n1 =>
        simp [tryDequeue, getQueue, hq, mtx_lock, qget, loadQueue, load, hm, qset, store, crash,
          hne, hne.symm, loadNode, hn, hh, storeOut, hsp, hms]
      | queue q1 =>
        simp [tryDequeue, getQueue, hq, mtx_lock, qget, loadQueue, load, hm, qset, store, crash,
          hne, hne.symm, loadNode, hn, hh, storeOut, hsp, hms]

theorem Holds.of_mem_eq {w w1 : World} {q : Queue} {cs : List (Ptr × Ptr)} (h : Holds w q cs)
    (hq : w1.queue = w.queue) (hm : w1.mem = w.mem) : Holds w1 q cs := by
  obtain ⟨⟨h1, h2, h3, h4⟩, h5, h6, h7⟩ := h
  exact ⟨⟨hq ▸ h1, by rw [hq, hm]; exact h2, h3, h4⟩, h5, h6, hm ▸ h7⟩

/-! ## Lemmas: sequences of calls -/

theorem calls_cons_ret {c : Call} {cs : List Call} {w w2 : World} {rs : List Result}
    (h : calls (c :: cs) w = .ret rs w2) :
    ∃ r w1 rs1, call c w = .ret r w1 ∧ calls cs w1 = .ret rs1 w2 ∧ rs = r :: rs1 := by
  simp only [calls, bind_apply] at h
  cases h1 : call c w with
  | ret r w1 =>
    rw [h1] at h
    simp only at h
    cases h2 : calls cs w1 with
    | ret rs1 w3 =>
      rw [h2] at h
      simp only [pure_apply, Outcome.ret.injEq] at h
      exact ⟨r, w1, rs1, rfl, by rw [h2, h.2], h.1.symm⟩
    | blocked w3 => rw [h2] at h; simp at h
    | diverged => rw [h2] at h; simp at h
    | fault => rw [h2] at h; simp at h
  | blocked w1 => rw [h1] at h; simp at h
  | diverged => rw [h1] at h; simp at h
  | fault => rw [h1] at h; simp at h

theorem calls_cons_of_ret {c : Call} {cs : List Call} {w w1 w2 : World} {r : Result}
    {rs : List Result} (h1 : call c w = .ret r w1) (h2 : calls cs w1 = .ret rs w2) :
    calls (c :: cs) w = .ret (r :: rs) w2 := by
  simp [calls, h1, h2]

theorem calls_append_of_ret : ∀ {cs ds : List Call} {w w1 w2 : World} {rs ss : List Result},
    calls cs w = .ret rs w1 → calls ds w1 = .ret ss w2 →
    calls (cs ++ ds) w = .ret (rs ++ ss) w2
  | [], ds, w, w1, w2, rs, ss, h1, h2 => by
    simp only [calls, pure_apply, Outcome.ret.injEq] at h1
    obtain ⟨rfl, rfl⟩ := h1
    simpa using h2
  | c :: cs, ds, w, w1, w2, rs, ss, h1, h2 => by
    obtain ⟨r, w3, rs1, hc, hcs, rfl⟩ := calls_cons_ret h1
    exact calls_cons_of_ret hc (calls_append_of_ret hcs h2)

/-! ## Lemmas: the example states are well formed -/

theorem idleWorld_holds (c : Nat) : Holds (idleWorld c) (idleQueue c) [] := by
  refine ⟨⟨Nat.one_ne_zero, ?_, rfl, rfl⟩, rfl, rfl, trivial⟩
  simp [idleWorld]

theorem lastWorld_holds : Holds lastWorld lastQueue [(2, 7)] := by
  refine ⟨⟨Nat.one_ne_zero, ?_, rfl, rfl⟩, rfl, rfl, by decide, ?_, trivial⟩ <;>
  simp [lastWorld, headAddr]

theorem loadedWorld_holds : Holds loadedWorld loadedQueue [(4, 10), (5, 20), (6, 30)] := by
  refine ⟨⟨Nat.one_ne_zero, ?_, rfl, rfl⟩, rfl, rfl, ?_⟩
  · simp [loadedWorld]
  · simp [Chain, loadedWorld, headAddr]

/-! ## C1: FIFO order -/

theorem enqueue_keeps_fresh {w : World} {q : Queue} {cs : List (Ptr × Ptr)} (h : Holds w q cs)
    {w1 : World} {q1 : Queue} {ds : List (Ptr × Ptr)} {r a : Ptr}
    (hframe : ∀ a, a ≠ w.queue → a ≠ r → a ≠ q.tail → w1.mem a = w.mem a)
    (_h1 : Holds w1 q1 ds) (har : a ≠ r) (ha0 : a ≠ NULL) (hf : w.mem a = none) :
    w1.mem a = none := by
  have haq : a ≠ w.queue := by rintro rfl; rw [h.1.2.1] at hf; simp at hf
  have hat : a ≠ q.tail := by
    rintro rfl
    by_cases hcs : cs = []
    · subst hcs; exact ha0 h.2.2.1
    · obtain ⟨y, hy⟩ := h.2.2.2.last_node hcs
      rw [← h.2.2.1, hf] at hy; simp at hy
  rw [hframe a haq har hat, hf]

/-- Enqueueing the cells `ds` one after the other, each into a block the allocator may
hand out, appends them to the chain and leaves the counter alone. -/
theorem calls_enqueue_all : ∀ (ds : List (Ptr × Ptr)) (w : World) (q : Queue)
    (cs : List (Ptr × Ptr)), Holds w q cs → (addrs ds).Nodup →
    (∀ a ∈ addrs ds, a ≠ NULL ∧ w.mem a = none) →
    ∃ w1 q1, calls (ds.map fun c => Call.enqueue c.2 c.1) w = .ret (ds.map fun _ => Result.done) w1 ∧
      Holds w1 q1 (cs ++ ds) ∧ q1.visited = q.visited
  | [], w, q, cs, h, _, _ => ⟨w, q, by simp [calls], by simpa using h, rfl⟩
  | (r, x) :: ds, w, q, cs, h, hnd, hf => by
    simp only [addrs, List.map_cons, List.nodup_cons, List.mem_cons, forall_eq_or_imp] at hnd hf
    obtain ⟨w1, hrun, hh, -, -, -, -, hframe, -⟩ := enqueue_holds h x r hf.1.1 hf.1.2
    obtain ⟨w2, q2, hrun2, hh2, hv⟩ := calls_enqueue_all ds w1 _ _ hh hnd.2 (fun a ha =>
      ⟨(hf.2 a ha).1, enqueue_keeps_fresh h hframe hh (by rintro rfl; exact hnd.1 ha)
        (hf.2 a ha).1 (hf.2 a ha).2⟩)
    refine ⟨w2, q2, ?_, by simpa using hh2, hv⟩
    have hc : call (Call.enqueue x r) w = .ret Result.done w1 := by simp [call, hrun]
    exact calls_cons_of_ret hc hrun2

/-- Dequeueing as many times as the chain has cells returns the payloads in chain order
and empties the chain. -/
theorem calls_dequeue_all : ∀ (cs : List (Ptr × Ptr)) (ks : List Nat) (w : World) (q : Queue),
    Holds w q cs → ks.length = cs.length →
    ∃ w1 q1, calls (ks.map Call.dequeue) w = .ret ((payloads cs).map Result.item) w1 ∧
      Holds w1 q1 []
  | [], [], w, q, h, _ => ⟨w, q, by simp [calls, payloads], h⟩
  | [], _ :: _, _, _, _, hl => by simp at hl
  | _ :: _, [], _, _, _, hl => by simp at hl
  | (a, x) :: cs, k :: ks, w, q, h, hl => by
    obtain ⟨hrun, hh⟩ := dequeue_holds h k
    obtain ⟨w2, q2, hrun2, hh2⟩ := calls_dequeue_all cs ks _ _ hh (by simpa using hl)
    exact ⟨w2, q2, calls_cons_of_ret (by simp [call, hrun]) hrun2, hh2⟩

/-- C1 (FIFO).  From a Ready state with an empty chain, enqueueing the payloads of `cs`
in order (each allocation succeeding, with blocks `malloc` may hand out) and then calling
`dequeue` once per payload returns exactly those payloads in the order they were
enqueued, and the queue ends with an empty chain (`head` and `tail` both `NULL`). -/
theorem fifo_order (w : World) (q : Queue) (h : Holds w q []) (cs : List (Ptr × Ptr))
    (hnd : (addrs cs).Nodup) (hfresh : ∀ a ∈ addrs cs, a ≠ NULL ∧ w.mem a = none)
    (ks : List Nat) (hk : ks.length = cs.length) :
    ∃ w1 q1,
      calls ((cs.map fun c => Call.enqueue c.2 c.1) ++ ks.map Call.dequeue) w =
        .ret ((cs.map fun _ => Result.done) ++ (payloads cs).map Result.item) w1 ∧
      Holds w1 q1 [] ∧ q1.head = NULL ∧ q1.tail = NULL := by
  obtain ⟨w1, q1, hrun1, hh1, -⟩ := calls_enqueue_all cs w q [] h hnd hfresh
  obtain ⟨w2, q2, hrun2, hh2⟩ := calls_dequeue_all cs ks w1 q1 (by simpa using hh1) hk
  exact ⟨w2, q2, calls_append_of_ret hrun1 hrun2, hh2, hh2.2.1, hh2.2.2.1⟩

theorem fifo_order_witness :
    Holds (idleWorld 0) (idleQueue 0) [] ∧ (addrs [(4, 10), (5, 20), (6, 0)]).Nodup ∧
    (∀ a ∈ addrs [(4, 10), (5, 20), (6, 0)], a ≠ NULL ∧ (idleWorld 0).mem a = none) ∧
    [0, 2, 1].length = [((4 : Ptr), (10 : Ptr)), (5, 20), (6, 0)].length ∧
    ∃ w1 q1,
      calls (([((4 : Ptr), (10 : Ptr)), (5, 20), (6, 0)].map fun c => Call.enqueue c.2 c.1) ++
          [0, 2, 1].map Call.dequeue) (idleWorld 0) =
        .ret (([((4 : Ptr), (10 : Ptr)), (5, 20), (6, 0)].map fun _ => Result.done) ++
          (payloads [(4, 10), (5, 20), (6, 0)]).map Result.item) w1 ∧
      Holds w1 q1 [] ∧ q1.head = NULL ∧ q1.tail = NULL :=
  ⟨idleWorld_holds 0, by decide, by decide, by decide,
    fifo_order (idleWorld 0) (idleQueue 0) (idleWorld_holds 0) [(4, 10), (5, 20), (6, 0)]
      (by decide) (by decide) [0, 2, 1] (by decide)⟩

/-! ## C2: the counter and the number of removals -/

theorem SIZE_MOD_pos : 0 < SIZE_MOD := by decide

/-- One returned call from a Ready state leads to a Ready state, and moves the counter
by the number of removals it made, modulo the range of `size_t`. -/
theorem call_step {w w1 : World} {q : Queue} {cs : List (Ptr × Ptr)} {c : Call} {r : Result}
    (h : Holds w q cs) (hrun : call c w = .ret r w1) :
    ∃ q1 cs1, Holds w1 q1 cs1 ∧
      q1.visited % SIZE_MOD = (q.visited + r.removal) % SIZE_MOD ∧
      (r.removal = 0 → q1.visited = q.visited) ∧
      (q.visited < SIZE_MOD → q1.visited < SIZE_MOD) := by
  have hR := h.1
  obtain ⟨hq, hm, hu, hc⟩ := hR
  cases c with
  | enqueue x a =>
    by_cases ha : a = NULL
    · subst ha
      simp only [call, bind_apply, enqueue_run_nomem x w hq, pure_apply, Outcome.ret.injEq] at hrun
      obtain ⟨rfl, rfl⟩ := hrun
      exact ⟨q, cs, h.of_mem_eq rfl rfl, rfl, fun _ => rfl, id⟩
    · cases hma : w.mem a with
      | some o => simp [call, enqueue_run_stale x a o w hq ha hma] at hrun
      | none =>
        obtain ⟨w2, hrun2, hh, -⟩ := enqueue_holds h x a ha hma
        simp only [call, bind_apply, hrun2, pure_apply, Outcome.ret.injEq] at hrun
        obtain ⟨rfl, rfl⟩ := hrun
        exact ⟨_, _, hh, rfl, fun _ => rfl, id⟩
  | dequeue k =>
    cases cs with
    | nil => simp [call, dequeue_run_empty k w q hq hm hu hc h.2.1] at hrun
    | cons d ds =>
      obtain ⟨a, x⟩ := d
      obtain ⟨hrun2, hh⟩ := dequeue_holds h k
      simp only [call, bind_apply, hrun2, pure_apply, Outcome.ret.injEq] at hrun
      obtain ⟨rfl, rfl⟩ := hrun
      exact ⟨_, _, hh, by simp [Result.removal], by simp [Result.removal],
        fun _ => Nat.mod_lt _ SIZE_MOD_pos⟩
  | tryDequeue slot =>
    cases cs with
    | nil =>
      simp only [call, bind_apply, tryDequeue_run_empty slot w q hq hm hu h.2.1, pure_apply,
        Outcome.ret.injEq] at hrun
      obtain ⟨rfl, rfl⟩ := hrun
      exact ⟨q, [], h, rfl, fun _ => rfl, id⟩
    | cons d ds =>
      obtain ⟨a, x⟩ := d
      by_cases hs : ∃ v, w.mem slot = some (.user v)
      · obtain ⟨v, hv⟩ := hs
        obtain ⟨hrun2, hh⟩ := tryDequeue_holds h slot v hv
        simp only [call, bind_apply, hrun2, pure_apply, Outcome.ret.injEq] at hrun
        obtain ⟨rfl, rfl⟩ := hrun
        exact ⟨_, _, hh, by simp [Result.removal], by simp [Result.removal],
        fun _ => Nat.mod_lt _ SIZE_MOD_pos⟩
      · have hh : q.head ≠ NULL := by rw [h.2.1]; exact h.2.2.2.1
        have hn : w.mem q.head = some (.node { data := x, next := headAddr ds }) := by
          rw [h.2.1]; exact h.2.2.2.2.1
        simp [call, tryDequeue_run_badslot slot w q _ hq hm hu hh hn
          (fun v hv => hs ⟨v, hv⟩)] at hrun
  | visited =>
    simp only [call, bind_apply, visited_run w q hq hm hu, pure_apply, Outcome.ret.injEq] at hrun
    obtain ⟨rfl, rfl⟩ := hrun
    exact ⟨q, cs, h, rfl, fun _ => rfl, id⟩

/-- After a sequence of returned calls from a Ready state the state is Ready and the
counter has moved by the number of removals, modulo the range of `size_t`. -/
theorem calls_steps : ∀ (cl : List Call) (w w1 : World) (q : Queue) (cs : List (Ptr × Ptr))
    (rs : List Result), Holds w q cs → calls cl w = .ret rs w1 →
    ∃ q1 cs1, Holds w1 q1 cs1 ∧
      q1.visited % SIZE_MOD = (q.visited + removals rs) % SIZE_MOD ∧
      (removals rs = 0 → q1.visited = q.visited) ∧
      (q.visited < SIZE_MOD → q1.visited < SIZE_MOD)
  | [], w, w1, q, cs, rs, h, hrun => by
    simp only [calls, pure_apply, Outcome.ret.injEq] at hrun
    obtain ⟨rfl, rfl⟩ := hrun
    exact ⟨q, cs, h, by simp [removals], fun _ => rfl, id⟩
  | c :: cl, w, w1, q, cs, rs, h, hrun => by
    obtain ⟨r, w2, rs1, hc, hcs, rfl⟩ := calls_cons_ret hrun
    obtain ⟨q2, cs2, hh2, hv2, hz2, hb2⟩ := call_step h hc
    obtain ⟨q3, cs3, hh3, hv3, hz3, hb3⟩ := calls_steps cl w2 w1 q2 cs2 rs1 hh2 hcs
    refine ⟨q3, cs3, hh3, ?_, ?_, fun hlt => hb3 (hb2 hlt)⟩
    · have : removals (r :: rs1) = r.removal + removals rs1 := by simp [removals]
      rw [this, hv3, Nat.add_mod, hv2, ← Nat.add_mod]
      congr 1; omega
    · intro h0
      have : removals (r :: rs1) = r.removal + removals rs1 := by simp [removals]
      rw [this] at h0
      rw [hz3 (by omega), hz2 (by omega)]

theorem removals_cycle (n : Nat) : removals (cycle n [Result.done, Result.flag true]) = n := by
  induction n with
  | zero => rfl
  | succ n ih =>
    simp only [removals] at ih
    simp [cycle, removals, Result.removal, ih]
    omega

theorem calls_nil (w : World) : calls [] w = .ret [] w := rfl

theorem call_enqueue_ret {x r : Ptr} {w w1 : World} (h : enqueue x r w = .ret () w1) :
    call (Call.enqueue x r) w = .ret Result.done w1 := by
  simp only [call, bind_apply, h, pure_apply]

theorem call_dequeue_ret {k : Nat} {x : Ptr} {w w1 : World} (h : dequeue k w = .ret x w1) :
    call (Call.dequeue k) w = .ret (Result.item x) w1 := by
  simp only [call, bind_apply, h, pure_apply]

theorem call_tryDequeue_ret {slot : Ptr} {b : Bool} {w w1 : World}
    (h : tryDequeue slot w = .ret b w1) :
    call (Call.tryDequeue slot) w = .ret (Result.flag b) w1 := by
  simp only [call, bind_apply, h, pure_apply]

/-- An `enqueue` followed by a successful `tryDequeue` brings the idle state back with the
counter one further, modulo the range of `size_t`. -/
theorem calls_pair_idle (c : Nat) :
    calls [Call.enqueue 7 2, Call.tryDequeue 3] (idleWorld c) =
      .ret [Result.done, Result.flag true] (idleWorld ((c + 1) % SIZE_MOD)) := by
  have hrun1 : enqueue 7 2 (idleWorld c) = .ret ()
      (World.mk 1 (Function.update (Function.update (idleWorld c).mem 2
          (some (.node (QueueNode.mk 7 NULL)))) 1
          (some (.queue (Queue.mk 2 2 c .unlocked .ready)))) 1 1 []) :=
    enqueue_run_empty (idleWorld c) (idleQueue c) 7 2 Nat.one_ne_zero
      (by simp [idleWorld]) rfl rfl (by decide) (by simp [idleWorld]) rfl
  have hrun2 := tryDequeue_run 3 7
    (World.mk 1 (Function.update (Function.update (idleWorld c).mem 2
          (some (.node (QueueNode.mk 7 NULL)))) 1
          (some (.queue (Queue.mk 2 2 c .unlocked .ready)))) 1 1 [])
    (Queue.mk 2 2 c .unlocked .ready) (QueueNode.mk 7 NULL)
    Nat.one_ne_zero (by simp) rfl (by simp) (by simp) (by simp [idleWorld])
  dsimp only at hrun2
  refine calls_cons_of_ret (call_enqueue_ret hrun1) ?_
  refine (calls_cons_of_ret (call_tryDequeue_ret hrun2) (calls_nil _)).trans ?_
  congr 1
  simp only [idleWorld, World.mk.injEq, true_and, and_true]
  funext a
  by_cases h3 : a = 3
  · subst h3; simp
  · by_cases h2 : a = 2
    · subst h2; simp
    · by_cases h1 : a = 1
      · subst h1; simp [idleQueue]
      · simp [h1, h2, h3]

theorem calls_cycle_idle : ∀ (n c : Nat),
    calls (cycle n [Call.enqueue 7 2, Call.tryDequeue 3]) (idleWorld (c % SIZE_MOD)) =
      .ret (cycle n [Result.done, Result.flag true]) (idleWorld ((c + n) % SIZE_MOD))
  | 0, c => rfl
  | n + 1, c => by
    have h1 := calls_pair_idle (c % SIZE_MOD)
    have h2 := calls_cycle_idle n (c + 1)
    rw [Nat.mod_add_mod] at h1
    have := calls_append_of_ret h1 h2
    rw [show c + 1 + n = c + (n + 1) by omega] at this
    exact this

theorem initQueue_slotWorld : initQueue 1 true true slotWorld = .ret () (idleWorld 0) := by
  rw [initQueue_run_ok slotWorld 1 (by decide) (by simp [slotWorld])]
  congr 1
  simp only [idleWorld, slotWorld, World.mk.injEq, true_and, and_true]
  funext a
  by_cases h1 : a = 1
  · subst h1; simp [freshQueue, idleQueue]
  · simp [h1]

/-- C2 (counter exactness), as the code has it.  After any sequence of returned calls on a
freshly initialised queue, `visited()` returns the number of successful removals modulo
2^64, hence exactly that number while it is below 2^64; and a returned call that removed
nothing (an `enqueue`, a `tryDequeue` that returned `false`, a `visited`) does not change
what `visited()` returns. -/
theorem visited_counts_removals (w : World) (q : Queue) (h : Holds w q []) (h0 : q.visited = 0)
    (cl : List Call) (rs : List Result) (w1 : World) (hrun : calls cl w = .ret rs w1) :
    visited w1 = .ret (removals rs % SIZE_MOD) w1 ∧
    (removals rs < SIZE_MOD → visited w1 = .ret (removals rs) w1) ∧
    (∀ (c : Call) (r : Result) (w2 : World), call c w1 = .ret r w2 → r.removal = 0 →
      visited w2 = .ret (removals rs % SIZE_MOD) w2) := by
  obtain ⟨q1, cs1, hh1, hv1, -, hb1⟩ := calls_steps cl w w1 q [] rs h hrun
  have hq1 : q1.visited = removals rs % SIZE_MOD := by
    rw [h0, Nat.zero_add, Nat.mod_eq_of_lt (hb1 (h0 ▸ SIZE_MOD_pos))] at hv1
    exact hv1
  have hvis : visited w1 = .ret (removals rs % SIZE_MOD) w1 := by
    rw [← hq1]; exact visited_run w1 q1 hh1.1.1 hh1.1.2.1 hh1.1.2.2.1
  refine ⟨hvis, fun hlt => ?_, fun c r w2 hc hr => ?_⟩
  · rw [Nat.mod_eq_of_lt hlt] at hvis; exact hvis
  · obtain ⟨q2, cs2, hh2, -, hz2, -⟩ := call_step hh1 hc
    rw [← hq1, ← hz2 hr]
    exact visited_run w2 q2 hh2.1.1 hh2.1.2.1 hh2.1.2.2.1

/-- C2, counterexample.  On the freshly initialised queue `idleWorld 0`, the sequence
of 2^64 rounds "enqueue 7, tryDequeue" returns with 2^64 successful removals, and the
final `visited()` returns 0, not 2^64. -/
theorem visited_wraps_after_size_mod_removals :
    initQueue 1 true true slotWorld = .ret () (idleWorld 0) ∧
    Holds (idleWorld 0) (idleQueue 0) [] ∧ (idleQueue 0).visited = 0 ∧
    calls (cycle SIZE_MOD [Call.enqueue 7 2, Call.tryDequeue 3]) (idleWorld 0) =
      .ret (cycle SIZE_MOD [Result.done, Result.flag true]) (idleWorld 0) ∧
    removals (cycle SIZE_MOD [Result.done, Result.flag true]) = 2 ^ 64 ∧
    visited (idleWorld 0) = .ret 0 (idleWorld 0) ∧
    visited (idleWorld 0) ≠
      .ret (removals (cycle SIZE_MOD [Result.done, Result.flag true])) (idleWorld 0) := by
  have hv : visited (idleWorld 0) = .ret 0 (idleWorld 0) :=
    visited_run (idleWorld 0) (idleQueue 0) Nat.one_ne_zero (idleWorld_holds 0).1.2.1 rfl
  have hc := calls_cycle_idle SIZE_MOD 0
  rw [Nat.zero_add, Nat.mod_self, Nat.zero_mod] at hc
  refine ⟨initQueue_slotWorld, idleWorld_holds 0, rfl, hc, removals_cycle SIZE_MOD, hv, ?_⟩
  rw [hv, removals_cycle]
  intro e
  have e1 : (0 : Nat) = SIZE_MOD := by injection e
  exact absurd e1 (Nat.ne_of_lt SIZE_MOD_pos)

theorem visited_counts_removals_witness :
    ∃ w1 q1, Holds (idleWorld 0) (idleQueue 0) [] ∧ (idleQueue 0).visited = 0 ∧
      calls ([Call.enqueue 10 4, Call.enqueue 20 5] ++ [Call.dequeue 0, Call.dequeue 3])
        (idleWorld 0) =
        .ret ([Result.done, Result.done] ++ [Result.item 10, Result.item 20]) w1 ∧
      Holds w1 q1 [] ∧
      (visited w1 = .ret
          (removals ([Result.done, Result.done] ++ [Result.item 10, Result.item 20]) % SIZE_MOD)
          w1 ∧
        (removals ([Result.done, Result.done] ++ [Result.item 10, Result.item 20]) < SIZE_MOD →
          visited w1 = .ret
            (removals ([Result.done, Result.done] ++ [Result.item 10, Result.item 20])) w1) ∧
        (∀ (c : Call) (r : Result) (w2 : World), call c w1 = .ret r w2 → r.removal = 0 →
          visited w2 = .ret
            (removals ([Result.done, Result.done] ++ [Result.item 10, Result.item 20]) %
              SIZE_MOD) w2)) := by
  obtain ⟨w1, q1, hrun1, hh1, -⟩ := calls_enqueue_all [(4, 10), (5, 20)] (idleWorld 0)
    (idleQueue 0) [] (idleWorld_holds 0) (by decide) (by decide)
  obtain ⟨w2, q2, hrun2, hh2⟩ := calls_dequeue_all [(4, 10), (5, 20)] [0, 3] w1 q1
    (by simpa using hh1) rfl
  have hrun := calls_append_of_ret hrun1 hrun2
  exact ⟨w2, q2, idleWorld_holds 0, rfl, hrun, hh2,
    visited_counts_removals (idleWorld 0) (idleQueue 0) (idleWorld_holds 0) rfl _ _ w2 hrun⟩

/-! ## C3: `tryDequeue` on an empty chain -/

/-- C3 (empty try-dequeue).  In a Ready state whose `head` is `NULL`, `tryDequeue` returns
`false` and the whole state after the call, `head`, `tail` and `visited` included, is the
state before it. -/
theorem tryDequeue_empty_unchanged (w : World) (q : Queue) (h : ReadyWith w q)
    (hh : q.head = NULL) (slot : Ptr) :
    tryDequeue slot w = .ret false w :=
  tryDequeue_run_empty slot w q h.1 h.2.1 h.2.2.1 hh

theorem tryDequeue_empty_unchanged_witness :
    ReadyWith (idleWorld 5) (idleQueue 5) ∧ (idleQueue 5).head = NULL ∧
    tryDequeue 3 (idleWorld 5) = .ret false (idleWorld 5) :=
  ⟨(idleWorld_holds 5).1, rfl,
    tryDequeue_empty_unchanged (idleWorld 5) (idleQueue 5) (idleWorld_holds 5).1 rfl 3⟩

/-! ## C4: calls while `queue == NULL` -/

/-- C4 (uninitialized-state guard), what the code does.  With `queue == NULL`, `enqueue`,
`dequeue` and `tryDequeue` return at once with the neutral result, changing nothing but
`stderr`, to which they append "Queue not initialized."; `visited` returns 0 and leaves
the whole state, `stderr` included, as it was: it reports nothing. -/
theorem uninitialized_calls (w : World) (h : Uninitialized w) (x r slot : Ptr) (k : Nat) :
    enqueue x r w = .ret () { w with stderr := w.stderr ++ [msgNotInit] } ∧
    dequeue k w = .ret NULL { w with stderr := w.stderr ++ [msgNotInit] } ∧
    tryDequeue slot w = .ret false { w with stderr := w.stderr ++ [msgNotInit] } ∧
    visited w = .ret 0 w :=
  ⟨enqueue_run_uninit x r w h, dequeue_run_uninit k w h, tryDequeue_run_uninit slot w h,
    visited_run_uninit w h⟩

theorem uninitialized_calls_witness :
    Uninitialized startWorld ∧
    (enqueue 7 2 startWorld = .ret () { startWorld with stderr := startWorld.stderr ++ [msgNotInit] } ∧
    dequeue 0 startWorld = .ret NULL { startWorld with stderr := startWorld.stderr ++ [msgNotInit] } ∧
    tryDequeue 3 startWorld =
      .ret false { startWorld with stderr := startWorld.stderr ++ [msgNotInit] } ∧
    visited startWorld = .ret 0 startWorld) :=
  ⟨rfl, uninitialized_calls startWorld rfl 7 2 3 0⟩

/-! ## C5: what `dequeue` leaves -/

/-- C5 (dequeue postcondition), as the code has it.  In a Ready state whose chain is
`(a, x) :: rest` with counter `c`, `dequeue` returns `x` whatever the number of wake-ups;
afterwards the chain is exactly `rest`, `head` is the address of the first cell of `rest`
(`NULL` when there is none), `tail` is `NULL` iff `rest` is empty and is otherwise what it
was, the removed node is freed, and `visited` is `(c + 1) mod 2^64`: `c + 1` when `c` is not
the largest `size_t`. -/
theorem dequeue_post (w : World) (q : Queue) (a x : Ptr) (rest : List (Ptr × Ptr))
    (h : Holds w q ((a, x) :: rest)) (k : Nat) :
    ∃ w1 q1, dequeue k w = .ret x w1 ∧ Holds w1 q1 rest ∧
      q1.head = headAddr rest ∧
      (q1.tail = NULL ↔ rest = []) ∧ (rest ≠ [] → q1.tail = q.tail) ∧
      q1.visited = (q.visited + 1) % SIZE_MOD ∧
      (q.visited < SIZE_MAX → q1.visited = q.visited + 1) ∧
      w1.mem a = none := by
  obtain ⟨hrun, hh⟩ := dequeue_holds h k
  refine ⟨_, _, hrun, hh, rfl, ?_, ?_, rfl, ?_, ?_⟩
  · rw [hh.2.2.1]; exact lastAddr_eq_null_iff hh.2.2.2
  · intro hne; simp [hne]
  · intro hlt
    simp only [SIZE_MAX] at hlt
    exact Nat.mod_eq_of_lt (by simp only [SIZE_MOD]; omega)
  · simp

theorem dequeue_post_witness :
    Holds lastWorld lastQueue [(2, 7)] ∧
    ∃ w1 q1, dequeue 4 lastWorld = .ret 7 w1 ∧ Holds w1 q1 [] ∧
      q1.head = headAddr [] ∧
      (q1.tail = NULL ↔ ([] : List (Ptr × Ptr)) = []) ∧
      (([] : List (Ptr × Ptr)) ≠ [] → q1.tail = lastQueue.tail) ∧
      q1.visited = (lastQueue.visited + 1) % SIZE_MOD ∧
      (lastQueue.visited < SIZE_MAX → q1.visited = lastQueue.visited + 1) ∧
      w1.mem 2 = none :=
  ⟨lastWorld_holds, dequeue_post lastWorld lastQueue 2 7 [] lastWorld_holds 4⟩

/-- C5, counterexample.  In the Ready state `lastWorld` the chain is the single cell with
payload 7 and the counter is the largest `size_t`; `dequeue` returns 7 and leaves the
counter at 0, which is not the old counter plus one. -/
theorem dequeue_wraps_counter :
    Holds lastWorld lastQueue [(2, 7)] ∧ lastQueue.visited = 2 ^ 64 - 1 ∧
    ∃ w1 q1, dequeue 0 lastWorld = .ret 7 w1 ∧ Holds w1 q1 [] ∧ q1.visited = 0 ∧
      q1.visited ≠ lastQueue.visited + 1 := by
  obtain ⟨hrun, hh⟩ := dequeue_holds lastWorld_holds 0
  refine ⟨lastWorld_holds, rfl, _, _, hrun, hh, ?_, ?_⟩
  · show (SIZE_MAX + 1) % SIZE_MOD = 0
    decide
  · show (SIZE_MAX + 1) % SIZE_MOD ≠ SIZE_MAX + 1
    decide

/-! ## C6: what `enqueue` leaves -/

/-- C6 (enqueue postcondition).  In a Ready state holding the cells `cs` with counter `c`,
an `enqueue(x)` whose allocation succeeds (any payload `x`, `NULL` included) returns and
leaves the chain `cs ++ [(r, x)]`, so the payloads are those of `cs`, in the same order,
followed by `x`.  If `tail` was `NULL`, `head` and `tail` both become the new node;
otherwise `head` is unchanged, the `next` of the previous tail node now points to the new
node and `tail` becomes the new node.  The counter stays `c` and nothing is reported. -/
theorem enqueue_post (w : World) (q : Queue) (cs : List (Ptr × Ptr)) (h : Holds w q cs)
    (x r : Ptr) (hr : r ≠ NULL) (hf : w.mem r = none) :
    ∃ w1 q1, enqueue x r w = .ret () w1 ∧ Holds w1 q1 (cs ++ [(r, x)]) ∧
      payloads (cs ++ [(r, x)]) = payloads cs ++ [x] ∧
      w1.mem r = some (.node { data := x, next := NULL }) ∧
      (q.tail = NULL → q1.head = r ∧ q1.tail = r) ∧
      (q.tail ≠ NULL → q1.head = q.head ∧ q1.tail = r ∧
        ∃ y, w.mem q.tail = some (.node { data := y, next := NULL }) ∧
          w1.mem q.tail = some (.node { data := y, next := r })) ∧
      q1.visited = q.visited ∧ w1.stderr = w.stderr := by
  obtain ⟨w1, hrun, hh, -, he, -, -, -, hlink⟩ := enqueue_holds h x r hr hf
  refine ⟨w1, _, hrun, hh, by simp [payloads], ?_, ?_, ?_, rfl, he⟩
  · have := (Chain.suffix cs _ hh.2.2.2).2.1
    simpa [headAddr] using this
  · intro ht; simp [ht]
  · intro ht
    refine ⟨by simp [ht], rfl, ?_⟩
    have hcs : cs ≠ [] := by
      rintro rfl
      exact ht h.2.2.1
    obtain ⟨y, hy⟩ := h.2.2.2.last_node hcs
    rw [← h.2.2.1] at hy
    exact ⟨y, hy, hlink _ ht hy⟩

theorem enqueue_post_witness :
    Holds lastWorld lastQueue [(2, 7)] ∧ (5 : Ptr) ≠ NULL ∧ lastWorld.mem 5 = none ∧
    ∃ w1 q1, enqueue NULL 5 lastWorld = .ret () w1 ∧ Holds w1 q1 ([(2, 7)] ++ [(5, NULL)]) ∧
      payloads ([(2, 7)] ++ [(5, NULL)]) = payloads [(2, 7)] ++ [NULL] ∧
      w1.mem 5 = some (.node { data := NULL, next := NULL }) ∧
      (lastQueue.tail = NULL → q1.head = 5 ∧ q1.tail = 5) ∧
      (lastQueue.tail ≠ NULL → q1.head = lastQueue.head ∧ q1.tail = 5 ∧
        ∃ y, lastWorld.mem lastQueue.tail = some (.node { data := y, next := NULL }) ∧
          w1.mem lastQueue.tail = some (.node { data := y, next := 5 })) ∧
      q1.visited = lastQueue.visited ∧ w1.stderr = lastWorld.stderr :=
  ⟨lastWorld_holds, by decide, by decide,
    enqueue_post lastWorld lastQueue [(2, 7)] lastWorld_holds NULL 5 (by decide) (by decide)⟩

/-! ## C7: `tryDequeue` against `dequeue` -/

/-- C7 (`tryDequeue` agrees with `dequeue`).  In a Ready state with a non-empty chain,
`dequeue` returns a payload `x` and `tryDequeue`, given a valid slot, returns `true`
with `x` stored in the slot; the two resulting states have the same `Queue` object
(`head`, `tail`, `visited`) and agree everywhere except at the slot. -/
theorem tryDequeue_agrees_with_dequeue (w : World) (q : Queue) (cs : List (Ptr × Ptr))
    (h : Holds w q cs) (hne : cs ≠ []) (slot v : Ptr) (hs : w.mem slot = some (.user v))
    (k : Nat) :
    ∃ x w1 w2, dequeue k w = .ret x w1 ∧ tryDequeue slot w = .ret true w2 ∧
      w2.mem slot = some (.user x) ∧
      w2 = { w1 with mem := Function.update w1.mem slot (some (.user x)) } ∧
      w2.queue = w1.queue ∧ w2.mem w2.queue = w1.mem w1.queue ∧
      (∃ q1, w1.mem w1.queue = some (.queue q1)) := by
  cases cs with
  | nil => exact absurd rfl hne
  | cons c rest =>
    obtain ⟨a, x⟩ := c
    obtain ⟨hrun1, hh1⟩ := dequeue_holds h k
    obtain ⟨hrun2, hh2⟩ := tryDequeue_holds h slot v hs
    have hsq : w.queue ≠ slot := by
      rintro e
      have := h.1.2.1
      rw [e, hs] at this
      simp at this
    refine ⟨x, _, _, hrun1, hrun2, by simp, rfl, rfl, ?_, _, hh1.1.2.1⟩
    simp [hsq]

theorem tryDequeue_agrees_with_dequeue_witness :
    Holds loadedWorld loadedQueue [(4, 10), (5, 20), (6, 30)] ∧
    [((4 : Ptr), (10 : Ptr)), (5, 20), (6, 30)] ≠ [] ∧ loadedWorld.mem 3 = some (.user 7) ∧
    ∃ x w1 w2, dequeue 1 loadedWorld = .ret x w1 ∧ tryDequeue 3 loadedWorld = .ret true w2 ∧
      w2.mem 3 = some (.user x) ∧
      w2 = { w1 with mem := Function.update w1.mem 3 (some (.user x)) } ∧
      w2.queue = w1.queue ∧ w2.mem w2.queue = w1.mem w1.queue ∧
      (∃ q1, w1.mem w1.queue = some (.queue q1)) :=
  ⟨loadedWorld_holds, by decide, by decide,
    tryDequeue_agrees_with_dequeue loadedWorld loadedQueue _ loadedWorld_holds (by decide) 3 7
      (by decide) 1⟩

/-! ## C8: `destroyQueue` -/

/-- C8 (teardown).  In a Ready state holding the cells `cs`, `destroyQueue` returns as
soon as its loop may run once per cell; afterwards the system is Uninitialized, every
node of the chain and the `Queue` itself are freed, every other address, the caller's
payload words included, holds what it held, the mutex and the condition variable are
destroyed and nothing is reported.  In that state `visited()` returns 0 and `tryDequeue`
returns `false`.  In an Uninitialized state `destroyQueue` changes nothing. -/
theorem destroyQueue_post (w : World) (q : Queue) (cs : List (Ptr × Ptr)) (h : Holds w q cs)
    (fuel : Nat) (hl : cs.length ≤ fuel) :
    (∃ w1, destroyQueue fuel w = .ret () w1 ∧ Uninitialized w1 ∧
      (∀ a ∈ addrs cs, w1.mem a = none) ∧ w1.mem w.queue = none ∧
      (∀ a, a ∉ addrs cs → a ≠ w.queue → w1.mem a = w.mem a) ∧
      (∀ a v, w.mem a = some (.user v) → w1.mem a = some (.user v)) ∧
      w1.mtxLive = w.mtxLive - 1 ∧ w1.cndLive = w.cndLive - 1 ∧ w1.stderr = w.stderr ∧
      visited w1 = .ret 0 w1 ∧
      (∀ slot, ∃ w2, tryDequeue slot w1 = .ret false w2 ∧ Uninitialized w2 ∧
        w2.mem = w1.mem)) ∧
    (∀ w0, Uninitialized w0 → destroyQueue fuel w0 = .ret () w0) := by
  refine ⟨⟨_, destroyQueue_holds h fuel hl, rfl, ?_, ?_, ?_, ?_, rfl, rfl, rfl,
    visited_run_uninit _ rfl, fun slot => ⟨_, tryDequeue_run_uninit slot _ rfl, rfl, rfl⟩⟩,
    fun w0 h0 => destroyQueue_run_uninit fuel w0 h0⟩
  · intro a ha
    simp [ha]
  · simp
  · intro a ha haq
    simp [ha, haq]
  · intro a v hv
    have ha : a ∉ addrs cs := by
      intro hin
      obtain ⟨n, hn⟩ := h.2.2.2.is_node a hin
      rw [hn] at hv
      simp at hv
    have haq : a ≠ w.queue := by
      rintro rfl
      rw [h.1.2.1] at hv
      simp at hv
    simp [ha, haq, hv]

theorem destroyQueue_post_witness :
    Holds loadedWorld loadedQueue [(4, 10), (5, 20), (6, 30)] ∧
    [((4 : Ptr), (10 : Ptr)), (5, 20), (6, 30)].length ≤ 3 ∧
    ((∃ w1, destroyQueue 3 loadedWorld = .ret () w1 ∧ Uninitialized w1 ∧
      (∀ a ∈ addrs [(4, 10), (5, 20), (6, 30)], w1.mem a = none) ∧
      w1.mem loadedWorld.queue = none ∧
      (∀ a, a ∉ addrs [(4, 10), (5, 20), (6, 30)] → a ≠ loadedWorld.queue →
        w1.mem a = loadedWorld.mem a) ∧
      (∀ a v, loadedWorld.mem a = some (.user v) → w1.mem a = some (.user v)) ∧
      w1.mtxLive = loadedWorld.mtxLive - 1 ∧ w1.cndLive = loadedWorld.cndLive - 1 ∧
      w1.stderr = loadedWorld.stderr ∧
      visited w1 = .ret 0 w1 ∧
      (∀ slot, ∃ w2, tryDequeue slot w1 = .ret false w2 ∧ Uninitialized w2 ∧
        w2.mem = w1.mem)) ∧
    (∀ w0, Uninitialized w0 → destroyQueue 3 w0 = .ret () w0)) :=
  ⟨loadedWorld_holds, by decide,
    destroyQueue_post loadedWorld loadedQueue _ loadedWorld_holds 3 (by decide)⟩

/-! ## C9: `initQueue` -/

/-- C9 (initialize).  Given a block that `malloc` may hand out (or `NULL`): when the
allocation, `mtx_init` and `cnd_init` all succeed, `initQueue` returns in a Ready state
whose queue has `head == NULL`, `tail == NULL` and `visited == 0`, without reporting
anything; when one of them fails, `initQueue` returns with `queue == NULL`, the memory
and the numbers of live mutexes and condition variables as before the call, and one
message appended to `stderr`, which names the step that failed. -/
theorem initQueue_post (w : World) (r : Ptr) (hr : r = NULL ∨ w.mem r = none)
    (mtxOk cndOk : Bool) :
    (r ≠ NULL → mtxOk = true → cndOk = true →
      ∃ w1 q1, initQueue r mtxOk cndOk w = .ret () w1 ∧ Holds w1 q1 [] ∧
        q1.head = NULL ∧ q1.tail = NULL ∧ q1.visited = 0 ∧ w1.stderr = w.stderr) ∧
    (¬ (r ≠ NULL ∧ mtxOk = true ∧ cndOk = true) →
      initQueue r mtxOk cndOk w = .ret ()
        { w with
          queue := NULL
          stderr := w.stderr ++
            [if r = NULL then msgAlloc else if mtxOk = false then msgMutex else msgCnd] }) := by
  constructor
  · intro hr0 hm hc
    subst hm hc
    have hf : w.mem r = none := hr.resolve_left hr0
    refine ⟨_, freshQueue, initQueue_run_ok w r hr0 hf, ⟨⟨hr0, ?_, rfl, rfl⟩, rfl, rfl, trivial⟩,
      rfl, rfl, rfl, rfl⟩
    simp
  · intro hfail
    by_cases hr0 : r = NULL
    · subst hr0
      simpa using initQueue_run_nomem w mtxOk cndOk
    · have hf : w.mem r = none := hr.resolve_left hr0
      cases mtxOk with
      | false => simpa [hr0] using initQueue_run_nomtx w r cndOk hr0 hf
      | true =>
        cases cndOk with
        | false => simpa [hr0] using initQueue_run_nocnd w r hr0 hf
        | true => exact absurd ⟨hr0, rfl, rfl⟩ hfail

theorem initQueue_post_witness :
    ((1 : Ptr) = NULL ∨ slotWorld.mem 1 = none) ∧
    ((1 ≠ NULL → true = true → false = true →
      ∃ w1 q1, initQueue 1 true false slotWorld = .ret () w1 ∧ Holds w1 q1 [] ∧
        q1.head = NULL ∧ q1.tail = NULL ∧ q1.visited = 0 ∧ w1.stderr = slotWorld.stderr) ∧
    (¬ (1 ≠ NULL ∧ true = true ∧ false = true) →
      initQueue 1 true false slotWorld = .ret ()
        { slotWorld with
          queue := NULL
          stderr := slotWorld.stderr ++
            [if 1 = NULL then msgAlloc else if true = false then msgMutex else msgCnd] })) :=
  ⟨Or.inr (by decide), initQueue_post slotWorld 1 (Or.inr (by decide)) true false⟩

/-! ## C10: `enqueue` when `malloc` fails -/

/-- C10 (enqueue allocation failure).  In any state with `queue != NULL`, an `enqueue`
whose `malloc` returns `NULL` returns with the whole state as before the call (`head`,
`tail`, every node and `visited` included) except that "Memory allocation error" has been
appended to `stderr`; the item is stored nowhere. -/
theorem enqueue_alloc_failure (w : World) (h : w.queue ≠ NULL) (x : Ptr) :
    enqueue x NULL w = .ret () { w with stderr := w.stderr ++ [msgAlloc] } :=
  enqueue_run_nomem x w h

theorem enqueue_alloc_failure_witness :
    loadedWorld.queue ≠ NULL ∧
    enqueue 40 NULL loadedWorld =
      .ret () { loadedWorld with stderr := loadedWorld.stderr ++ [msgAlloc] } :=
  ⟨by decide, enqueue_alloc_failure loadedWorld (by decide) 40⟩

/-! ## Lemmas: what one call does to the chain and the counter -/

/-- One returned call from a Ready state, case by case: the state stays Ready, a
successful `enqueue` appends its cell, a removal takes the first cell and returns its
payload, everything else leaves chain and counter alone. -/
theorem call_sim {w w1 : World} {q : Queue} {cs : List (Ptr × Ptr)} {c : Call} {r : Result}
    (h : Holds w q cs) (hrun : call c w = .ret r w1) :
    ∃ q1 cs1, Holds w1 q1 cs1 ∧
      ((∃ x, c = .enqueue x NULL ∧ r = .done ∧ cs1 = cs ∧ q1 = q) ∨
       (∃ x a, c = .enqueue x a ∧ a ≠ NULL ∧ r = .done ∧ cs1 = cs ++ [(a, x)] ∧
          q1.visited = q.visited) ∨
       (∃ k a x, c = .dequeue k ∧ r = .item x ∧ cs = (a, x) :: cs1 ∧
          q1.visited = (q.visited + 1) % SIZE_MOD) ∨
       (∃ s, c = .tryDequeue s ∧ r = .flag false ∧ cs = [] ∧ cs1 = [] ∧ q1 = q ∧ w1 = w) ∨
       (∃ s a x, c = .tryDequeue s ∧ r = .flag true ∧ cs = (a, x) :: cs1 ∧
          q1.visited = (q.visited + 1) % SIZE_MOD ∧ w1.mem s = some (.user x)) ∨
       (c = .visited ∧ r = .count q.visited ∧ cs1 = cs ∧ q1 = q ∧ w1 = w)) := by
  have hR := h.1
  obtain ⟨hq, hm, hu, hc⟩ := hR
  cases c with
  | enqueue x a =>
    by_cases ha : a = NULL
    · subst ha
      simp only [call, bind_apply, enqueue_run_nomem x w hq, pure_apply, Outcome.ret.injEq] at hrun
      obtain ⟨rfl, rfl⟩ := hrun
      exact ⟨q, cs, h.of_mem_eq rfl rfl, Or.inl ⟨x, rfl, rfl, rfl, rfl⟩⟩
    · cases hma : w.mem a with
      | some o => simp [call, enqueue_run_stale x a o w hq ha hma] at hrun
      | none =>
        obtain ⟨w2, hrun2, hh, -⟩ := enqueue_holds h x a ha hma
        simp only [call, bind_apply, hrun2, pure_apply, Outcome.ret.injEq] at hrun
        obtain ⟨rfl, rfl⟩ := hrun
        exact ⟨_, _, hh, Or.inr (Or.inl ⟨x, a, rfl, ha, rfl, rfl, rfl⟩)⟩
  | dequeue k =>
    cases cs with
    | nil => simp [call, dequeue_run_empty k w q hq hm hu hc h.2.1] at hrun
    | cons d ds =>
      obtain ⟨a, x⟩ := d
      obtain ⟨hrun2, hh⟩ := dequeue_holds h k
      simp only [call, bind_apply, hrun2, pure_apply, Outcome.ret.injEq] at hrun
      obtain ⟨rfl, rfl⟩ := hrun
      exact ⟨_, _, hh, Or.inr (Or.inr (Or.inl ⟨k, a, x, rfl, rfl, rfl, rfl⟩))⟩
  | tryDequeue slot =>
    cases cs with
    | nil =>
      simp only [call, bind_apply, tryDequeue_run_empty slot w q hq hm hu h.2.1, pure_apply,
        Outcome.ret.injEq] at hrun
      obtain ⟨rfl, rfl⟩ := hrun
      exact ⟨q, [], h, Or.inr (Or.inr (Or.inr (Or.inl ⟨slot, rfl, rfl, rfl, rfl, rfl, rfl⟩)))⟩
    | cons d ds =>
      obtain ⟨a, x⟩ := d
      by_cases hs : ∃ v, w.mem slot = some (.user v)
      · obtain ⟨v, hv⟩ := hs
        obtain ⟨hrun2, hh⟩ := tryDequeue_holds h slot v hv
        simp only [call, bind_apply, hrun2, pure_apply, Outcome.ret.injEq] at hrun
        obtain ⟨rfl, rfl⟩ := hrun
        exact ⟨_, _, hh, Or.inr (Or.inr (Or.inr (Or.inr (Or.inl
          ⟨slot, a, x, rfl, rfl, rfl, rfl, by simp⟩))))⟩
      · have hh : q.head ≠ NULL := by rw [h.2.1]; exact h.2.2.2.1
        have hn : w.mem q.head = some (.node { data := x, next := headAddr ds }) := by
          rw [h.2.1]; exact h.2.2.2.2.1
        simp [call, tryDequeue_run_badslot slot w q _ hq hm hu hh hn
          (fun v hv => hs ⟨v, hv⟩)] at hrun
  | visited =>
    simp only [call, bind_apply, visited_run w q hq hm hu, pure_apply, Outcome.ret.injEq] at hrun
    obtain ⟨rfl, rfl⟩ := hrun
    exact ⟨q, cs, h, Or.inr (Or.inr (Or.inr (Or.inr (Or.inr ⟨rfl, rfl, rfl, rfl, rfl⟩))))⟩

/-- A Ready state determines its `Queue` and its chain. -/
theorem Holds.same_chain {w : World} {q q1 : Queue} {cs cs1 : List (Ptr × Ptr)} (h : Holds w q cs)
    (h1 : Holds w q1 cs1) : q1 = q ∧ cs1 = cs := by
  have hq : q1 = q := by
    have := h1.1.2.1.symm.trans h.1.2.1
    simpa using this
  subst hq
  exact ⟨rfl, Chain.unique h1.2.2.2 h.2.2.2 (h1.2.1.symm.trans h.2.1)⟩

/-- After a sequence of returned calls from a Ready state the state is Ready. -/
theorem calls_holds {cl : List Call} {w w1 : World} {q : Queue} {cs : List (Ptr × Ptr)}
    {rs : List Result} (h : Holds w q cs) (hrun : calls cl w = .ret rs w1) :
    ∃ q1 cs1, Holds w1 q1 cs1 := by
  obtain ⟨q1, cs1, hh, -⟩ := calls_steps cl w w1 q cs rs h hrun
  exact ⟨q1, cs1, hh⟩

theorem nullHeadWorld_holds :
    Holds nullHeadWorld (Queue.mk 2 2 0 .unlocked .ready) [(2, NULL)] := by
  refine ⟨⟨Nat.one_ne_zero, ?_, rfl, rfl⟩, rfl, rfl, by decide, ?_, trivial⟩ <;>
  simp [nullHeadWorld, headAddr]

/-- A successful `initQueue` ends in a Ready state with an empty chain and counter 0. -/
theorem initQueue_ready {w0 w : World} {r : Ptr} (hr : r ≠ NULL)
    (hinit : initQueue r true true w0 = .ret () w) :
    Holds w freshQueue [] ∧ w.queue = r ∧ w0.mem r = none ∧
      w.mem = Function.update w0.mem r (some (.queue freshQueue)) ∧ w.stderr = w0.stderr := by
  cases hf : w0.mem r with
  | some o => simp [initQueue, malloc, hr, hf] at hinit
  | none =>
    rw [initQueue_run_ok w0 r hr hf] at hinit
    simp only [Outcome.ret.injEq, true_and] at hinit
    subst hinit
    refine ⟨⟨⟨hr, ?_, rfl, rfl⟩, rfl, rfl, trivial⟩, rfl, rfl, rfl, rfl⟩
    simp

/-- Dequeueing as many times as `ks` has entries takes that many cells from the front of
the chain and returns their payloads in chain order. -/
theorem calls_dequeue_front : ∀ (cs : List (Ptr × Ptr)) (ks : List Nat) (w : World) (q : Queue)
    (rest : List (Ptr × Ptr)), Holds w q (cs ++ rest) → ks.length = cs.length →
    ∃ w1 q1, calls (ks.map Call.dequeue) w = .ret ((payloads cs).map Result.item) w1 ∧
      Holds w1 q1 rest
  | [], [], w, q, rest, h, _ => ⟨w, q, by simp [calls, payloads], h⟩
  | [], _ :: _, _, _, _, _, hl => by simp at hl
  | _ :: _, [], _, _, _, _, hl => by simp at hl
  | (a, x) :: cs, k :: ks, w, q, rest, h, hl => by
    obtain ⟨hrun, hh⟩ := dequeue_holds h k
    obtain ⟨w2, q2, hrun2, hh2⟩ := calls_dequeue_front cs ks _ _ rest hh (by simpa using hl)
    exact ⟨w2, q2, calls_cons_of_ret (call_dequeue_ret hrun) hrun2, hh2⟩

/-- An example run on the freshly initialised `idleWorld 0`: three successful enqueues,
then two dequeues; the node at address 6 with payload 30 is left. -/
theorem example_run :
    ∃ w1 q1,
      calls ([Call.enqueue 10 4, Call.enqueue 20 5, Call.enqueue 30 6] ++
          [Call.dequeue 0, Call.dequeue 2]) (idleWorld 0) =
        .ret ([Result.done, Result.done, Result.done] ++ [Result.item 10, Result.item 20])
          w1 ∧
      Holds w1 q1 [(6, 30)] := by
  obtain ⟨w1, q1, hrun1, hh1, -⟩ := calls_enqueue_all [(4, 10), (5, 20), (6, 30)] (idleWorld 0)
    (idleQueue 0) [] (idleWorld_holds 0) (by decide) (by decide)
  obtain ⟨w2, q2, hrun2, hh2⟩ := calls_dequeue_front [(4, 10), (5, 20)] [0, 2] w1 q1 [(6, 30)]
    (by simpa using hh1) rfl
  exact ⟨w2, q2, calls_append_of_ret hrun1 hrun2, hh2⟩

/-! ## C11: results that do not tell two situations apart -/

/-- C11 (sentinel ambiguity).  (a) `dequeue` returns `NULL` both when `queue == NULL` and
in a Ready state whose first node carries the null payload; (b) `tryDequeue` returns
`false` and leaves the caller's slot as it was both when `queue == NULL` and in a Ready
state with an empty chain; (c) `visited` returns 0 both when `queue == NULL` and in a
Ready state whose counter is 0. -/
theorem sentinel_ambiguity (w0 : World) (h0 : Uninitialized w0)
    (wa : World) (qa : Queue) (a : Ptr) (rest : List (Ptr × Ptr))
    (ha : Holds wa qa ((a, NULL) :: rest))
    (wb : World) (qb : Queue) (hb : Holds wb qb [])
    (wc : World) (qc : Queue) (cs : List (Ptr × Ptr)) (hc : Holds wc qc cs)
    (hc0 : qc.visited = 0) (k : Nat) (slot : Ptr) :
    (∃ w1 w2, dequeue k w0 = .ret NULL w1 ∧ dequeue k wa = .ret NULL w2) ∧
    (∃ w1 w2, tryDequeue slot w0 = .ret false w1 ∧ tryDequeue slot wb = .ret false w2 ∧
      w1.mem slot = w0.mem slot ∧ w2.mem slot = wb.mem slot) ∧
    (∃ w1 w2, visited w0 = .ret 0 w1 ∧ visited wc = .ret 0 w2) :=
  ⟨⟨_, _, dequeue_run_uninit k w0 h0, (dequeue_holds ha k).1⟩,
    ⟨_, _, tryDequeue_run_uninit slot w0 h0,
      tryDequeue_run_empty slot wb qb hb.1.1 hb.1.2.1 hb.1.2.2.1 hb.2.1, rfl, rfl⟩,
    ⟨_, _, visited_run_uninit w0 h0, hc0 ▸ visited_run wc qc hc.1.1 hc.1.2.1 hc.1.2.2.1⟩⟩

theorem sentinel_ambiguity_witness :
    Uninitialized slotWorld ∧
    Holds nullHeadWorld (Queue.mk 2 2 0 .unlocked .ready) ((2, NULL) :: []) ∧
    Holds (idleWorld 0) (idleQueue 0) [] ∧ (idleQueue 0).visited = 0 ∧
    ((∃ w1 w2, dequeue 0 slotWorld = .ret NULL w1 ∧ dequeue 0 nullHeadWorld = .ret NULL w2) ∧
    (∃ w1 w2, tryDequeue 3 slotWorld = .ret false w1 ∧
      tryDequeue 3 (idleWorld 0) = .ret false w2 ∧
      w1.mem 3 = slotWorld.mem 3 ∧ w2.mem 3 = (idleWorld 0).mem 3) ∧
    (∃ w1 w2, visited slotWorld = .ret 0 w1 ∧ visited (idleWorld 0) = .ret 0 w2)) :=
  ⟨rfl, nullHeadWorld_holds, idleWorld_holds 0, rfl,
    sentinel_ambiguity slotWorld rfl nullHeadWorld _ 2 [] nullHeadWorld_holds
      (idleWorld 0) (idleQueue 0) (idleWorld_holds 0)
      (idleWorld 0) (idleQueue 0) [] (idleWorld_holds 0) rfl 0 3⟩

/-! ## C14: `initQueue` on a Ready state -/

/-- C14 (re-initialization).  A successful `initQueue` in a Ready state holding the cells
`cs` with any counter returns, without reporting anything, in a Ready state with an
empty chain and counter 0 whose `Queue` is the new block; the old `Queue` and every old
node are still allocated and unchanged (neither freed nor drained), and cannot be
reached: a following `tryDequeue` returns `false` and `visited` returns 0. -/
theorem initQueue_replaces (w : World) (q : Queue) (cs : List (Ptr × Ptr)) (h : Holds w q cs)
    (r : Ptr) (hr : r ≠ NULL) (hf : w.mem r = none) (slot : Ptr) :
    ∃ w1, initQueue r true true w = .ret () w1 ∧ Holds w1 freshQueue [] ∧
      freshQueue.head = NULL ∧ freshQueue.tail = NULL ∧ freshQueue.visited = 0 ∧
      w1.queue = r ∧ w1.queue ≠ w.queue ∧ w1.stderr = w.stderr ∧
      w1.mem w.queue = some (.queue q) ∧ Chain w1.mem cs ∧
      (∀ a, a ≠ r → w1.mem a = w.mem a) ∧
      tryDequeue slot w1 = .ret false w1 ∧ visited w1 = .ret 0 w1 := by
  have hrq : w.queue ≠ r := by
    rintro e
    have := h.1.2.1
    rw [e, hf] at this
    simp at this
  have hrun := initQueue_run_ok w r hr hf
  obtain ⟨hh, -⟩ := initQueue_ready hr hrun
  refine ⟨_, hrun, hh, rfl, rfl, rfl, rfl, Ne.symm hrq, rfl, ?_, ?_, ?_,
    tryDequeue_run_empty slot _ freshQueue hr (by simp) rfl rfl,
    visited_run _ freshQueue hr (by simp) rfl⟩
  · simpa [hrq] using h.1.2.1
  · refine h.2.2.2.frame fun a ha => ?_
    have : a ≠ r := by
      rintro rfl
      obtain ⟨n, hn⟩ := h.2.2.2.is_node _ ha
      rw [hn] at hf
      simp at hf
    simp [this]
  · intro a ha
    simp [ha]

theorem initQueue_replaces_witness :
    Holds loadedWorld loadedQueue [(4, 10), (5, 20), (6, 30)] ∧ (8 : Ptr) ≠ NULL ∧
    loadedWorld.mem 8 = none ∧
    ∃ w1, initQueue 8 true true loadedWorld = .ret () w1 ∧ Holds w1 freshQueue [] ∧
      freshQueue.head = NULL ∧ freshQueue.tail = NULL ∧ freshQueue.visited = 0 ∧
      w1.queue = 8 ∧ w1.queue ≠ loadedWorld.queue ∧ w1.stderr = loadedWorld.stderr ∧
      w1.mem loadedWorld.queue = some (.queue loadedQueue) ∧
      Chain w1.mem [(4, 10), (5, 20), (6, 30)] ∧
      (∀ a, a ≠ 8 → w1.mem a = loadedWorld.mem a) ∧
      tryDequeue 3 w1 = .ret false w1 ∧ visited w1 = .ret 0 w1 :=
  ⟨loadedWorld_holds, by decide, by decide,
    initQueue_replaces loadedWorld loadedQueue _ loadedWorld_holds 8 (by decide) (by decide) 3⟩

/-! ## C15: `head`, `tail` and the empty chain -/

/-- C15 (head/tail emptiness invariant).  After a successful `initQueue` and any sequence
of returned calls (`enqueue` with or without a successful allocation, `dequeue`,
`tryDequeue`, `visited`), the state is Ready and `head == NULL`, `tail == NULL` and
"the chain is empty" are equivalent. -/
theorem head_tail_empty_invariant (w0 w : World) (r : Ptr) (hr : r ≠ NULL)
    (hinit : initQueue r true true w0 = .ret () w)
    (cl : List Call) (rs : List Result) (w1 : World) (hrun : calls cl w = .ret rs w1) :
    ∃ q1 cs1, Holds w1 q1 cs1 ∧ (q1.head = NULL ↔ q1.tail = NULL) ∧
      (q1.tail = NULL ↔ cs1 = []) ∧ (q1.head = NULL ↔ cs1 = []) := by
  obtain ⟨q1, cs1, hh⟩ := calls_holds (initQueue_ready hr hinit).1 hrun
  have h1 : q1.head = NULL ↔ cs1 = [] := by
    rw [hh.2.1]; exact headAddr_eq_null_iff hh.2.2.2
  have h2 : q1.tail = NULL ↔ cs1 = [] := by
    rw [hh.2.2.1]; exact lastAddr_eq_null_iff hh.2.2.2
  exact ⟨q1, cs1, hh, h1.trans h2.symm, h2, h1⟩

theorem head_tail_empty_invariant_witness :
    (1 : Ptr) ≠ NULL ∧ initQueue 1 true true slotWorld = .ret () (idleWorld 0) ∧
    ∃ w1, calls ([Call.enqueue 10 4, Call.enqueue 20 5, Call.enqueue 30 6] ++
          [Call.dequeue 0, Call.dequeue 2]) (idleWorld 0) =
        .ret ([Result.done, Result.done, Result.done] ++ [Result.item 10, Result.item 20])
          w1 ∧
      ∃ q1 cs1, Holds w1 q1 cs1 ∧ (q1.head = NULL ↔ q1.tail = NULL) ∧
        (q1.tail = NULL ↔ cs1 = []) ∧ (q1.head = NULL ↔ cs1 = []) := by
  obtain ⟨w1, q1, hrun, -⟩ := example_run
  exact ⟨by decide, initQueue_slotWorld, w1, hrun,
    head_tail_empty_invariant slotWorld (idleWorld 0) 1 (by decide) initQueue_slotWorld _ _ w1
      hrun⟩

/-! ## Lemmas: following the `next` links -/

theorem follow_nextOf (mem : Heap) : ∀ (k : Nat) (p : Ptr),
    follow mem k (nextOf mem p) = nextOf mem (follow mem k p)
  | 0, _ => rfl
  | k + 1, p => by simp only [follow]; exact follow_nextOf mem k (nextOf mem p)

theorem Chain.nextOf_head {mem : Heap} {c : Ptr × Ptr} {cs : List (Ptr × Ptr)}
    (h : Chain mem (c :: cs)) : nextOf mem c.1 = headAddr cs := by
  simp [nextOf, h.2.1]

theorem Chain.follow_eq {mem : Heap} : ∀ (cs : List (Ptr × Ptr)) (k : Nat), Chain mem cs →
    k ≤ cs.length → follow mem k (headAddr cs) = headAddr (cs.drop k)
  | _, 0, _, _ => rfl
  | [], k + 1, _, hk => by simp at hk
  | c :: cs, k + 1, h, hk => by
    simp only [follow, headAddr, List.drop_succ_cons]
    rw [h.nextOf_head]
    exact Chain.follow_eq cs k h.2.2 (by simpa using hk)

theorem lastAddr_eq_headAddr_drop : ∀ (cs : List (Ptr × Ptr)), cs ≠ [] →
    lastAddr cs = headAddr (cs.drop (cs.length - 1))
  | [], h => absurd rfl h
  | [_], _ => rfl
  | _ :: d :: cs, _ => by
    have := lastAddr_eq_headAddr_drop (d :: cs) (by simp)
    simpa [lastAddr] using this

theorem Chain.drop {mem : Heap} (cs : List (Ptr × Ptr)) (k : Nat) (h : Chain mem cs) :
    Chain mem (cs.drop k) := by
  have := Chain.suffix (cs.take k) (cs.drop k) (by rw [List.take_append_drop]; exact h)
  exact this

theorem addrs_eq_follow {mem : Heap} : ∀ (cs : List (Ptr × Ptr)), Chain mem cs →
    addrs cs = (List.range cs.length).map fun k => follow mem k (headAddr cs)
  | [], _ => rfl
  | c :: cs, h => by
    rw [List.length_cons, List.range_succ_eq_map, List.map_cons, List.map_map]
    have ih := addrs_eq_follow cs h.2.2
    simp only [addrs, List.map_cons] at ih ⊢
    rw [ih]
    congr 1
    apply List.map_congr_left
    intro k _
    show follow mem k (headAddr cs) = follow mem k (nextOf mem c.1)
    rw [h.nextOf_head]


/-! ## Lemmas: accounting for the items -/

theorem itemsEnqueued_cons (c : Call) (cl : List Call) :
    itemsEnqueued (c :: cl) = itemsEnqueued [c] ++ itemsEnqueued cl := by
  cases c with
  | enqueue x r => by_cases hr : r = NULL <;> simp [itemsEnqueued, hr]
  | dequeue k => simp [itemsEnqueued]
  | tryDequeue s => simp [itemsEnqueued]
  | visited => simp [itemsEnqueued]

/-- One returned call: the payloads in the chain followed by the payload enqueued, if
any, are the payload removed, if any, followed by the payloads then in the chain. -/
theorem call_account {w w1 : World} {q : Queue} {cs : List (Ptr × Ptr)} {c : Call} {r : Result}
    (h : Holds w q cs) (hrun : call c w = .ret r w1) :
    ∃ q1 cs1, Holds w1 q1 cs1 ∧ ∃ gone : List Ptr, gone.length = r.removal ∧
      payloads cs ++ itemsEnqueued [c] = gone ++ payloads cs1 := by
  obtain ⟨q1, cs1, hh, hcase⟩ := call_sim h hrun
  refine ⟨q1, cs1, hh, ?_⟩
  rcases hcase with ⟨x, rfl, rfl, rfl, -⟩ | ⟨x, a, rfl, ha, rfl, rfl, -⟩ |
    ⟨k, a, x, rfl, rfl, rfl, -⟩ | ⟨s, rfl, rfl, rfl, rfl, -⟩ |
    ⟨s, a, x, rfl, rfl, rfl, -⟩ | ⟨rfl, rfl, rfl, -⟩
  · exact ⟨[], rfl, by simp [itemsEnqueued]⟩
  · exact ⟨[], rfl, by simp [itemsEnqueued, ha, payloads]⟩
  · exact ⟨[x], rfl, by simp [itemsEnqueued, payloads]⟩
  · exact ⟨[], rfl, by simp [itemsEnqueued, payloads]⟩
  · exact ⟨[x], rfl, by simp [itemsEnqueued, payloads]⟩
  · exact ⟨[], rfl, by simp [itemsEnqueued]⟩

/-- A sequence of returned calls: the payloads in the chain at the start followed by the
payloads enqueued are the payloads removed followed by the payloads in the chain at the
end; the number removed is the number of successful removals. -/
theorem calls_account : ∀ (cl : List Call) (w w1 : World) (q : Queue) (cs : List (Ptr × Ptr))
    (rs : List Result), Holds w q cs → calls cl w = .ret rs w1 →
    ∃ q1 cs1, Holds w1 q1 cs1 ∧ ∃ gone : List Ptr, gone.length = removals rs ∧
      payloads cs ++ itemsEnqueued cl = gone ++ payloads cs1
  | [], w, w1, q, cs, rs, h, hrun => by
    simp only [calls, pure_apply, Outcome.ret.injEq] at hrun
    obtain ⟨rfl, rfl⟩ := hrun
    exact ⟨q, cs, h, [], rfl, by simp [itemsEnqueued]⟩
  | c :: cl, w, w1, q, cs, rs, h, hrun => by
    obtain ⟨r, w2, rs1, hc, hcs, rfl⟩ := calls_cons_ret hrun
    obtain ⟨q2, cs2, hh2, g1, hg1, he1⟩ := call_account h hc
    obtain ⟨q3, cs3, hh3, g2, hg2, he2⟩ := calls_account cl w2 w1 q2 cs2 rs1 hh2 hcs
    refine ⟨q3, cs3, hh3, g1 ++ g2, ?_, ?_⟩
    · simp [removals, hg1, hg2]
    · rw [itemsEnqueued_cons, ← List.append_assoc, he1, List.append_assoc, he2,
        List.append_assoc]

/-! ## C16: the chain is a well-formed list -/

/-- C16 (chain well-formedness).  After a successful `initQueue` and any sequence of
returned calls the state is Ready with a chain `cs1` such that: its length is the number
of items enqueued and not yet removed; its nodes are pairwise different and are exactly
the addresses met by following 0, 1, ..., length - 1 `next` links from `head`; following
length links reaches `NULL`; and when the chain is not empty, following length - 1
links reaches `tail`, the `next` of `tail` is `NULL`, and the `next` of every earlier
node is not `NULL`. -/
theorem chain_well_formed (w0 w : World) (r : Ptr) (hr : r ≠ NULL)
    (hinit : initQueue r true true w0 = .ret () w)
    (cl : List Call) (rs : List Result) (w1 : World) (hrun : calls cl w = .ret rs w1) :
    ∃ q1 cs1, Holds w1 q1 cs1 ∧ cs1.length + removals rs = enqueued cl ∧
      (addrs cs1).Nodup ∧
      addrs cs1 = (List.range cs1.length).map (fun k => follow w1.mem k q1.head) ∧
      follow w1.mem cs1.length q1.head = NULL ∧
      (cs1 ≠ [] → follow w1.mem (cs1.length - 1) q1.head = q1.tail ∧
        nextOf w1.mem q1.tail = NULL ∧
        ∀ k, k + 1 < cs1.length → nextOf w1.mem (follow w1.mem k q1.head) ≠ NULL) := by
  obtain ⟨q1, cs1, hh, gone, hg, he⟩ := calls_account cl w w1 freshQueue [] rs
    (initQueue_ready hr hinit).1 hrun
  have hch := hh.2.2.2
  refine ⟨q1, cs1, hh, ?_, hch.nodup, ?_, ?_, fun hne => ⟨?_, ?_, fun k hk => ?_⟩⟩
  · have := congrArg List.length he
    simp only [payloads, List.map_nil, List.nil_append, List.length_append, List.length_map,
      hg] at this
    simp only [enqueued]
    omega
  · rw [hh.2.1]; exact addrs_eq_follow cs1 hch
  · rw [hh.2.1, hch.follow_eq cs1 cs1.length (Nat.le_refl _)]
    simp [headAddr]
  · rw [hh.2.1, hch.follow_eq cs1 _ (Nat.sub_le _ _), hh.2.2.1]
    exact (lastAddr_eq_headAddr_drop cs1 hne).symm
  · obtain ⟨y, hy⟩ := hch.last_node hne
    rw [hh.2.2.1]
    simp [nextOf, hy]
  · rw [← follow_nextOf]
    show follow w1.mem (k + 1) q1.head ≠ NULL
    rw [hh.2.1, hch.follow_eq cs1 (k + 1) (by omega)]
    intro e
    have hnil := (headAddr_eq_null_iff (hch.drop cs1 (k + 1))).1 e
    have := congrArg List.length hnil
    simp at this
    omega

theorem chain_well_formed_witness :
    (1 : Ptr) ≠ NULL ∧ initQueue 1 true true slotWorld = .ret () (idleWorld 0) ∧
    ∃ w1, calls ([Call.enqueue 10 4, Call.enqueue 20 5, Call.enqueue 30 6] ++
          [Call.dequeue 0, Call.dequeue 2]) (idleWorld 0) =
        .ret ([Result.done, Result.done, Result.done] ++ [Result.item 10, Result.item 20])
          w1 ∧
      ∃ q1 cs1, Holds w1 q1 cs1 ∧
        cs1.length +
            removals ([Result.done, Result.done, Result.done] ++
              [Result.item 10, Result.item 20]) =
          enqueued ([Call.enqueue 10 4, Call.enqueue 20 5, Call.enqueue 30 6] ++
            [Call.dequeue 0, Call.dequeue 2]) ∧
        (addrs cs1).Nodup ∧
        addrs cs1 = (List.range cs1.length).map (fun k => follow w1.mem k q1.head) ∧
        follow w1.mem cs1.length q1.head = NULL ∧
        (cs1 ≠ [] → follow w1.mem (cs1.length - 1) q1.head = q1.tail ∧
          nextOf w1.mem q1.tail = NULL ∧
          ∀ k, k + 1 < cs1.length → nextOf w1.mem (follow w1.mem k q1.head) ≠ NULL) := by
  obtain ⟨w1, q1, hrun, -⟩ := example_run
  exact ⟨by decide, initQueue_slotWorld, w1, hrun,
    chain_well_formed slotWorld (idleWorld 0) 1 (by decide) initQueue_slotWorld _ _ w1 hrun⟩

/-! ## C17: the counter across one call -/

/-- C17 (counter monotonicity), as the code has it.  Across any returned call in a Ready
state: a call that removes nothing leaves `visited` as it is; a successful removal makes
it `(c + 1) mod 2^64`.  So when the counter `c` is below the largest `size_t` it does
not decrease and a successful removal increases it by exactly 1; when `c` is the largest
`size_t` a successful removal makes it 0. -/
theorem counter_across_call (w : World) (q : Queue) (cs : List (Ptr × Ptr)) (h : Holds w q cs)
    (c : Call) (r : Result) (w1 : World) (hrun : call c w = .ret r w1) :
    ∃ q1 cs1, Holds w1 q1 cs1 ∧
      (r.removal = 0 → q1.visited = q.visited) ∧
      (r.removal ≠ 0 → r.removal = 1 ∧ q1.visited = (q.visited + 1) % SIZE_MOD) ∧
      (q.visited < SIZE_MAX → q.visited ≤ q1.visited ∧ q1.visited = q.visited + r.removal) ∧
      (q.visited = SIZE_MAX → r.removal ≠ 0 → q1.visited = 0) := by
  obtain ⟨q1, cs1, hh, hcase⟩ := call_sim h hrun
  have key : (r.removal = 0 ∧ q1.visited = q.visited) ∨
      (r.removal = 1 ∧ q1.visited = (q.visited + 1) % SIZE_MOD) := by
    rcases hcase with ⟨x, -, rfl, -, rfl⟩ | ⟨x, a, -, -, rfl, -, hv⟩ |
      ⟨k, a, x, -, rfl, -, hv⟩ | ⟨s, -, rfl, -, -, rfl, -⟩ |
      ⟨s, a, x, -, rfl, -, hv, -⟩ | ⟨-, rfl, -, rfl, -⟩
    · exact Or.inl ⟨rfl, rfl⟩
    · exact Or.inl ⟨rfl, hv⟩
    · exact Or.inr ⟨rfl, hv⟩
    · exact Or.inl ⟨rfl, rfl⟩
    · exact Or.inr ⟨rfl, hv⟩
    · exact Or.inl ⟨rfl, rfl⟩
  refine ⟨q1, cs1, hh, ?_, ?_, ?_, ?_⟩
  · rintro h0
    rcases key with ⟨-, hv⟩ | ⟨h1, -⟩
    · exact hv
    · omega
  · rintro h0
    rcases key with ⟨h1, -⟩ | hk
    · exact absurd h1 h0
    · exact hk
  · intro hlt
    simp only [SIZE_MAX] at hlt
    rcases key with ⟨h1, hv⟩ | ⟨h1, hv⟩
    · rw [h1, hv]; exact ⟨Nat.le_refl _, rfl⟩
    · have : (q.visited + 1) % SIZE_MOD = q.visited + 1 :=
        Nat.mod_eq_of_lt (by simp only [SIZE_MOD]; omega)
      rw [h1, hv, this]; exact ⟨Nat.le_succ _, rfl⟩
  · intro hmax h0
    rcases key with ⟨h1, -⟩ | ⟨-, hv⟩
    · exact absurd h1 h0
    · rw [hv, hmax]; decide

theorem counter_across_call_witness :
    Holds lastWorld lastQueue [(2, 7)] ∧
    ∃ w1, call (Call.dequeue 0) lastWorld = .ret (Result.item 7) w1 ∧
      ∃ q1 cs1, Holds w1 q1 cs1 ∧
        ((Result.item 7).removal = 0 → q1.visited = lastQueue.visited) ∧
        ((Result.item 7).removal ≠ 0 →
          (Result.item 7).removal = 1 ∧ q1.visited = (lastQueue.visited + 1) % SIZE_MOD) ∧
        (lastQueue.visited < SIZE_MAX →
          lastQueue.visited ≤ q1.visited ∧
            q1.visited = lastQueue.visited + (Result.item 7).removal) ∧
        (lastQueue.visited = SIZE_MAX → (Result.item 7).removal ≠ 0 → q1.visited = 0) :=
  ⟨lastWorld_holds, _, call_dequeue_ret (dequeue_holds lastWorld_holds 0).1,
    counter_across_call lastWorld lastQueue _ lastWorld_holds (Call.dequeue 0) (Result.item 7) _
      (call_dequeue_ret (dequeue_holds lastWorld_holds 0).1)⟩

/-- C17, counterexample.  In the Ready state `lastWorld` the counter is the largest
`size_t`; the call `dequeue` returns (a successful removal) and the counter afterwards
is 0: smaller than before, and not the old value plus one. -/
theorem counter_decreases_at_size_max :
    Holds lastWorld lastQueue [(2, 7)] ∧ lastQueue.visited = 2 ^ 64 - 1 ∧
    ∃ w1 q1, call (Call.dequeue 0) lastWorld = .ret (Result.item 7) w1 ∧
      Holds w1 q1 [] ∧ q1.visited < lastQueue.visited ∧
      q1.visited ≠ lastQueue.visited + 1 := by
  obtain ⟨hrun, hh⟩ := dequeue_holds lastWorld_holds 0
  refine ⟨lastWorld_holds, rfl, _, _, call_dequeue_ret hrun, hh, ?_, ?_⟩
  · show (SIZE_MAX + 1) % SIZE_MOD < SIZE_MAX
    decide
  · show (SIZE_MAX + 1) % SIZE_MOD ≠ SIZE_MAX + 1
    decide

/-! ## C18: the linked queue refines the abstract queue -/

theorem Result.agrees_self (r : Result) (h : ∀ n, r ≠ .count n) : r.agrees r := by
  cases r with
  | count n => exact absurd rfl (h n)
  | done => rfl
  | item p => rfl
  | flag b => rfl

/-- One returned call: the payloads in the chain followed by the payload enqueued, if
any, are the payload handed to the caller, if any, followed by the payloads then in the
chain; a payload is handed out exactly by a successful removal. -/
theorem call_handed {w w1 : World} {q : Queue} {cs : List (Ptr × Ptr)} {c : Call} {r : Result}
    (h : Holds w q cs) (hrun : call c w = .ret r w1) :
    ∃ q1 cs1, Holds w1 q1 cs1 ∧ (handedOut c r w1).length = r.removal ∧
      payloads cs ++ itemsEnqueued [c] = handedOut c r w1 ++ payloads cs1 := by
  obtain ⟨q1, cs1, hh, hcase⟩ := call_sim h hrun
  refine ⟨q1, cs1, hh, ?_⟩
  rcases hcase with ⟨x, rfl, rfl, rfl, -⟩ | ⟨x, a, rfl, ha, rfl, rfl, -⟩ |
    ⟨k, a, x, rfl, rfl, rfl, -⟩ | ⟨s, rfl, rfl, rfl, rfl, -⟩ |
    ⟨s, a, x, rfl, rfl, rfl, -, hs⟩ | ⟨rfl, rfl, rfl, -⟩
  · exact ⟨rfl, by simp [itemsEnqueued, handedOut]⟩
  · exact ⟨rfl, by simp [itemsEnqueued, ha, payloads, handedOut]⟩
  · exact ⟨rfl, by simp [itemsEnqueued, payloads, handedOut]⟩
  · exact ⟨rfl, by simp [itemsEnqueued, payloads, handedOut]⟩
  · exact ⟨by simp [handedOut, hs, Result.removal],
      by simp [itemsEnqueued, payloads, handedOut, hs]⟩
  · exact ⟨rfl, by simp [itemsEnqueued, handedOut]⟩

/-- A sequence of returned calls: the payloads in the chain at the start followed by the
payloads enqueued are the payloads handed to the callers followed by the payloads in the
chain at the end; as many payloads are handed out as there are successful removals. -/
theorem calls_handed : ∀ (cl : List Call) (w w1 : World) (q : Queue) (cs : List (Ptr × Ptr))
    (rs : List Result), Holds w q cs → calls cl w = .ret rs w1 →
    ∃ q1 cs1, Holds w1 q1 cs1 ∧ (itemsHandedOut cl w).length = removals rs ∧
      payloads cs ++ itemsEnqueued cl = itemsHandedOut cl w ++ payloads cs1
  | [], w, w1, q, cs, rs, h, hrun => by
    simp only [calls, pure_apply, Outcome.ret.injEq] at hrun
    obtain ⟨rfl, rfl⟩ := hrun
    exact ⟨q, cs, h, rfl, by simp [itemsEnqueued, itemsHandedOut]⟩
  | c :: cl, w, w1, q, cs, rs, h, hrun => by
    obtain ⟨r, w2, rs1, hc, hcs, rfl⟩ := calls_cons_ret hrun
    obtain ⟨q2, cs2, hh2, hg1, he1⟩ := call_handed h hc
    obtain ⟨q3, cs3, hh3, hg2, he2⟩ := calls_handed cl w2 w1 q2 cs2 rs1 hh2 hcs
    refine ⟨q3, cs3, hh3, ?_, ?_⟩
    · simp [itemsHandedOut, hc, removals, hg1, hg2]
    · simp only [itemsHandedOut, hc]
      rw [itemsEnqueued_cons, ← List.append_assoc, he1, List.append_assoc, he2,
        List.append_assoc]

theorem enqueued_cycle (n : Nat) :
    enqueued (cycle n [Call.enqueue 7 2, Call.tryDequeue 3]) = n := by
  induction n with
  | zero => rfl
  | succ n ih =>
    simp only [enqueued] at ih
    simp [cycle, enqueued, itemsEnqueued, ih]

/-- C19 (conservation), as the code has it.  After a successful `initQueue` and any
sequence of returned calls the state is Ready, and the payloads enqueued, in order, are
the payloads handed to the callers by the removals, in order, followed by the payloads
in the chain: none is lost, none is duplicated.  As many payloads are handed out as there
are successful removals, so the number of successful enqueues is the number of successful
removals plus the length of the chain.  The counter `visited` is that number of removals
modulo 2^64: the number of successful enqueues is `visited` plus the length of the chain
modulo 2^64, and exactly so while fewer than 2^64 removals have been made. -/
theorem conservation (w0 w : World) (r : Ptr) (hr : r ≠ NULL)
    (hinit : initQueue r true true w0 = .ret () w)
    (cl : List Call) (rs : List Result) (w1 : World) (hrun : calls cl w = .ret rs w1) :
    ∃ q1 cs1, Holds w1 q1 cs1 ∧
      itemsEnqueued cl = itemsHandedOut cl w ++ payloads cs1 ∧
      (itemsHandedOut cl w).length = removals rs ∧
      enqueued cl = removals rs + cs1.length ∧
      q1.visited = removals rs % SIZE_MOD ∧
      enqueued cl % SIZE_MOD = (q1.visited + cs1.length) % SIZE_MOD ∧
      (removals rs < SIZE_MOD → enqueued cl = q1.visited + cs1.length) := by
  have h0 := (initQueue_ready hr hinit).1
  obtain ⟨q1, cs1, hh, hg, he⟩ := calls_handed cl w w1 freshQueue [] rs h0 hrun
  obtain ⟨q2, cs2, hh2, hv2, -, hb2⟩ := calls_steps cl w w1 freshQueue [] rs h0 hrun
  obtain ⟨rfl, rfl⟩ := hh.same_chain hh2
  have hb : q2.visited < SIZE_MOD := hb2 SIZE_MOD_pos
  have hv : q2.visited = removals rs % SIZE_MOD := by
    rw [Nat.mod_eq_of_lt hb] at hv2
    rw [hv2]
    show (0 + removals rs) % SIZE_MOD = removals rs % SIZE_MOD
    rw [Nat.zero_add]
  simp only [payloads, List.map_nil, List.nil_append] at he
  have hlen : enqueued cl = removals rs + cs2.length := by
    have := congrArg List.length he
    simp only [List.length_append, List.length_map, hg] at this
    exact this
  refine ⟨q2, cs2, hh, he, hg, hlen, hv, ?_, fun hlt => ?_⟩
  · rw [hlen, hv, Nat.mod_add_mod]
  · rw [hlen, hv, Nat.mod_eq_of_lt hlt]

theorem conservation_witness :
    (1 : Ptr) ≠ NULL ∧ initQueue 1 true true slotWorld = .ret () (idleWorld 0) ∧
    ∃ w1, calls ([Call.enqueue 10 4, Call.enqueue 20 5, Call.enqueue 30 6] ++
          [Call.dequeue 0, Call.dequeue 2]) (idleWorld 0) =
        .ret ([Result.done, Result.done, Result.done] ++ [Result.item 10, Result.item 20])
          w1 ∧
      ∃ q1 cs1, Holds w1 q1 cs1 ∧
        itemsEnqueued ([Call.enqueue 10 4, Call.enqueue 20 5, Call.enqueue 30 6] ++
            [Call.dequeue 0, Call.dequeue 2]) =
          itemsHandedOut ([Call.enqueue 10 4, Call.enqueue 20 5, Call.enqueue 30 6] ++
            [Call.dequeue 0, Call.dequeue 2]) (idleWorld 0) ++ payloads cs1 ∧
        (itemsHandedOut ([Call.enqueue 10 4, Call.enqueue 20 5, Call.enqueue 30 6] ++
            [Call.dequeue 0, Call.dequeue 2]) (idleWorld 0)).length =
          removals ([Result.done, Result.done, Result.done] ++
            [Result.item 10, Result.item 20]) ∧
        enqueued ([Call.enqueue 10 4, Call.enqueue 20 5, Call.enqueue 30 6] ++
            [Call.dequeue 0, Call.dequeue 2]) =
          removals ([Result.done, Result.done, Result.done] ++
            [Result.item 10, Result.item 20]) + cs1.length ∧
        q1.visited =
          removals ([Result.done, Result.done, Result.done] ++
            [Result.item 10, Result.item 20]) % SIZE_MOD ∧
        enqueued ([Call.enqueue 10 4, Call.enqueue 20 5, Call.enqueue 30 6] ++
            [Call.dequeue 0, Call.dequeue 2]) % SIZE_MOD =
          (q1.visited + cs1.length) % SIZE_MOD ∧
        (removals ([Result.done, Result.done, Result.done] ++
            [Result.item 10, Result.item 20]) < SIZE_MOD →
          enqueued ([Call.enqueue 10 4, Call.enqueue 20 5, Call.enqueue 30 6] ++
            [Call.dequeue 0, Call.dequeue 2]) = q1.visited + cs1.length) := by
  obtain ⟨w1, q1, hrun, -⟩ := example_run
  exact ⟨by decide, initQueue_slotWorld, w1, hrun,
    conservation slotWorld (idleWorld 0) 1 (by decide) initQueue_slotWorld _ _ w1 hrun⟩

/-- C19, counterexample.  On the freshly initialised queue `idleWorld 0`, the sequence of
2^64 rounds "enqueue 7, tryDequeue" returns and leaves a Ready state whose counter is 0,
below the maximum of `size_t`, and whose chain is empty; 2^64 enqueues have succeeded, and
that is not `visited` plus the length of the chain, for the one `Queue` and chain the
state has. -/
theorem conservation_fails_after_wrap :
    initQueue 1 true true slotWorld = .ret () (idleWorld 0) ∧
    calls (cycle SIZE_MOD [Call.enqueue 7 2, Call.tryDequeue 3]) (idleWorld 0) =
      .ret (cycle SIZE_MOD [Result.done, Result.flag true]) (idleWorld 0) ∧
    Holds (idleWorld 0) (idleQueue 0) [] ∧
    (idleQueue 0).visited < SIZE_MAX ∧
    enqueued (cycle SIZE_MOD [Call.enqueue 7 2, Call.tryDequeue 3]) = 2 ^ 64 ∧
    enqueued (cycle SIZE_MOD [Call.enqueue 7 2, Call.tryDequeue 3]) ≠
      (idleQueue 0).visited + ([] : List (Ptr × Ptr)).length ∧
    ∀ q1 cs1, Holds (idleWorld 0) q1 cs1 → q1.visited < SIZE_MAX ∧
      enqueued (cycle SIZE_MOD [Call.enqueue 7 2, Call.tryDequeue 3]) ≠
        q1.visited + cs1.length := by
  have hc := calls_cycle_idle SIZE_MOD 0
  rw [Nat.zero_add, Nat.mod_self, Nat.zero_mod] at hc
  have hne : enqueued (cycle SIZE_MOD [Call.enqueue 7 2, Call.tryDequeue 3]) ≠
      (idleQueue 0).visited + ([] : List (Ptr × Ptr)).length := by
    rw [enqueued_cycle]
    exact Nat.ne_of_gt SIZE_MOD_pos
  refine ⟨initQueue_slotWorld, hc, idleWorld_holds 0, by decide, enqueued_cycle SIZE_MOD, hne,
    fun q1 cs1 h1 => ?_⟩
  obtain ⟨hq, hcs⟩ := (idleWorld_holds 0).same_chain h1
  rw [hq, hcs]
  exact ⟨by decide, hne⟩

/-! ## C20: the out-parameter of `tryDequeue` -/

/-- C20 (`tryDequeue` writes its out-parameter only on success).  In every state, be it
Uninitialized or Ready, with the caller's slot holding `v`: `tryDequeue` returns; if it
returns `false` (the system is Uninitialized or the chain is empty) the slot still holds
`v`; if it returns `true` the chain was not empty and the slot holds the payload of the
node that was first in the chain, which has been removed. -/
theorem tryDequeue_out_parameter (w : World) (hw : Uninitialized w ∨ ∃ q cs, Holds w q cs)
    (slot v : Ptr) (hs : w.mem slot = some (.user v)) :
    ∃ b w1, tryDequeue slot w = .ret b w1 ∧
      (b = false → w1.mem slot = some (.user v) ∧ (Uninitialized w ∨ ∃ q, Holds w q [])) ∧
      (b = true → ∃ q a x rest q1, Holds w q ((a, x) :: rest) ∧ Holds w1 q1 rest ∧
        w1.mem slot = some (.user x)) := by
  rcases hw with h0 | ⟨q, cs, hh⟩
  · exact ⟨false, _, tryDequeue_run_uninit slot w h0, fun _ => ⟨hs, Or.inl h0⟩,
      fun hb => by simp at hb⟩
  · cases cs with
    | nil =>
      exact ⟨false, _, tryDequeue_run_empty slot w q hh.1.1 hh.1.2.1 hh.1.2.2.1 hh.2.1,
        fun _ => ⟨hs, Or.inr ⟨q, hh⟩⟩, fun hb => by simp at hb⟩
    | cons d rest =>
      obtain ⟨a, x⟩ := d
      obtain ⟨hrun, hh1⟩ := tryDequeue_holds hh slot v hs
      exact ⟨true, _, hrun, fun hb => by simp at hb,
        fun _ => ⟨q, a, x, rest, _, hh, hh1, by simp⟩⟩

theorem tryDequeue_out_parameter_witness :
    (Uninitialized loadedWorld ∨ ∃ q cs, Holds loadedWorld q cs) ∧
    loadedWorld.mem 3 = some (.user 7) ∧
    ∃ b w1, tryDequeue 3 loadedWorld = .ret b w1 ∧
      (b = false → w1.mem 3 = some (.user 7) ∧
        (Uninitialized loadedWorld ∨ ∃ q, Holds loadedWorld q [])) ∧
      (b = true → ∃ q a x rest q1, Holds loadedWorld q ((a, x) :: rest) ∧ Holds w1 q1 rest ∧
        w1.mem 3 = some (.user x)) :=
  ⟨Or.inr ⟨_, _, loadedWorld_holds⟩, by decide,
    tryDequeue_out_parameter loadedWorld (Or.inr ⟨_, _, loadedWorld_holds⟩) 3 7 (by decide)⟩

/-! ## Lemmas: the statements of `enqueue` -/

theorem bind_assoc_M {α β γ : Type} (m : M α) (f : α → M β) (g : β → M γ) :
    (m >>= f) >>= g = m >>= fun a => f a >>= g := by
  funext w
  simp only [bind_apply]
  cases m w <;> rfl

theorem pure_bind_M {α β : Type} (a : α) (f : α → M β) : (pure a >>= f) = f a := by
  funext w
  simp only [bind_apply, pure_apply]

theorem bind_pure_unit_M (m : M Unit) : (m >>= fun _ => pure ()) = m := by
  funext w
  simp only [bind_apply]
  cases m w <;> rfl

theorem ite_bind_M {α β : Type} (c : Prop) [Decidable c] (a b : M α) (f : α → M β) :
    ((if c then a else b) >>= f) = if c then a >>= f else b >>= f := by
  split <;> rfl

theorem enqSteps_succ (item r : Ptr) (n : Nat) (pc : EnqPc) :
    enqSteps item r (n + 1) pc = enqStep item r pc >>= fun pc1 => enqSteps item r n pc1 := rfl

theorem enqSteps_done (item r : Ptr) : ∀ n, enqSteps item r n .done = pure .done
  | 0 => rfl
  | n + 1 => by
    rw [enqSteps_succ]
    simp only [enqStep, pure_bind_M]
    exact enqSteps_done item r n

/-- The statements of `enqueue`, run one after the other by a thread alone, are the
function `enqueue`. -/
theorem enqueue_eq_steps (item r : Ptr) :
    enqueue item r = (do let _ ← enqSteps item r 7 .guard; pure ()) := by
  simp only [enqSteps_succ, enqStep, bind_assoc_M, pure_bind_M, ite_bind_M, enqSteps_done,
    enqueue, bind_pure_unit_M]

theorem enqStep_guard (x r : Ptr) (w : World) (hq : w.queue ≠ NULL) :
    enqStep x r .guard w = .ret .alloc w := by
  simp [enqStep, getQueue, hq]

theorem enqStep_alloc (x r : Ptr) (w : World) (hr : r ≠ NULL) (hf : w.mem r = none) :
    enqStep x r .alloc w = .ret (.lock r)
      { w with mem := Function.update w.mem r (some (.node { data := x, next := NULL })) } := by
  simp [enqStep, malloc, hr, hf]

theorem enqStep_lock (x r n : Ptr) (w : World) (q : Queue)
    (hm : w.mem w.queue = some (.queue q)) (hu : q.mutex = .unlocked) :
    enqStep x r (.lock n) w = .ret (.link n)
      { w with mem := Function.update w.mem w.queue (some (.queue { q with mutex := .locked })) } := by
  obtain ⟨h, t, v, m, c⟩ := q
  simp only at hu
  subst hu
  simp [enqStep, mtx_lock, qget, getQueue, loadQueue, load, hm, qset, store]

theorem enqStep_lock_blocked (x r n : Ptr) (w : World) (q : Queue)
    (hm : w.mem w.queue = some (.queue q)) (hu : q.mutex = .locked) :
    enqStep x r (.lock n) w = .blocked w := by
  obtain ⟨h, t, v, m, c⟩ := q
  simp only at hu
  subst hu
  simp [enqStep, mtx_lock, qget, getQueue, loadQueue, load, hm]

theorem enqStep_link_empty (x r n : Ptr) (w : World) (q : Queue)
    (hm : w.mem w.queue = some (.queue q)) (ht : q.tail = NULL) :
    enqStep x r (.link n) w = .ret (.setTail n)
      { w with mem := Function.update w.mem w.queue (some (.queue { q with head := n })) } := by
  simp [enqStep, qget, getQueue, loadQueue, load, hm, qset, store, ht]

theorem enqStep_link (x r n : Ptr) (w : World) (q : Queue) (o : QueueNode)
    (hm : w.mem w.queue = some (.queue q)) (ht : q.tail ≠ NULL)
    (hn : w.mem q.tail = some (.node o)) :
    enqStep x r (.link n) w = .ret (.setTail n)
      { w with mem := Function.update w.mem q.tail (some (.node { o with next := n })) } := by
  simp [enqStep, qget, getQueue, loadQueue, load, hm, ht, setNext, loadNode, hn, store]

theorem enqStep_setTail (x r n : Ptr) (w : World) (q : Queue)
    (hm : w.mem w.queue = some (.queue q)) :
    enqStep x r (.setTail n) w = .ret .signal
      { w with mem := Function.update w.mem w.queue (some (.queue { q with tail := n })) } := by
  simp [enqStep, getQueue, loadQueue, load, hm, qset, store]

theorem enqStep_signal (x r : Ptr) (w : World) (q : Queue)
    (hm : w.mem w.queue = some (.queue q)) (hc : q.notEmpty = .ready) :
    enqStep x r .signal w = .ret .unlock w := by
  obtain ⟨h, t, v, m, c⟩ := q
  simp only at hc
  subst hc
  simp [enqStep, cnd_signal, qget, getQueue, loadQueue, load, hm]

theorem enqStep_unlock (x r : Ptr) (w : World) (q : Queue)
    (hm : w.mem w.queue = some (.queue q)) (hu : q.mutex = .locked) :
    enqStep x r .unlock w = .ret .done
      { w with mem := Function.update w.mem w.queue (some (.queue { q with mutex := .unlocked })) } := by
  obtain ⟨h, t, v, m, c⟩ := q
  simp only at hu
  subst hu
  simp [enqStep, mtx_unlock, qget, getQueue, loadQueue, load, hm, qset, store]

/-! ## Lemmas: interleavings -/

theorem Interleaving.symm {α : Type} {xs ys l : List α} (h : Interleaving xs ys l) :
    Interleaving ys xs l := by
  induction h with
  | nil => exact .nil
  | left x _ ih => exact .right x ih
  | right y _ ih => exact .left y ih

theorem Interleaving.snoc_left {α : Type} {xs ys l : List α} (h : Interleaving xs ys l) (x : α) :
    Interleaving (xs ++ [x]) ys (l ++ [x]) := by
  induction h with
  | nil => exact .left x .nil
  | left z _ ih => exact .left z ih
  | right y _ ih => exact .right y ih

theorem Interleaving.perm {α : Type} {xs ys l : List α} (h : Interleaving xs ys l) :
    l.Perm (xs ++ ys) := by
  induction h with
  | nil => exact List.Perm.refl _
  | left x _ ih => exact List.Perm.cons x ih
  | right y _ ih =>
    exact (List.Perm.cons y ih).trans (List.perm_middle.symm)

theorem Interleaving.sublist_left {α : Type} {xs ys l : List α} (h : Interleaving xs ys l) :
    xs.Sublist l := by
  induction h with
  | nil => exact List.Sublist.refl _
  | left x _ ih => exact ih.cons₂ x
  | right y _ ih => exact ih.cons y

theorem Interleaving.map {α β : Type} (f : α → β) {xs ys l : List α}
    (h : Interleaving xs ys l) : Interleaving (xs.map f) (ys.map f) (l.map f) := by
  induction h with
  | nil => exact .nil
  | left x _ ih => exact .left (f x) ih
  | right y _ ih => exact .right (f y) ih

/-! ## Lemmas: two producers -/

theorem Producer.future_sub_remaining (t : Producer) : ∀ c ∈ t.future, c ∈ t.remaining := by
  intro c hc
  obtain ⟨pc, todo⟩ := t
  cases pc <;> simp only [Producer.future, Producer.remaining, EnqPc.linked] at hc ⊢ <;>
    first
    | exact hc
    | exact List.mem_of_mem_tail hc

theorem Producer.step_ret (t : Producer) {r x : Ptr} {rest : List (Ptr × Ptr)} {w w1 : World}
    {pc1 : EnqPc} (ht : t.todo = (r, x) :: rest) (h : enqStep x r t.pc w = .ret pc1 w1) :
    t.step w = .ret (if pc1 = .done then { pc := .guard, todo := rest }
      else { pc := pc1, todo := t.todo }) w1 := by
  simp only [Producer.step, ht, bind_apply, h]
  split <;> rfl

theorem Producer.step_blocked (t : Producer) {r x : Ptr} {rest : List (Ptr × Ptr)}
    {w w1 : World} (ht : t.todo = (r, x) :: rest) (h : enqStep x r t.pc w = .blocked w1) :
    t.step w = .blocked w1 := by
  simp only [Producer.step, ht, bind_apply, h]

theorem ProducerFresh.stays_fresh {w w1 : World} {a b : Producer} (hfr : ProducerFresh w b)
    (hnd : (addrs a.remaining ++ addrs b.remaining).Nodup)
    (hframe : ∀ p, w.mem p = none → p ∉ addrs a.remaining → w1.mem p = none) :
    ProducerFresh w1 b := by
  intro c hc
  refine ⟨(hfr c hc).1, hframe c.1 (hfr c hc).2 fun hin => ?_⟩
  have hb : c.1 ∈ addrs b.remaining := List.mem_map_of_mem _ (b.future_sub_remaining c hc)
  exact (List.nodup_append.1 hnd).2.2 hin hb

theorem ProducerOk.stays_ok {w w1 : World} {q q1 : Queue} {cs cs1 : List (Ptr × Ptr)} {b : Producer}
    (hok : ProducerOk w q cs b)
    (hnode : ∀ p o, w.mem p = some (.node o) → p ∉ addrs cs → w1.mem p = some (.node o))
    (hcs : ∀ p ∈ addrs b.remaining, p ∉ addrs cs → p ∉ addrs cs1)
    (hin : b.pc.inside = true → cs1 = cs ∧ q1.tail = q.tail) :
    ProducerOk w1 q1 cs1 b := by
  obtain ⟨pc, todo⟩ := b
  cases pc with
  | guard => trivial
  | alloc => exact hok
  | lock n =>
    obtain ⟨x, rest, ht, hn0, hmn, hnc⟩ := hok
    simp only at ht
    subst ht
    exact ⟨x, rest, rfl, hn0, hnode n _ hmn hnc,
      hcs n (by simp [Producer.remaining, EnqPc.linked, addrs]) hnc⟩
  | link n =>
    obtain ⟨x, rest, ht, hn0, hmn, hnc⟩ := hok
    obtain ⟨rfl, -⟩ := hin rfl
    exact ⟨x, rest, ht, hn0, hnode n _ hmn hnc, hnc⟩
  | setTail n =>
    obtain ⟨x, rest, front, ht, hcf, htl⟩ := hok
    obtain ⟨rfl, hq⟩ := hin rfl
    exact ⟨x, rest, front, ht, hcf, hq.trans htl⟩
  | signal => exact hok
  | unlock => exact hok
  | done => exact hok

theorem nodup_append_of_sublist_left {l1 l2 m : List Ptr} (h : (l1 ++ m).Nodup)
    (hs : l2.Sublist l1) : (l2 ++ m).Nodup :=
  h.sublist (hs.append (List.Sublist.refl m))

/-- A producer that can execute its next statement executes it, and the invariant of the
two producers is kept. -/
theorem producers_step {w : World} {a b : Producer} {da db cs : List (Ptr × Ptr)}
    (hinv : ProducersInv w a b da db cs) (hen : a.enabled b.pc = true) :
    ∃ w1 da1 cs1, a.step w = .ret a.advance w1 ∧ ProducersInv w1 a.advance b da1 db cs1 ∧
      da1 ++ a.advance.remaining = da ++ a.remaining := by
  obtain ⟨pc, todo⟩ := a
  cases todo with
  | nil => exact ⟨w, da, cs, rfl, hinv, rfl⟩
  | cons c rest =>
    obtain ⟨r, x⟩ := c
    obtain ⟨q, hq0, hm, hne, hmtx, hexcl, hhead, hch, htail, hokA, hokB, hfrA, hfrB, hnd, hint⟩ :=
      hinv
    have hqc : w.queue ∉ addrs cs := by
      intro hin
      obtain ⟨n, hn⟩ := hch.is_node _ hin
      rw [hn] at hm
      simp at hm
    have hfq : ∀ (o : Option Obj) p, p ≠ w.queue → Function.update w.mem w.queue o p = w.mem p :=
      fun o p hp => Function.update_noteq hp _ _
    have hnq : ∀ p o, w.mem p = some (.node o) → p ≠ w.queue := by
      rintro p o hp rfl
      rw [hm] at hp
      simp at hp
    have hfn : ∀ p, w.mem p = none → p ≠ w.queue := by
      rintro p hp rfl
      rw [hm] at hp
      simp at hp
    have hchq : ∀ (o : Option Obj), Chain (Function.update w.mem w.queue o) cs := fun o =>
      hch.frame fun p hp => hfq o p (fun e => hqc (e ▸ hp))
    cases pc with
    | guard =>
      refine ⟨w, da, cs, ?_, ⟨q, hq0, hm, hne, hmtx, hexcl, hhead, hch, ?_, ?_, hokB, hfrA, hfrB,
        hnd, hint⟩, rfl⟩
      · exact Producer.step_ret ⟨.guard, (r, x) :: rest⟩ rfl (enqStep_guard x r w hq0)
      · intro _ h2
        exact htail (fun n => by simp) h2
      · simp [ProducerOk, Producer.advance]
    | alloc =>
      obtain ⟨hr0, hrf⟩ := hfrA (r, x) (by simp [Producer.future])
      have hrq : w.queue ≠ r := by rintro rfl; rw [hm] at hrf; simp at hrf
      have hrc : r ∉ addrs cs := fun hin => by
        obtain ⟨n, hn⟩ := hch.is_node _ hin
        rw [hn] at hrf
        simp at hrf
      have hnd1 : (r :: (addrs rest ++ addrs b.remaining)).Nodup := by
        simpa [Producer.remaining, EnqPc.linked, addrs] using hnd
      have hne1 : ∀ p, w.mem p ≠ none →
          Function.update w.mem r (some (.node { data := x, next := NULL })) p = w.mem p := by
        intro p hp
        have : p ≠ r := by rintro rfl; exact hp hrf
        simp [this]
      refine ⟨_, da, cs, Producer.step_ret ⟨.alloc, (r, x) :: rest⟩ rfl
        (enqStep_alloc x r w hr0 hrf), ⟨q, hq0, ?_, hne, hmtx, hexcl, hhead, ?_, ?_, ?_, ?_, ?_, ?_,
        hnd, hint⟩, rfl⟩
      · show Function.update w.mem r _ w.queue = _
        rw [hne1 _ (by rw [hm]; simp)]; exact hm
      · exact hch.frame fun p hp => by
          obtain ⟨n, hn⟩ := hch.is_node _ hp
          exact hne1 p (by rw [hn]; simp)
      · intro _ h2
        exact htail (fun n => by simp) h2
      · exact ⟨x, rest, rfl, hr0, by simp, hrc⟩
      · refine hokB.stays_ok (fun p o hp _ => ?_) (fun p _ hp => hp) (fun _ => ⟨rfl, rfl⟩)
        show Function.update w.mem r _ p = _
        rw [hne1 p (by rw [hp]; simp)]; exact hp
      · intro c hc
        have hc1 : c ∈ rest := hc
        have hcr : c.1 ≠ r := by
          rintro e
          exact (List.nodup_cons.1 hnd1).1
            (List.mem_append_left _ (e ▸ List.mem_map_of_mem Prod.fst hc1))
        have := hfrA c (List.mem_cons_of_mem _ hc1)
        exact ⟨this.1, by show Function.update w.mem r _ c.1 = none; simp [hcr, this.2]⟩
      · refine hfrB.stays_fresh hnd fun p hp hpa => ?_
        have : p ≠ r := by
          rintro rfl
          exact hpa (by simp [Producer.remaining, EnqPc.linked, addrs])
        show Function.update w.mem r _ p = none
        simp [this, hp]
    | lock n =>
      obtain ⟨x1, rest1, ht, hn0, hmn, hnc⟩ := hokA
      simp only [List.cons.injEq, Prod.mk.injEq] at ht
      obtain ⟨⟨rfl, rfl⟩, rfl⟩ := ht
      have hbo : b.pc.inside = false := by simpa [Producer.enabled] using hen
      have hu : q.mutex = .unlocked := by
        have h1 := hmtx
        simp only [hbo] at h1
        simpa [EnqPc.inside] using h1
      refine ⟨_, da, cs, Producer.step_ret ⟨.lock r, (r, x) :: rest⟩ rfl
        (enqStep_lock x r r w q hm hu), ⟨{ q with mutex := .locked }, hq0, ?_, hne, ?_, ?_, hhead,
        hchq _, ?_, ?_, ?_, ?_, ?_, hnd, hint⟩, rfl⟩
      · simp
      · simp [EnqPc.inside, Producer.advance]
      · simp [hbo]
      · intro _ h2
        exact htail (fun n => by simp) h2
      · exact ⟨x, rest, rfl, hn0, (hfq _ r (hnq _ _ hmn)).trans hmn, hnc⟩
      · exact hokB.stays_ok (fun p o hp _ => (hfq _ p (hnq _ _ hp)).trans hp) (fun p _ hp => hp)
          (fun _ => ⟨rfl, rfl⟩)
      · intro c hc
        have := hfrA c hc
        exact ⟨this.1, (hfq _ c.1 (hfn _ this.2)).trans this.2⟩
      · exact hfrB.stays_fresh hnd fun p hp _ => (hfq _ p (hfn _ hp)).trans hp
    | link n =>
      obtain ⟨x1, rest1, ht, hn0, hmn, hnc⟩ := hokA
      simp only [List.cons.injEq, Prod.mk.injEq] at ht
      obtain ⟨⟨rfl, rfl⟩, rfl⟩ := ht
      have hbo : b.pc.inside = false := by
        cases hb : b.pc.inside
        · rfl
        · exact absurd ⟨rfl, hb⟩ hexcl
      have ht : q.tail = lastAddr cs := htail (fun n => by simp) fun n hb => by
        rw [hb] at hbo
        simp [EnqPc.inside] at hbo
      have hnd1 : (r :: (addrs rest ++ addrs b.remaining)).Nodup := by
        simpa [Producer.remaining, EnqPc.linked, addrs] using hnd
      have hbr : ∀ p ∈ addrs b.remaining, p ≠ r := by
        rintro p hp rfl
        exact (List.nodup_cons.1 hnd1).1 (List.mem_append_right _ hp)
      have hnd2 : (addrs
          ({ pc := EnqPc.link r, todo := (r, x) :: rest } : Producer).advance.remaining ++
          addrs b.remaining).Nodup := (List.nodup_cons.1 hnd1).2
      have hbin : b.pc.inside = true → False := fun hb => by
        rw [hbo] at hb
        exact absurd hb (by simp)
      by_cases hcs : cs = []
      · subst hcs
        have ht0 : q.tail = NULL := ht
        refine ⟨_, da ++ [(r, x)], [(r, x)], Producer.step_ret ⟨.link r, (r, x) :: rest⟩ rfl
          (enqStep_link_empty x r r w q hm ht0), ⟨{ q with head := r }, hq0, ?_, hne, ?_, ?_, rfl,
          ?_, ?_, ?_, ?_, ?_, ?_, hnd2, hint.snoc_left (r, x)⟩, ?_⟩
        · simp
        · simpa [EnqPc.inside, Producer.advance] using hmtx
        · simp [hbo]
        · exact ⟨hn0, (hfq _ r (hnq _ _ hmn)).trans hmn, trivial⟩
        · intro h1
          exact absurd rfl (h1 r)
        · exact ⟨x, rest, [], rfl, rfl, ht0⟩
        · refine hokB.stays_ok (fun p o hp _ => (hfq _ p (hnq _ _ hp)).trans hp) (fun p hp _ => ?_)
            (fun hb => (hbin hb).elim)
          simpa [addrs] using hbr p hp
        · intro c hc
          have := hfrA c hc
          exact ⟨this.1, (hfq _ c.1 (hfn _ this.2)).trans this.2⟩
        · exact hfrB.stays_fresh hnd fun p hp _ => (hfq _ p (hfn _ hp)).trans hp
        · simp [Producer.remaining, Producer.advance, EnqPc.linked]
      · obtain ⟨y, hy⟩ := hch.last_node hcs
        rw [← ht] at hy
        have htin : q.tail ∈ addrs cs := ht ▸ lastAddr_mem hcs
        have htn : q.tail ≠ NULL := hch.addr_ne_null _ htin
        have hrt : r ≠ q.tail := fun e => hnc (e ▸ htin)
        have hft : ∀ (o : Option Obj) p, p ≠ q.tail → Function.update w.mem q.tail o p = w.mem p :=
          fun o p hp => Function.update_noteq hp _ _
        have hnt : ∀ p, w.mem p = none → p ≠ q.tail := by
          rintro p hp rfl
          rw [hy] at hp
          simp at hp
        refine ⟨_, da ++ [(r, x)], cs ++ [(r, x)],
          Producer.step_ret ⟨.link r, (r, x) :: rest⟩ rfl (enqStep_link x r r w q _ hm htn hy),
          ⟨q, hq0, ?_, hne, ?_, ?_, ?_, ?_, ?_, ?_, ?_, ?_, ?_, hnd2, hint.snoc_left (r, x)⟩, ?_⟩
        · exact (hft _ _ (Ne.symm (hnq _ _ hy))).trans hm
        · simpa [EnqPc.inside, Producer.advance] using hmtx
        · simp [hbo]
        · rw [hhead]
          cases cs with
          | nil => exact absurd rfl hcs
          | cons d ds => rfl
        · refine Chain.snoc hch r x hn0 _ ((hft _ r hrt).trans hmn) (fun p _ hp => ?_)
            (fun y1 hy1 => ?_)
          · exact hft _ p (by rw [ht]; exact hp)
          · rw [← ht] at hy1 ⊢
            rw [hy] at hy1
            simp only [Option.some.injEq, Obj.node.injEq, QueueNode.mk.injEq] at hy1
            simp [hy1.1]
        · intro h1
          exact absurd rfl (h1 r)
        · exact ⟨x, rest, cs, rfl, rfl, ht⟩
        · refine hokB.stays_ok (fun p o hp hpc => (hft _ p (fun e => hpc (e ▸ htin))).trans hp)
            (fun p hp hpc => ?_) (fun hb => (hbin hb).elim)
          simp only [addrs, List.map_append, List.map_cons, List.map_nil, List.mem_append,
            List.mem_singleton, not_or]
          exact ⟨hpc, hbr p hp⟩
        · intro c hc
          have := hfrA c hc
          exact ⟨this.1, (hft _ c.1 (hnt _ this.2)).trans this.2⟩
        · exact hfrB.stays_fresh hnd fun p hp _ => (hft _ p (hnt _ hp)).trans hp
        · simp [Producer.remaining, Producer.advance, EnqPc.linked]
    | setTail n =>
      obtain ⟨x1, rest1, front, ht, hcf, htl⟩ := hokA
      simp only [List.cons.injEq, Prod.mk.injEq] at ht
      obtain ⟨⟨rfl, rfl⟩, rfl⟩ := ht
      have hbo : b.pc.inside = false := by
        cases hb : b.pc.inside
        · rfl
        · exact absurd ⟨rfl, hb⟩ hexcl
      refine ⟨_, da, cs, Producer.step_ret ⟨.setTail r, (r, x) :: rest⟩ rfl
        (enqStep_setTail x r r w q hm), ⟨{ q with tail := r }, hq0, ?_, hne, ?_, ?_, hhead,
        hchq _, ?_, ?_, ?_, ?_, ?_, hnd, hint⟩, rfl⟩
      · simp
      · simpa [EnqPc.inside, Producer.advance] using hmtx
      · simp [hbo]
      · intro _ _
        rw [hcf, lastAddr_append]
      · simp [ProducerOk, Producer.advance]
      · refine hokB.stays_ok (fun p o hp _ => (hfq _ p (hnq _ _ hp)).trans hp) (fun p _ hp => hp)
          (fun hb => ?_)
        rw [hbo] at hb
        exact absurd hb (by simp)
      · intro c hc
        have := hfrA c hc
        exact ⟨this.1, (hfq _ c.1 (hfn _ this.2)).trans this.2⟩
      · exact hfrB.stays_fresh hnd fun p hp _ => (hfq _ p (hfn _ hp)).trans hp
    | signal =>
      have hbo : b.pc.inside = false := by
        cases hb : b.pc.inside
        · rfl
        · exact absurd ⟨rfl, hb⟩ hexcl
      refine ⟨w, da, cs, Producer.step_ret ⟨.signal, (r, x) :: rest⟩ rfl
        (enqStep_signal x r w q hm hne), ⟨q, hq0, hm, hne, hmtx, hexcl, hhead, hch, ?_, ?_, hokB,
        hfrA, hfrB, hnd, hint⟩, rfl⟩
      · intro _ h2
        exact htail (fun n => by simp) h2
      · simp [ProducerOk, Producer.advance]
    | unlock =>
      have hbo : b.pc.inside = false := by
        cases hb : b.pc.inside
        · rfl
        · exact absurd ⟨rfl, hb⟩ hexcl
      have hl : q.mutex = .locked := by simpa [EnqPc.inside] using hmtx
      refine ⟨_, da, cs, Producer.step_ret ⟨.unlock, (r, x) :: rest⟩ rfl
        (enqStep_unlock x r w q hm hl), ⟨{ q with mutex := .unlocked }, hq0, ?_, hne, ?_, ?_,
        hhead, hchq _, ?_, ?_, ?_, ?_, ?_, hnd, hint⟩, rfl⟩
      · simp
      · simp only [hbo, Producer.advance]
        simp [EnqPc.inside]
      · simp [hbo]
      · intro _ h2
        exact htail (fun n => by simp) h2
      · simp [ProducerOk, Producer.advance]
      · refine hokB.stays_ok (fun p o hp _ => (hfq _ p (hnq _ _ hp)).trans hp) (fun p _ hp => hp)
          (fun hb => ?_)
        rw [hbo] at hb
        exact absurd hb (by simp)
      · intro c hc
        have := hfrA c hc
        exact ⟨this.1, (hfq _ c.1 (hfn _ this.2)).trans this.2⟩
      · exact hfrB.stays_fresh hnd fun p hp _ => (hfq _ p (hfn _ hp)).trans hp
    | done => exact absurd hokA (by simp [ProducerOk])

/-- A producer that cannot execute its next statement, `mtx_lock` while the other one
holds the mutex, is blocked. -/
theorem producers_step_blocked {w : World} {a b : Producer} {da db cs : List (Ptr × Ptr)}
    (hinv : ProducersInv w a b da db cs) (hen : a.enabled b.pc = false) :
    a.step w = .blocked w := by
  obtain ⟨pc, todo⟩ := a
  obtain ⟨q, hq0, hm, hne, hmtx, -⟩ := hinv
  cases todo with
  | nil => simp [Producer.enabled] at hen
  | cons c rest =>
    obtain ⟨r, x⟩ := c
    cases pc with
    | lock n =>
      have hbi : b.pc.inside = true := by simpa [Producer.enabled] using hen
      have hl : q.mutex = .locked := by
        have h1 := hmtx
        simp only [hbi] at h1
        simpa using h1
      exact Producer.step_blocked ⟨.lock n, (r, x) :: rest⟩ rfl (enqStep_lock_blocked x r n w q hm hl)
    | guard => simp [Producer.enabled] at hen
    | alloc => simp [Producer.enabled] at hen
    | link n => simp [Producer.enabled] at hen
    | setTail n => simp [Producer.enabled] at hen
    | signal => simp [Producer.enabled] at hen
    | unlock => simp [Producer.enabled] at hen
    | done => simp [Producer.enabled] at hen

theorem ProducersInv.swap {w : World} {a b : Producer} {da db cs : List (Ptr × Ptr)}
    (h : ProducersInv w a b da db cs) : ProducersInv w b a db da cs := by
  obtain ⟨q, hq0, hm, hne, hmtx, hexcl, hhead, hch, htail, hokA, hokB, hfrA, hfrB, hnd, hint⟩ := h
  refine ⟨q, hq0, hm, hne, ?_, fun hab => hexcl ⟨hab.2, hab.1⟩, hhead, hch,
    fun h1 h2 => htail h2 h1, hokB, hokA, hfrB, hfrA, ?_, hint.symm⟩
  · rw [Bool.or_comm]; exact hmtx
  · exact List.nodup_append_comm.1 hnd

/-- A schedule whose statements are all executed when their producer can execute them
runs to its end, and the invariant of the two producers is kept. -/
theorem producers_run : ∀ (s : List Bool) (w : World) (a b : Producer)
    (da db cs : List (Ptr × Ptr)), ProducersInv w a b da db cs → enabledSchedule s a b = true →
    ∃ w1 da1 db1 cs1, runProducers s a b w = .ret (advanceSchedule s a b) w1 ∧
      ProducersInv w1 (advanceSchedule s a b).1 (advanceSchedule s a b).2 da1 db1 cs1 ∧
      da1 ++ (advanceSchedule s a b).1.remaining = da ++ a.remaining ∧
      db1 ++ (advanceSchedule s a b).2.remaining = db ++ b.remaining
  | [], w, a, b, da, db, cs, hinv, _ => ⟨w, da, db, cs, rfl, hinv, rfl, rfl⟩
  | true :: s, w, a, b, da, db, cs, hinv, hen => by
    simp only [enabledSchedule, Bool.and_eq_true] at hen
    obtain ⟨w1, da1, cs1, hstep, hinv1, hda⟩ := producers_step hinv hen.1
    obtain ⟨w2, da2, db2, cs2, hrun, hinv2, hda2, hdb2⟩ :=
      producers_run s w1 a.advance b da1 db cs1 hinv1 hen.2
    refine ⟨w2, da2, db2, cs2, ?_, hinv2, hda2.trans hda, hdb2⟩
    simp only [runProducers, bind_apply, hstep]
    exact hrun
  | false :: s, w, a, b, da, db, cs, hinv, hen => by
    simp only [enabledSchedule, Bool.and_eq_true] at hen
    obtain ⟨w1, db1, cs1, hstep, hinv1, hdb⟩ := producers_step hinv.swap hen.1
    obtain ⟨w2, da2, db2, cs2, hrun, hinv2, hda2, hdb2⟩ :=
      producers_run s w1 a b.advance da db1 cs1 hinv1.swap hen.2
    refine ⟨w2, da2, db2, cs2, ?_, hinv2, hda2, hdb2.trans hdb⟩
    simp only [runProducers, bind_apply, hstep]
    exact hrun

/-- A schedule that asks a producer for a statement it cannot execute does not run to
its end. -/
theorem producers_run_ret : ∀ (s : List Bool) (w w1 : World) (a b : Producer)
    (da db cs : List (Ptr × Ptr)) (p : Producer × Producer), ProducersInv w a b da db cs →
    runProducers s a b w = .ret p w1 → enabledSchedule s a b = true
  | [], _, _, _, _, _, _, _, _, _, _ => rfl
  | true :: s, w, w1, a, b, da, db, cs, p, hinv, hrun => by
    cases hen : a.enabled b.pc with
    | false =>
      simp [runProducers, producers_step_blocked hinv hen] at hrun
    | true =>
      obtain ⟨w2, da1, cs1, hstep, hinv1, -⟩ := producers_step hinv hen
      simp only [runProducers, bind_apply, hstep] at hrun
      simp only [enabledSchedule, hen, Bool.true_and]
      exact producers_run_ret s w2 w1 a.advance b da1 db cs1 p hinv1 hrun
  | false :: s, w, w1, a, b, da, db, cs, p, hinv, hrun => by
    cases hen : b.enabled a.pc with
    | false =>
      simp [runProducers, producers_step_blocked hinv.swap hen] at hrun
    | true =>
      obtain ⟨w2, db1, cs1, hstep, hinv1, -⟩ := producers_step hinv.swap hen
      simp only [runProducers, bind_apply, hstep] at hrun
      simp only [enabledSchedule, hen, Bool.true_and]
      exact producers_run_ret s w2 w1 a b.advance da db1 cs1 p hinv1.swap hrun

/-- Two producers that have not started, over a Ready state with an empty chain and with
blocks that `malloc` may hand out, satisfy the invariant. -/
theorem producers_init {w : World} {q : Queue} (h : Holds w q []) (as bs : List (Ptr × Ptr))
    (hnd : (addrs as ++ addrs bs).Nodup)
    (hfresh : ∀ p ∈ addrs as ++ addrs bs, p ≠ NULL ∧ w.mem p = none) :
    ProducersInv w ⟨.guard, as⟩ ⟨.guard, bs⟩ [] [] [] := by
  obtain ⟨⟨hq0, hm, hu, hc⟩, hhead, htail, hch⟩ := h
  refine ⟨q, hq0, hm, hc, hu, by simp [EnqPc.inside], hhead, hch, fun _ _ => htail, trivial,
    trivial, ?_, ?_, hnd, .nil⟩
  · intro c hc
    exact hfresh c.1 (List.mem_append_left _ (List.mem_map_of_mem _ hc))
  · intro c hc
    exact hfresh c.1 (List.mem_append_right _ (List.mem_map_of_mem _ hc))

/-- When both producers have finished, the state is Ready and its chain is the one the
invariant speaks of. -/
theorem producers_final {w : World} {a b : Producer} {da db cs : List (Ptr × Ptr)}
    (hinv : ProducersInv w a b da db cs) (ha : a.todo = []) (hb : b.todo = []) :
    ∃ q, Holds w q cs ∧ a.pc = .guard ∧ b.pc = .guard := by
  obtain ⟨q, hq0, hm, hne, hmtx, hexcl, hhead, hch, htail, hokA, hokB, -⟩ := hinv
  have hg : ∀ t : Producer, ProducerOk w q cs t → t.todo = [] → t.pc = .guard := by
    intro t hok ht
    obtain ⟨pc, todo⟩ := t
    simp only at ht
    subst ht
    cases pc <;> simp [ProducerOk] at hok ⊢
  have hga := hg a hokA ha
  have hgb := hg b hokB hb
  rw [hga, hgb] at hmtx
  exact ⟨q, ⟨⟨hq0, hm, hmtx, hne⟩, hhead,
    htail (fun n => by rw [hga]; simp) (fun n => by rw [hgb]; simp), hch⟩, hga, hgb⟩

/-! ## C13: two producers running concurrently -/

/-- C13 (concurrent producers).  Two producer threads start on a Ready state with an empty
chain; they enqueue the cells `as` and `bs` (disjoint blocks that `malloc` may hand out,
every allocation succeeding), their statements interleaved as the schedule `s` says.
The schedule runs to its end exactly when every `mtx_lock` in it is executed while
the other producer is outside its critical section, and then each producer stands where
its statements lead.  When both producers have finished, the state is Ready and its
chain `l` is an interleaving of `as` and `bs`: its payloads are those of `as` and `bs`,
each exactly once, those of each producer in that producer's order; and as many
sequential `dequeue` calls as there are cells return the payloads of `l` in order and
leave an empty chain. -/
theorem concurrent_producers (w : World) (q : Queue) (h : Holds w q [])
    (as bs : List (Ptr × Ptr)) (hnd : (addrs as ++ addrs bs).Nodup)
    (hfresh : ∀ p ∈ addrs as ++ addrs bs, p ≠ NULL ∧ w.mem p = none) (s : List Bool) :
    (enabledSchedule s ⟨.guard, as⟩ ⟨.guard, bs⟩ = true →
      ∃ w1, runProducers s ⟨.guard, as⟩ ⟨.guard, bs⟩ w =
        .ret (advanceSchedule s ⟨.guard, as⟩ ⟨.guard, bs⟩) w1) ∧
    (∀ fa fb w1, runProducers s ⟨.guard, as⟩ ⟨.guard, bs⟩ w = .ret (fa, fb) w1 →
      enabledSchedule s ⟨.guard, as⟩ ⟨.guard, bs⟩ = true ∧
      (fa, fb) = advanceSchedule s ⟨.guard, as⟩ ⟨.guard, bs⟩ ∧
      (fa.todo = [] → fb.todo = [] →
        ∃ q1 l, Holds w1 q1 l ∧ Interleaving as bs l ∧
          Interleaving (payloads as) (payloads bs) (payloads l) ∧
          (payloads l).Perm (payloads as ++ payloads bs) ∧
          (payloads as).Sublist (payloads l) ∧ (payloads bs).Sublist (payloads l) ∧
          ∀ ks : List Nat, ks.length = l.length →
            ∃ w2 q2, calls (ks.map Call.dequeue) w1 = .ret ((payloads l).map Result.item) w2 ∧
              Holds w2 q2 [])) := by
  have hinv := producers_init h as bs hnd hfresh
  refine ⟨fun hen => ?_, fun fa fb w1 hrun => ?_⟩
  · obtain ⟨w1, -, -, -, hrun, -⟩ := producers_run s w _ _ [] [] [] hinv hen
    exact ⟨w1, hrun⟩
  · have hen := producers_run_ret s w w1 _ _ [] [] [] (fa, fb) hinv hrun
    obtain ⟨w2, da, db, l, hrun2, hinv2, hda, hdb⟩ := producers_run s w _ _ [] [] [] hinv hen
    rw [hrun] at hrun2
    simp only [Outcome.ret.injEq] at hrun2
    obtain ⟨hp, rfl⟩ := hrun2
    refine ⟨hen, hp, fun ha hb => ?_⟩
    rw [← hp] at hinv2 hda hdb
    obtain ⟨q1, hh, hga, hgb⟩ := producers_final hinv2 ha hb
    have hra : fa.remaining = [] := by simp [Producer.remaining, ha]
    have hrb : fb.remaining = [] := by simp [Producer.remaining, hb]
    have hda1 : da = as := by
      rw [hra] at hda
      simpa [Producer.remaining, EnqPc.linked] using hda
    have hdb1 : db = bs := by
      rw [hrb] at hdb
      simpa [Producer.remaining, EnqPc.linked] using hdb
    subst hda1 hdb1
    obtain ⟨-, -, -, -, -, -, -, -, -, -, -, -, -, -, hint⟩ := hinv2
    have hmap := hint.map Prod.snd
    refine ⟨q1, l, hh, hint, hmap, hmap.perm, hmap.sublist_left, hmap.symm.sublist_left,
      fun ks hk => ?_⟩
    exact calls_dequeue_all l ks w1 q1 hh hk

theorem concurrent_producers_witness :
    Holds (idleWorld 0) (idleQueue 0) [] ∧
    (addrs [(4, 10), (5, 20)] ++ addrs [(6, 30)]).Nodup ∧
    (∀ p ∈ addrs [(4, 10), (5, 20)] ++ addrs [(6, 30)],
      p ≠ NULL ∧ (idleWorld 0).mem p = none) ∧
    enabledSchedule
      [true, true, false, false, false, false, false, false, false, true, true, true, true,
        true, true, true, true, true, true, true, true]
      ⟨.guard, [(4, 10), (5, 20)]⟩ ⟨.guard, [(6, 30)]⟩ = true ∧
    advanceSchedule
      [true, true, false, false, false, false, false, false, false, true, true, true, true,
        true, true, true, true, true, true, true, true]
      ⟨.guard, [(4, 10), (5, 20)]⟩ ⟨.guard, [(6, 30)]⟩ = (⟨.guard, []⟩, ⟨.guard, []⟩) ∧
    ((enabledSchedule
        [true, true, false, false, false, false, false, false, false, true, true, true, true,
          true, true, true, true, true, true, true, true]
        ⟨.guard, [(4, 10), (5, 20)]⟩ ⟨.guard, [(6, 30)]⟩ = true →
      ∃ w1, runProducers
          [true, true, false, false, false, false, false, false, false, true, true, true, true,
            true, true, true, true, true, true, true, true]
          ⟨.guard, [(4, 10), (5, 20)]⟩ ⟨.guard, [(6, 30)]⟩ (idleWorld 0) =
        .ret (advanceSchedule
          [true, true, false, false, false, false, false, false, false, true, true, true, true,
            true, true, true, true, true, true, true, true]
          ⟨.guard, [(4, 10), (5, 20)]⟩ ⟨.guard, [(6, 30)]⟩) w1) ∧
    (∀ fa fb w1, runProducers
          [true, true, false, false, false, false, false, false, false, true, true, true, true,
            true, true, true, true, true, true, true, true]
          ⟨.guard, [(4, 10), (5, 20)]⟩ ⟨.guard, [(6, 30)]⟩ (idleWorld 0) = .ret (fa, fb) w1 →
      enabledSchedule
          [true, true, false, false, false, false, false, false, false, true, true, true, true,
            true, true, true, true, true, true, true, true]
          ⟨.guard, [(4, 10), (5, 20)]⟩ ⟨.guard, [(6, 30)]⟩ = true ∧
      (fa, fb) = advanceSchedule
          [true, true, false, false, false, false, false, false, false, true, true, true, true,
            true, true, true, true, true, true, true, true]
          ⟨.guard, [(4, 10), (5, 20)]⟩ ⟨.guard, [(6, 30)]⟩ ∧
      (fa.todo = [] → fb.todo = [] →
        ∃ q1 l, Holds w1 q1 l ∧ Interleaving [(4, 10), (5, 20)] [(6, 30)] l ∧
          Interleaving (payloads [(4, 10), (5, 20)]) (payloads [(6, 30)]) (payloads l) ∧
          (payloads l).Perm (payloads [(4, 10), (5, 20)] ++ payloads [(6, 30)]) ∧
          (payloads [(4, 10), (5, 20)]).Sublist (payloads l) ∧
          (payloads [(6, 30)]).Sublist (payloads l) ∧
          ∀ ks : List Nat, ks.length = l.length →
            ∃ w2 q2, calls (ks.map Call.dequeue) w1 = .ret ((payloads l).map Result.item) w2 ∧
              Holds w2 q2 []))) :=
  ⟨idleWorld_holds 0, by decide, by decide, by decide, by decide,
    concurrent_producers (idleWorld 0) (idleQueue 0) (idleWorld_holds 0) [(4, 10), (5, 20)]
      [(6, 30)] (by decide) (by decide) _⟩

/-! ## Lemmas: the statements of `dequeue` -/

theorem holds_iff_holdsM {w : World} {q : Queue} {cs : List (Ptr × Ptr)} :
    Holds w q cs ↔ HoldsM .unlocked w q cs :=
  ⟨fun ⟨⟨h1, h2, h3, h4⟩, h5, h6, h7⟩ => ⟨h1, h2, h3, h4, h5, h6, h7⟩,
    fun ⟨h1, h2, h3, h4, h5, h6, h7⟩ => ⟨⟨h1, h2, h3, h4⟩, h5, h6, h7⟩⟩

/-- Changing the state of the mutex keeps the rest of the queue. -/
theorem HoldsM.setMutex {m : Mtx} {w : World} {q : Queue} {cs : List (Ptr × Ptr)}
    (h : HoldsM m w q cs) (m1 : Mtx) :
    HoldsM m1 { w with mem := Function.update w.mem w.queue (some (.queue { q with mutex := m1 })) }
      { q with mutex := m1 } cs := by
  obtain ⟨h1, h2, h3, h4, h5, h6, h7⟩ := h
  refine ⟨h1, by simp, rfl, h4, h5, h6, h7.frame fun p hp => ?_⟩
  have : p ≠ w.queue := by
    rintro rfl
    obtain ⟨n, hn⟩ := h7.is_node _ hp
    rw [hn] at h2
    simp at h2
  simp [this]

theorem HoldsM.of_same_mem {m : Mtx} {w w1 : World} {q : Queue} {cs : List (Ptr × Ptr)}
    (h : HoldsM m w q cs) (hq : w1.queue = w.queue) (hm : w1.mem = w.mem) : HoldsM m w1 q cs := by
  obtain ⟨h1, h2, h3, h4, h5, h6, h7⟩ := h
  exact ⟨hq ▸ h1, by rw [hq, hm]; exact h2, h3, h4, h5, h6, hm ▸ h7⟩

theorem deqStep_guard (w : World) (hq : w.queue ≠ NULL) : deqStep .guard w = .ret .lock w := by
  simp [deqStep, getQueue, hq]

theorem mtx_lock_run (w : World) (q : Queue) (hm : w.mem w.queue = some (.queue q))
    (hu : q.mutex = .unlocked) :
    mtx_lock w = .ret ()
      { w with mem := Function.update w.mem w.queue (some (.queue { q with mutex := .locked })) } := by
  obtain ⟨h, t, v, m, c⟩ := q
  simp only at hu
  subst hu
  simp [mtx_lock, qget, getQueue, loadQueue, load, hm, qset, store]

theorem mtx_lock_blocked (w : World) (q : Queue) (hm : w.mem w.queue = some (.queue q))
    (hu : q.mutex = .locked) : mtx_lock w = .blocked w := by
  obtain ⟨h, t, v, m, c⟩ := q
  simp only at hu
  subst hu
  simp [mtx_lock, qget, getQueue, loadQueue, load, hm]

theorem mtx_unlock_run (w : World) (q : Queue) (hm : w.mem w.queue = some (.queue q))
    (hu : q.mutex = .locked) :
    mtx_unlock w = .ret ()
      { w with mem := Function.update w.mem w.queue (some (.queue { q with mutex := .unlocked })) } := by
  obtain ⟨h, t, v, m, c⟩ := q
  simp only at hu
  subst hu
  simp [mtx_unlock, qget, getQueue, loadQueue, load, hm, qset, store]

theorem deqStep_lock (w : World) (q : Queue) (hm : w.mem w.queue = some (.queue q))
    (hu : q.mutex = .unlocked) :
    deqStep .lock w = .ret .test
      { w with mem := Function.update w.mem w.queue (some (.queue { q with mutex := .locked })) } := by
  simp [deqStep, mtx_lock_run w q hm hu]

theorem deqStep_wait (w : World) (q : Queue) (hm : w.mem w.queue = some (.queue q))
    (hu : q.mutex = .unlocked) :
    deqStep .wait w = .ret .test
      { w with mem := Function.update w.mem w.queue (some (.queue { q with mutex := .locked })) } := by
  simp [deqStep, mtx_lock_run w q hm hu]

theorem deqStep_test_empty (w : World) (q : Queue) (hm : w.mem w.queue = some (.queue q))
    (hl : q.mutex = .locked) (hc : q.notEmpty = .ready) (hh : q.head = NULL) :
    deqStep .test w = .ret .wait
      { w with mem := Function.update w.mem w.queue (some (.queue { q with mutex := .unlocked })) } := by
  obtain ⟨h, t, v, m, c⟩ := q
  simp only at hl hc hh
  subst hl hc hh
  simp [deqStep, cnd_wait_suspend, mtx_unlock, qget, getQueue, loadQueue, load, hm, qset, store]

theorem deqStep_test (w : World) (q : Queue) (hm : w.mem w.queue = some (.queue q))
    (hh : q.head ≠ NULL) : deqStep .test w = .ret .remove w := by
  simp [deqStep, qget, getQueue, loadQueue, load, hm, hh]

theorem deqStep_remove (w : World) (q : Queue) (n : QueueNode)
    (hm : w.mem w.queue = some (.queue q)) (hh : q.head ≠ NULL)
    (hn : w.mem q.head = some (.node n)) :
    deqStep .remove w = .ret (.unlock n.data) { w with mem :=
      (Function.update (Function.update w.mem w.queue (some (.queue
        { q with head := n.next, tail := if n.next = NULL then NULL else q.tail,
                 visited := (q.visited + 1) % SIZE_MOD })))
        q.head none) } := by
  obtain ⟨p, mem, ml, cl, err⟩ := w
  obtain ⟨h, t, v, m, c⟩ := q
  simp at hm hh hn
  have hne : p ≠ h := by rintro rfl; simp [hm] at hn
  by_cases hnx : n.next = NULL <;>
  simp [deqStep, getQueue, qget, loadQueue, load, hm, qset, store, free, hne, hne.symm, loadNode,
    hn, hh, hnx]

theorem deqStep_unlock (x : Ptr) (w : World) (q : Queue) (hm : w.mem w.queue = some (.queue q))
    (hl : q.mutex = .locked) :
    deqStep (.unlock x) w = .ret (.done x)
      { w with mem := Function.update w.mem w.queue (some (.queue { q with mutex := .unlocked })) } := by
  simp [deqStep, mtx_unlock_run w q hm hl]

/-- The removal step on a well-formed queue whose mutex is held. -/
theorem deqStep_remove_holds {w : World} {q : Queue} {a x : Ptr} {cs : List (Ptr × Ptr)}
    (h : HoldsM .locked w q ((a, x) :: cs)) :
    ∃ w1 q1, deqStep .remove w = .ret (.unlock x) w1 ∧ HoldsM .locked w1 q1 cs ∧
      q1.visited = (q.visited + 1) % SIZE_MOD := by
  obtain ⟨hq, hm, hl, hc, hhead, htail, hch⟩ := h
  have hqc : w.queue ∉ addrs ((a, x) :: cs) := by
    intro hin
    obtain ⟨n, hn⟩ := hch.is_node _ hin
    rw [hn] at hm
    simp at hm
  have hnd := hch.nodup
  simp only [addrs, List.map_cons, List.nodup_cons, List.mem_cons, not_or] at hnd hqc
  have hh : q.head ≠ NULL := by rw [hhead]; exact hch.1
  have hn : w.mem q.head = some (.node { data := x, next := headAddr cs }) := by
    rw [hhead]; exact hch.2.1
  have hif : (if headAddr cs = NULL then NULL else q.tail) = if cs = [] then NULL else q.tail := by
    by_cases hcs : cs = []
    · simp [hcs, headAddr]
    · simp [hcs, (headAddr_eq_null_iff hch.2.2).not.2 hcs]
  have hrun := deqStep_remove w q _ hm hh hn
  have ha : q.head = a := hhead
  simp only [hif, ha] at hrun
  refine ⟨_, Queue.mk (headAddr cs) (if cs = [] then NULL else q.tail)
    ((q.visited + 1) % SIZE_MOD) q.mutex q.notEmpty, hrun, ⟨hq, ?_, hl, hc, rfl, ?_, ?_⟩, rfl⟩
  · simp [Ne.symm hqc.1, hqc.1]
  · by_cases hcs : cs = []
    · simp [hcs, lastAddr]
    · simp only [hcs, if_false]; rw [htail, lastAddr_cons_ne hcs]
  · refine hch.2.2.frame fun b hb => ?_
    have hb1 : b ≠ a := by rintro rfl; exact hnd.1 hb
    have hb2 : b ≠ w.queue := by rintro rfl; exact hqc.2 hb
    simp [hb1, hb2]

/-- While a thread holds the mutex, a call of another thread returns only without
having touched the queue: an `enqueue` whose allocation fails. -/
theorem call_while_locked {w w1 : World} {q : Queue} {cs : List (Ptr × Ptr)} {c : Call}
    {r : Result} (h : HoldsM .locked w q cs) (hrun : call c w = .ret r w1) :
    w1.queue = w.queue ∧ w1.mem = w.mem ∧ itemsEnqueued [c] = [] := by
  obtain ⟨hq, hm, hl, hc, -⟩ := h
  cases c with
  | enqueue x a =>
    by_cases ha : a = NULL
    · subst ha
      simp only [call, bind_apply, enqueue_run_nomem x w hq, pure_apply, Outcome.ret.injEq] at hrun
      obtain ⟨-, rfl⟩ := hrun
      exact ⟨rfl, rfl, by simp [itemsEnqueued]⟩
    · cases hma : w.mem a with
      | some o => simp [call, enqueue_run_stale x a o w hq ha hma] at hrun
      | none =>
        exfalso
        have haq : w.queue ≠ a := by rintro rfl; rw [hm] at hma; simp at hma
        have hb := mtx_lock_blocked
          { w with mem := Function.update w.mem a (some (.node { data := x, next := NULL })) } q
          (by simp [haq, hm]) hl
        simp [call, enqueue, getQueue, hq, malloc, ha, hma, hb] at hrun
  | dequeue k =>
    exfalso
    simp [call, dequeue, getQueue, hq, mtx_lock_blocked w q hm hl] at hrun
  | tryDequeue s =>
    exfalso
    simp [call, tryDequeue, getQueue, hq, mtx_lock_blocked w q hm hl] at hrun
  | visited =>
    exfalso
    simp [call, visited, getQueue, hq, mtx_lock_blocked w q hm hl] at hrun

theorem DeqInv.mono {enq enq1 : List Ptr} {pc : DeqPc} {w : World} (h : DeqInv enq pc w)
    (hsub : ∀ y ∈ enq, y ∈ enq1) : DeqInv enq1 pc w := by
  cases pc with
  | guard => obtain ⟨q, cs, hh, hp⟩ := h; exact ⟨q, cs, hh, fun y hy => hsub y (hp y hy)⟩
  | lock => obtain ⟨q, cs, hh, hp⟩ := h; exact ⟨q, cs, hh, fun y hy => hsub y (hp y hy)⟩
  | wait => obtain ⟨q, cs, hh, hp⟩ := h; exact ⟨q, cs, hh, fun y hy => hsub y (hp y hy)⟩
  | test => obtain ⟨q, cs, hh, hp⟩ := h; exact ⟨q, cs, hh, fun y hy => hsub y (hp y hy)⟩
  | remove =>
    obtain ⟨q, a, x, rest, hh, hp⟩ := h
    exact ⟨q, a, x, rest, hh, fun y hy => hsub y (hp y hy)⟩
  | unlock x =>
    obtain ⟨q, cs, hh, hp, hx⟩ := h
    exact ⟨q, cs, hh, fun y hy => hsub y (hp y hy), hsub x hx⟩
  | done x =>
    obtain ⟨q, cs, hh, hp, hx⟩ := h
    exact ⟨q, cs, hh, fun y hy => hsub y (hp y hy), hsub x hx⟩

/-- A step of the thread in `dequeue()` is always possible and keeps the invariant. -/
theorem deqStep_inv {enq : List Ptr} {pc : DeqPc} {w : World} (h : DeqInv enq pc w) :
    ∃ pc1 w1, deqStep pc w = .ret pc1 w1 ∧ DeqInv enq pc1 w1 := by
  cases pc with
  | guard =>
    obtain ⟨q, cs, hh, hp⟩ := h
    exact ⟨_, _, deqStep_guard w hh.1.1, q, cs, hh, hp⟩
  | lock =>
    obtain ⟨q, cs, hh, hp⟩ := h
    exact ⟨_, _, deqStep_lock w q hh.1.2.1 hh.1.2.2.1, _, cs,
      (holds_iff_holdsM.1 hh).setMutex .locked, hp⟩
  | wait =>
    obtain ⟨q, cs, hh, hp⟩ := h
    exact ⟨_, _, deqStep_wait w q hh.1.2.1 hh.1.2.2.1, _, cs,
      (holds_iff_holdsM.1 hh).setMutex .locked, hp⟩
  | test =>
    obtain ⟨q, cs, hh, hp⟩ := h
    cases cs with
    | nil =>
      exact ⟨_, _, deqStep_test_empty w q hh.2.1 hh.2.2.1 hh.2.2.2.1 hh.2.2.2.2.1, _, [],
        holds_iff_holdsM.2 (hh.setMutex .unlocked), hp⟩
    | cons c rest =>
      obtain ⟨a, x⟩ := c
      have hne : q.head ≠ NULL := by rw [hh.2.2.2.2.1]; exact hh.2.2.2.2.2.2.1
      exact ⟨_, _, deqStep_test w q hh.2.1 hne, q, a, x, rest, hh, hp⟩
  | remove =>
    obtain ⟨q, a, x, rest, hh, hp⟩ := h
    obtain ⟨w1, q1, hrun, hh1, -⟩ := deqStep_remove_holds hh
    exact ⟨_, _, hrun, q1, rest, hh1,
      fun y hy => hp y (by simp only [payloads, List.map_cons, List.mem_cons] at hy ⊢
                           exact Or.inr hy),
      hp x (by simp [payloads])⟩
  | unlock x =>
    obtain ⟨q, cs, hh, hp, hx⟩ := h
    exact ⟨_, _, deqStep_unlock x w q hh.2.1 hh.2.2.1, _, cs,
      holds_iff_holdsM.2 (hh.setMutex .unlocked), hp, hx⟩
  | done x =>
    exact ⟨.done x, w, rfl, h⟩

/-- A returned call of another thread keeps the invariant, the payload it enqueues, if
any, being added to the list of the payloads enqueued. -/
theorem call_inv {enq : List Ptr} {pc : DeqPc} {w w1 : World} {c : Call} {r : Result}
    (h : DeqInv enq pc w) (hrun : call c w = .ret r w1) :
    DeqInv (enq ++ itemsEnqueued [c]) pc w1 := by
  have key : ∀ {q : Queue} {cs : List (Ptr × Ptr)}, Holds w q cs → (∀ y ∈ payloads cs, y ∈ enq) →
      ∃ q1 cs1, Holds w1 q1 cs1 ∧ ∀ y ∈ payloads cs1, y ∈ enq ++ itemsEnqueued [c] := by
    intro q cs hh hp
    obtain ⟨q1, cs1, hh1, gone, -, he⟩ := call_account hh hrun
    refine ⟨q1, cs1, hh1, fun y hy => ?_⟩
    have : y ∈ payloads cs ++ itemsEnqueued [c] := by
      rw [he]; exact List.mem_append_right _ hy
    rcases List.mem_append.1 this with h1 | h1
    · exact List.mem_append_left _ (hp y h1)
    · exact List.mem_append_right _ h1
  have keyL : ∀ {q : Queue} {cs : List (Ptr × Ptr)}, HoldsM .locked w q cs →
      HoldsM .locked w1 q cs := by
    intro q cs hh
    obtain ⟨h1, h2, -⟩ := call_while_locked hh hrun
    exact hh.of_same_mem h1 h2
  cases pc with
  | guard => obtain ⟨q, cs, hh, hp⟩ := h; exact key hh hp
  | lock => obtain ⟨q, cs, hh, hp⟩ := h; exact key hh hp
  | wait => obtain ⟨q, cs, hh, hp⟩ := h; exact key hh hp
  | test =>
    obtain ⟨q, cs, hh, hp⟩ := h
    exact ⟨q, cs, keyL hh, fun y hy => List.mem_append_left _ (hp y hy)⟩
  | remove =>
    obtain ⟨q, a, x, rest, hh, hp⟩ := h
    exact ⟨q, a, x, rest, keyL hh, fun y hy => List.mem_append_left _ (hp y hy)⟩
  | unlock x =>
    obtain ⟨q, cs, hh, hp, hx⟩ := h
    exact ⟨q, cs, keyL hh, fun y hy => List.mem_append_left _ (hp y hy),
      List.mem_append_left _ hx⟩
  | done x =>
    obtain ⟨q, cs, hh, hp, hx⟩ := h
    obtain ⟨q1, cs1, hh1, hp1⟩ := key hh hp
    exact ⟨q1, cs1, hh1, hp1, List.mem_append_left _ hx⟩

theorem itemsEnqueued_otherCalls_cons (c : Call) (es : List Event) :
    itemsEnqueued (otherCalls (.other c :: es)) =
      itemsEnqueued [c] ++ itemsEnqueued (otherCalls es) := by
  simp only [otherCalls]
  exact itemsEnqueued_cons c _

/-- Every run of the system of one thread in `dequeue()` and other threads keeps the
invariant. -/
theorem deqSystem_inv : ∀ (es : List Event) (enq : List Ptr) (pc pc1 : DeqPc) (w w1 : World),
    DeqInv enq pc w → deqSystem es pc w = .ret pc1 w1 →
    DeqInv (enq ++ itemsEnqueued (otherCalls es)) pc1 w1
  | [], enq, pc, pc1, w, w1, h, hrun => by
    simp only [deqSystem, pure_apply, Outcome.ret.injEq] at hrun
    obtain ⟨rfl, rfl⟩ := hrun
    simpa [otherCalls, itemsEnqueued] using h
  | .own :: es, enq, pc, pc1, w, w1, h, hrun => by
    obtain ⟨pc2, w2, hstep, h2⟩ := deqStep_inv h
    simp only [deqSystem, bind_apply, hstep] at hrun
    exact deqSystem_inv es enq pc2 pc1 w2 w1 h2 hrun
  | .other c :: es, enq, pc, pc1, w, w1, h, hrun => by
    simp only [deqSystem, bind_apply] at hrun
    cases hc : call c w with
    | ret r w2 =>
      rw [hc] at hrun
      have := deqSystem_inv es _ pc pc1 w2 w1 (call_inv h hc) hrun
      rw [itemsEnqueued_otherCalls_cons, ← List.append_assoc]
      exact this
    | blocked w2 => rw [hc] at hrun; simp at hrun
    | diverged => rw [hc] at hrun; simp at hrun
    | fault => rw [hc] at hrun; simp at hrun

theorem blocked_bind_M {α β : Type} (f : α → M β) :
    ((fun w => Outcome.blocked w : M α) >>= f) = fun w => Outcome.blocked w := by
  funext w
  simp only [bind_apply]

theorem crash_bind_M {α β : Type} (f : α → M β) : ((crash : M α) >>= f) = crash := by
  funext w
  simp only [bind_apply, crash]

theorem cnd_wait_forever_bind {α β : Type} (f : α → M β) :
    ((cnd_wait_forever : M α) >>= f) =
      cnd_wait_suspend >>= fun _ => (fun w => Outcome.blocked w : M β) := by
  funext w
  simp only [cnd_wait_forever, cnd_wait_suspend, bind_apply]
  cases hq : qget Queue.notEmpty w with
  | ret c w1 =>
    cases c with
    | ready =>
      simp only [bind_apply]
      cases mtx_unlock w1 <;> rfl
    | indeterminate => simp [crash]
  | blocked w1 => rfl
  | diverged => rfl
  | fault => rfl

theorem cnd_wait_eq : cnd_wait = cnd_wait_suspend >>= fun _ => mtx_lock := by
  funext w
  simp only [cnd_wait, cnd_wait_suspend, bind_apply]
  cases hq : qget Queue.notEmpty w with
  | ret c w1 =>
    cases c with
    | ready => simp only [bind_apply]
    | indeterminate => simp [crash]
  | blocked w1 => rfl
  | diverged => rfl
  | fault => rfl

/-- The statements after the loop of `dequeue`, run by a thread alone, are the steps
`remove` and `unlock`. -/
theorem deqFinish_remove :
    deqFinish .remove = (do
      let temp ← qget Queue.head
      let item := (← loadNode temp).data
      let nxt := (← loadNode (← qget Queue.head)).next
      qset fun q => { q with head := nxt }
      if (← qget Queue.head) = NULL then
        qset fun q => { q with tail := NULL }
      qset fun q => { q with visited := (q.visited + 1) % SIZE_MOD }
      free temp
      mtx_unlock
      return item) := by
  simp only [deqFinish, deqStep, bind_assoc_M, pure_bind_M, ite_bind_M]

/-- The loop of `dequeue` followed by the removal, run by a thread alone, is the chain of
steps `test`, `wait`, ..., `remove`, `unlock`. -/
theorem waitNotEmpty_bind_eq : ∀ k,
    (waitNotEmpty k >>= fun _ => deqFinish .remove) = deqAlone k
  | 0 => by
    simp only [waitNotEmpty, deqAlone, deqStep, bind_assoc_M, pure_bind_M, ite_bind_M,
      cnd_wait_forever_bind]
  | k + 1 => by
    simp only [waitNotEmpty, deqAlone, deqStep, bind_assoc_M, pure_bind_M, ite_bind_M,
      cnd_wait_eq, ← waitNotEmpty_bind_eq k]

/-- The function `dequeue` is its statements run one after the other by a thread alone
that is woken `wakeups` times. -/
theorem dequeue_eq_steps (wakeups : Nat) :
    dequeue wakeups = (do
      match (← deqStep .guard) with
      | .done item => pure item
      | _ => do
        let _ ← deqStep .lock
        deqAlone wakeups) := by
  rw [← waitNotEmpty_bind_eq, deqFinish_remove]
  simp only [dequeue, deqStep, bind_assoc_M, pure_bind_M, ite_bind_M]

/-- A step that returns after a statement that only ends in `pure c` returns `c`. -/
theorem ret_of_bind_pure {α β : Type} {m : M α} {c b : β} {w w1 : World}
    (h : (m >>= fun _ => (pure c : M β)) w = .ret b w1) : b = c := by
  simp only [bind_apply, pure_apply] at h
  cases hm : m w with
  | ret a w2 =>
    rw [hm] at h
    simp only [Outcome.ret.injEq] at h
    exact h.1.symm
  | blocked w2 => rw [hm] at h; cases h
  | diverged => rw [hm] at h; cases h
  | fault => rw [hm] at h; cases h

/-- A sequence of two statements that returns: the first returned, then the second. -/
theorem ret_of_bind {α β : Type} {m : M α} {f : α → M β} {b : β} {w w1 : World}
    (h : (m >>= f) w = .ret b w1) : ∃ a w2, m w = .ret a w2 ∧ f a w2 = .ret b w1 := by
  simp only [bind_apply] at h
  cases hm : m w with
  | ret a w2 =>
    rw [hm] at h
    exact ⟨a, w2, rfl, h⟩
  | blocked w2 => rw [hm] at h; cases h
  | diverged => rw [hm] at h; cases h
  | fault => rw [hm] at h; cases h

/-- Reading a field of `*queue` returns only when `queue` points to a queue, and changes
nothing. -/
theorem qget_ret {α : Type} {f : Queue → α} {a : α} {w w1 : World}
    (h : qget f w = .ret a w1) :
    w1 = w ∧ ∃ q, w.mem w.queue = some (.queue q) ∧ a = f q := by
  simp only [qget, getQueue, loadQueue, load, bind_apply] at h
  cases hm : w.mem w.queue with
  | none => simp [hm] at h
  | some o =>
    cases o with
    | queue q =>
      simp only [hm, pure_apply, Outcome.ret.injEq] at h
      exact ⟨h.2.symm, q, rfl, h.1.symm⟩
    | node n => simp [hm, crash] at h
    | user p => simp [hm, crash] at h

/-- A wake-up leads to the test of the loop, nowhere else. -/
theorem deqStep_wait_next {w w1 : World} {pc1 : DeqPc} (h : deqStep .wait w = .ret pc1 w1) :
    pc1 = .test :=
  ret_of_bind_pure h

/-- Only the step `unlock x` and the guard of a missing queue lead to `done`. -/
theorem deqStep_unlock_next {x : Ptr} {w w1 : World} {pc1 : DeqPc}
    (h : deqStep (.unlock x) w = .ret pc1 w1) : pc1 = .done x :=
  ret_of_bind_pure h

/-- The removal is reached from the test of the loop only, with a head that is not
`NULL`, and the test changes nothing. -/
theorem deqStep_to_remove {pc : DeqPc} {w w1 : World} (h : deqStep pc w = .ret .remove w1) :
    pc = .test ∧ w1 = w ∧ ∃ q, w.mem w.queue = some (.queue q) ∧ q.head ≠ NULL := by
  cases pc with
  | guard =>
    exfalso
    by_cases hq : w.queue = NULL
    · have : DeqPc.remove = .done NULL :=
        @ret_of_bind_pure Unit DeqPc (fprintfStderr msgNotInit) (.done NULL) .remove w w1
          (by simpa [deqStep, getQueue, hq] using h)
      cases this
    · simp [deqStep, getQueue, hq] at h
  | lock => cases ret_of_bind_pure h
  | wait => cases ret_of_bind_pure h
  | unlock x => cases ret_of_bind_pure h
  | done x => simp [deqStep] at h
  | remove =>
    exfalso
    simp only [deqStep] at h
    obtain ⟨_, _, -, h⟩ := ret_of_bind h
    obtain ⟨_, _, -, h⟩ := ret_of_bind h
    obtain ⟨_, _, -, h⟩ := ret_of_bind h
    obtain ⟨_, _, -, h⟩ := ret_of_bind h
    obtain ⟨_, _, -, h⟩ := ret_of_bind h
    obtain ⟨_, _, -, h⟩ := ret_of_bind h
    split at h
    · obtain ⟨_, _, -, h⟩ := ret_of_bind h
      obtain ⟨_, _, -, h⟩ := ret_of_bind h
      obtain ⟨_, _, -, h⟩ := ret_of_bind h
      cases h
    · obtain ⟨_, _, -, h⟩ := ret_of_bind h
      obtain ⟨_, _, -, h⟩ := ret_of_bind h
      obtain ⟨_, _, -, h⟩ := ret_of_bind h
      cases h
  | test =>
    refine ⟨rfl, ?_⟩
    simp only [deqStep] at h
    obtain ⟨a, w2, hq, h⟩ := ret_of_bind h
    obtain ⟨hw, q, hm, ha⟩ := qget_ret hq
    rw [hw, ha] at h
    by_cases hh : q.head = NULL
    · rw [if_pos hh] at h
      cases ret_of_bind_pure h
    · rw [if_neg hh] at h
      have h2 : Outcome.ret DeqPc.remove w = .ret .remove w1 := h
      simp only [Outcome.ret.injEq, true_and] at h2
      exact ⟨h2.symm, q, hm, hh⟩

/-- Before its removal the thread moves between the guard, `mtx_lock`, the test and the
wait; it leaves them through the removal only. -/
theorem deqStep_before {enq : List Ptr} {pc pc1 : DeqPc} {w w1 : World} (h : DeqInv enq pc w)
    (hb : ∀ y, pc ≠ .unlock y ∧ pc ≠ .done y) (hr : pc ≠ .remove)
    (hrun : deqStep pc w = .ret pc1 w1) : ∀ y, pc1 ≠ .unlock y ∧ pc1 ≠ .done y := by
  intro y
  cases pc with
  | guard =>
    obtain ⟨q, cs, hh, -⟩ := h
    rw [deqStep_guard w hh.1.1] at hrun
    simp only [Outcome.ret.injEq] at hrun
    rw [← hrun.1]
    exact ⟨by simp, by simp⟩
  | lock => rw [ret_of_bind_pure hrun]; exact ⟨by simp, by simp⟩
  | wait => rw [ret_of_bind_pure hrun]; exact ⟨by simp, by simp⟩
  | test =>
    simp only [deqStep] at hrun
    obtain ⟨a, w2, -, hrun⟩ := ret_of_bind hrun
    split at hrun
    · rw [ret_of_bind_pure hrun]; exact ⟨by simp, by simp⟩
    · have h2 : Outcome.ret DeqPc.remove w2 = .ret pc1 w1 := hrun
      simp only [Outcome.ret.injEq] at h2
      rw [← h2.1]
      exact ⟨by simp, by simp⟩
  | remove => exact absurd rfl hr
  | unlock x => exact absurd rfl (hb x).1
  | done x => exact absurd rfl (hb x).2

/-- After the removal of `x0` the thread returns `x0`, whatever the other threads do. -/
theorem deqSystem_after {x0 x : Ptr} : ∀ (es : List Event) (pc : DeqPc) (w w1 : World),
    pc = .unlock x0 ∨ pc = .done x0 → deqSystem es pc w = .ret (.done x) w1 → x = x0
  | [], pc, w, w1, hpc, hrun => by
    have h2 : Outcome.ret pc w = .ret (.done x) w1 := hrun
    simp only [Outcome.ret.injEq] at h2
    rcases hpc with hpc | hpc
    · rw [hpc] at h2; cases h2.1
    · rw [hpc] at h2
      simp only [DeqPc.done.injEq] at h2
      exact h2.1.symm
  | .own :: es, pc, w, w1, hpc, hrun => by
    simp only [deqSystem] at hrun
    obtain ⟨pc2, w2, hs, hrun⟩ := ret_of_bind hrun
    refine deqSystem_after es pc2 w2 w1 (Or.inr ?_) hrun
    rcases hpc with hpc | hpc
    · rw [hpc] at hs
      exact deqStep_unlock_next hs
    · rw [hpc] at hs
      have h2 : Outcome.ret (DeqPc.done x0) w = .ret pc2 w2 := hs
      simp only [Outcome.ret.injEq] at h2
      exact h2.1.symm
  | .other c :: es, pc, w, w1, hpc, hrun => by
    simp only [deqSystem] at hrun
    obtain ⟨r, w2, -, hrun⟩ := ret_of_bind hrun
    exact deqSystem_after es pc w2 w1 hpc hrun

/-- Every run in which the thread returns `x` went through the removal, made in a state
whose chain starts with a cell holding `x`; the payloads of that chain were queued at
the start or enqueued by the other threads before the removal. -/
theorem deqSystem_removal {x : Ptr} : ∀ (es : List Event) (enq : List Ptr) (pc : DeqPc)
    (w w1 : World), DeqInv enq pc w → (∀ y, pc ≠ .unlock y ∧ pc ≠ .done y) →
    deqSystem es pc w = .ret (.done x) w1 →
    ∃ es1 es2 w2 q a rest, es = es1 ++ .own :: es2 ∧ deqSystem es1 pc w = .ret .remove w2 ∧
      HoldsM .locked w2 q ((a, x) :: rest) ∧
      ∀ y ∈ payloads ((a, x) :: rest), y ∈ enq ++ itemsEnqueued (otherCalls es1)
  | [], enq, pc, w, w1, _, hb, hrun => by
    have h2 : Outcome.ret pc w = .ret (.done x) w1 := hrun
    simp only [Outcome.ret.injEq] at h2
    exact absurd h2.1 (hb x).2
  | .own :: es, enq, pc, w, w1, h, hb, hrun => by
    simp only [deqSystem] at hrun
    obtain ⟨pc2, w2, hs, hrun2⟩ := ret_of_bind hrun
    clear hrun
    obtain ⟨pc3, w3, hs3, hinv⟩ := deqStep_inv h
    rw [hs] at hs3
    simp only [Outcome.ret.injEq] at hs3
    obtain ⟨rfl, rfl⟩ := hs3
    by_cases hr : pc = .remove
    · subst hr
      obtain ⟨q, a, x0, rest, hh, hp⟩ := h
      obtain ⟨w4, q4, hs4, -, -⟩ := deqStep_remove_holds hh
      rw [hs] at hs4
      simp only [Outcome.ret.injEq] at hs4
      have hx : x = x0 := deqSystem_after es pc2 w2 w1 (Or.inl hs4.1) hrun2
      subst hx
      exact ⟨[], es, w, q, a, rest, rfl, rfl, hh,
        fun y hy => List.mem_append_left _ (hp y hy)⟩
    · obtain ⟨es1, es2, w4, q, a, rest, hes, hrun1, hh, hp⟩ :=
        deqSystem_removal es enq pc2 w2 w1 hinv (deqStep_before h hb hr hs) hrun2
      refine ⟨.own :: es1, es2, w4, q, a, rest, by rw [hes]; rfl, ?_, hh, hp⟩
      simp only [deqSystem, bind_apply, hs]
      exact hrun1
  | .other c :: es, enq, pc, w, w1, h, hb, hrun => by
    simp only [deqSystem] at hrun
    obtain ⟨r, w2, hc, hrun⟩ := ret_of_bind hrun
    obtain ⟨es1, es2, w4, q, a, rest, hes, hrun1, hh, hp⟩ :=
      deqSystem_removal es _ pc w2 w1 (call_inv h hc) hb hrun
    refine ⟨.other c :: es1, es2, w4, q, a, rest, by rw [hes]; rfl, ?_, hh, fun y hy => ?_⟩
    · simp only [deqSystem, bind_apply, hc]
      exact hrun1
    · have := hp y hy
      rw [itemsEnqueued_otherCalls_cons, ← List.append_assoc]
      exact this

/-- On an empty queue the thread goes from the guard to the wait in three steps, and the
queue is then as it was. -/
theorem deqSystem_to_wait {w : World} {q : Queue} (h : Holds w q []) :
    deqSystem [.own, .own, .own] .guard w = .ret .wait w := by
  obtain ⟨⟨hq, hm, hu, hc⟩, hhead, -, -⟩ := h
  have h1 := deqStep_guard w hq
  have h2 := deqStep_lock w q hm hu
  have h3 := deqStep_test_empty
    { w with mem := Function.update w.mem w.queue (some (.queue { q with mutex := .locked })) }
    { q with mutex := .locked } (by simp) rfl hc hhead
  simp only [deqSystem, bind_apply, h1, h2, h3, pure_apply, Outcome.ret.injEq, true_and]
  obtain ⟨p, mem, ml, cl, err⟩ := w
  obtain ⟨hd, tl, v, m, c⟩ := q
  simp only at hu hm
  subst hu
  simp only [Function.update_idem, World.mk.injEq, and_true, true_and]
  funext a
  by_cases ha : a = p
  · subst ha; simp [hm]
  · simp [ha]

/-- The test of the loop on an empty chain: the thread waits, and head, tail and the
counter are as they were. -/
theorem deqStep_test_waits {w : World} {q : Queue} (h : HoldsM .locked w q []) :
    ∃ w1 q1, deqStep .test w = .ret .wait w1 ∧ Holds w1 q1 [] ∧
      q1.head = q.head ∧ q1.tail = q.tail ∧ q1.visited = q.visited :=
  ⟨_, _, deqStep_test_empty w q h.2.1 h.2.2.1 h.2.2.2.1 h.2.2.2.2.1,
    holds_iff_holdsM.2 (h.setMutex .unlocked), rfl, rfl, rfl⟩

theorem deqSystem_append : ∀ (es1 es2 : List Event) (pc : DeqPc),
    deqSystem (es1 ++ es2) pc = deqSystem es1 pc >>= fun pc1 => deqSystem es2 pc1
  | [], es2, pc => by simp only [List.nil_append, deqSystem, pure_bind_M]
  | .own :: es1, es2, pc => by
    have ih := deqSystem_append es1 es2
    show deqSystem (.own :: (es1 ++ es2)) pc = _
    simp only [deqSystem, bind_assoc_M, ih]
  | .other c :: es1, es2, pc => by
    have ih := deqSystem_append es1 es2
    show deqSystem (.other c :: (es1 ++ es2)) pc = _
    simp only [deqSystem, bind_assoc_M, ih]

/-- Woken on a queue that is not empty, the thread returns the payload of the first cell
in four steps: `mtx_lock`, the test, the removal, `mtx_unlock`. -/
theorem deqSystem_wakes {w : World} {q : Queue} {a x : Ptr} {rest : List (Ptr × Ptr)}
    (h : Holds w q ((a, x) :: rest)) :
    ∃ w1 q1, deqSystem [.own, .own, .own, .own] .wait w = .ret (.done x) w1 ∧
      Holds w1 q1 rest ∧ q1.visited = (q.visited + 1) % SIZE_MOD := by
  have h1 := deqStep_wait w q h.1.2.1 h.1.2.2.1
  have hl := (holds_iff_holdsM.1 h).setMutex .locked
  have hne : ({ q with mutex := Mtx.locked } : Queue).head ≠ NULL := by
    rw [hl.2.2.2.2.1]; exact hl.2.2.2.2.2.2.1
  have h2 := deqStep_test _ _ hl.2.1 hne
  obtain ⟨w3, q3, h3, hl3, hv⟩ := deqStep_remove_holds hl
  have h4 := deqStep_unlock x w3 q3 hl3.2.1 hl3.2.2.1
  refine ⟨_, _, ?_, holds_iff_holdsM.2 (hl3.setMutex .unlocked), hv⟩
  simp only [deqSystem, bind_apply, h1, h2, h3, h4, pure_apply]

/-- A run in which the waiting thread returns: another thread enqueues 7. -/
theorem deqSystem_example :
    ∃ w1, deqSystem ([.own, .own, .own] ++ .other (.enqueue 7 2) :: [.own, .own, .own, .own])
      .guard (idleWorld 0) = .ret (.done 7) w1 := by
  obtain ⟨w1, hrun, hh, -⟩ := enqueue_holds (idleWorld_holds 0) 7 2 (by decide) (by simp [idleWorld])
  obtain ⟨w2, q2, hrun2, -⟩ := deqSystem_wakes hh
  refine ⟨w2, ?_⟩
  rw [deqSystem_append]
  simp only [bind_apply, deqSystem_to_wait (idleWorld_holds 0)]
  simp only [deqSystem, call, bind_apply, hrun, pure_apply] at hrun2 ⊢
  exact hrun2

/-! ## C12: blocking dequeue waits while the queue is empty -/

/-- C12: blocking `dequeue` never returns from an empty queue.  In a Ready state with an
empty chain the call does not return, however often the thread is woken, and leaves the
state as it was; statement by statement, the thread reaches the wait with the state
unchanged, and whenever it tests an empty chain it waits with head, tail and the counter
unchanged.  A wake-up leads to the test of the loop and nowhere else, and the removal is
reached from that test only, with a head that is not `NULL`.  Hence in every run with
other threads in which the call returns `x`, the removal was made in a state whose chain
starts with a cell holding `x`, and `x` was queued at the start or enqueued by another
thread before the removal. -/
theorem dequeue_waits_while_empty (w : World) (q : Queue) (h : Holds w q []) :
    (∀ k, dequeue k w = .blocked w) ∧
    deqSystem [.own, .own, .own] .guard w = .ret .wait w ∧
    (∀ w0 q0, HoldsM .locked w0 q0 [] →
      ∃ w1 q1, deqStep .test w0 = .ret .wait w1 ∧ Holds w1 q1 [] ∧
        q1.head = q0.head ∧ q1.tail = q0.tail ∧ q1.visited = q0.visited) ∧
    (∀ w0 pc1 w1, deqStep .wait w0 = .ret pc1 w1 → pc1 = .test) ∧
    (∀ pc w0 w1, deqStep pc w0 = .ret .remove w1 →
      pc = .test ∧ w1 = w0 ∧ ∃ q0, w0.mem w0.queue = some (.queue q0) ∧ q0.head ≠ NULL) ∧
    (∀ w0 q0 cs, Holds w0 q0 cs → ∀ es x w1, deqSystem es .guard w0 = .ret (.done x) w1 →
      ∃ es1 es2 w2 q2 a rest, es = es1 ++ .own :: es2 ∧
        deqSystem es1 .guard w0 = .ret .remove w2 ∧ HoldsM .locked w2 q2 ((a, x) :: rest) ∧
        x ∈ payloads cs ++ itemsEnqueued (otherCalls es1)) := by
  refine ⟨fun k => dequeue_run_empty k w q h.1.1 h.1.2.1 h.1.2.2.1 h.1.2.2.2 h.2.1,
    deqSystem_to_wait h, fun w0 q0 h0 => deqStep_test_waits h0,
    fun w0 pc1 w1 h0 => deqStep_wait_next h0, fun pc w0 w1 h0 => deqStep_to_remove h0,
    fun w0 q0 cs h0 es x w1 hrun => ?_⟩
  obtain ⟨es1, es2, w2, q2, a, rest, hes, hrun1, hh, hp⟩ :=
    deqSystem_removal es (payloads cs) .guard w0 w1 ⟨q0, cs, h0, fun y hy => hy⟩
      (fun y => ⟨by simp, by simp⟩) hrun
  exact ⟨es1, es2, w2, q2, a, rest, hes, hrun1, hh, hp x (by simp [payloads])⟩

theorem dequeue_waits_while_empty_witness :
    Holds (idleWorld 0) (idleQueue 0) [] ∧
    (∀ k, dequeue k (idleWorld 0) = .blocked (idleWorld 0)) ∧
    deqSystem [.own, .own, .own] .guard (idleWorld 0) = .ret .wait (idleWorld 0) ∧
    ∃ es1 es2 w2 q2 a rest,
      [.own, .own, .own] ++ .other (.enqueue 7 2) :: [.own, .own, .own, .own] =
        es1 ++ .own :: es2 ∧
      deqSystem es1 .guard (idleWorld 0) = .ret .remove w2 ∧
      HoldsM .locked w2 q2 ((a, 7) :: rest) ∧
      7 ∈ payloads [] ++ itemsEnqueued (otherCalls es1) :=
  have t := dequeue_waits_while_empty (idleWorld 0) (idleQueue 0) (idleWorld_holds 0)
  ⟨idleWorld_holds 0, t.1, t.2.1,
    deqSystem_example.elim fun w1 hrun =>
      t.2.2.2.2.2 (idleWorld 0) (idleQueue 0) [] (idleWorld_holds 0) _ 7 w1 hrun⟩

end TSQueue
